import Mathlib

/-!
Verification of the coroutine scheduler library (`src/unnamed/part_001`,
matching `src/lib/coroutines.js`): the `Schedule` linked-list scheduler,
the `all` and `first` combinators, and the `seconds`/`setClock` wait
primitive, shallowly embedded as executable Lean definitions.

Coroutines (JS generators) are modelled as state machines driven by an
environment: member `m`'s `k`-th resume has outcome `mb m k` (yield,
complete with a value, or raise).  A generator that has terminated
(normally, by error, or by a forced `return()`) is `finished`; calling
`next()` on it returns `done` with no value and runs no body code, and
calling `return()` on it is a no-op — mirroring JS generator semantics.
A generator's pending `finally` cleanup (modelled by the flag `cf m`)
fires exactly once, at its first termination, except that `return()`
before the first `next()` completes the generator without entering the
body, so no cleanup runs.
-/

/-- Outcome of running a member generator's body up to its next suspension:
it yields, returns a value, or throws. -/
inductive MOut where
  | yld : MOut
  | done : Nat → MOut
  | thr : MOut
deriving DecidableEq, Repr

/-- Behaviour environment for combinator members: `mb m k` is the outcome of
the `k`-th resume of member `m`'s body. -/
def MemberEnv : Type := Nat → Nat → MOut

/-- Runtime state of the member generators: how many times each body has been
resumed, and whether each generator has terminated. -/
structure MState where
  count : Nat → Nat
  finished : Nat → Bool

/-- The fresh member state: nobody resumed, nobody finished. -/
def MState.init : MState := ⟨fun _ => 0, fun _ => false⟩

/-- Observable events of a combinator run: member `m`'s body advanced for the
`k`-th time, member `m`'s pending cleanup ran, or member `m` received a
`return()` call. -/
inductive Ev where
  | res : Nat → Nat → Ev
  | cleanup : Nat → Ev
  | forcedRet : Nat → Ev
deriving DecidableEq, Repr

/-- Result of one `next()` call on a member. -/
inductive ResumeRes where
  | notDone : ResumeRes
  | isDone : Option Nat → ResumeRes
  | errored : ResumeRes
deriving DecidableEq, Repr

/-- `next()` on member `m`: a finished generator reports `done` with value
`undefined` and runs nothing; otherwise the body runs with outcome
`mb m (count m)`.  Completion and throwing both terminate the generator and
fire its pending cleanup (its `finally`), if it has one (`cf m`). -/
def resumeMember (mb : MemberEnv) (cf : Nat → Bool) (σ : MState) (m : Nat) :
    ResumeRes × MState × List Ev :=
  if σ.finished m then (.isDone none, σ, [])
  else
    let k := σ.count m
    match mb m k with
    | .yld => (.notDone, ⟨Function.update σ.count m (k + 1), σ.finished⟩, [.res m k])
    | .done v =>
        (.isDone (some v),
          ⟨Function.update σ.count m (k + 1), Function.update σ.finished m true⟩,
          .res m k :: (if cf m then [.cleanup m] else []))
    | .thr =>
        (.errored,
          ⟨Function.update σ.count m (k + 1), Function.update σ.finished m true⟩,
          .res m k :: (if cf m then [.cleanup m] else []))

/-- `return()` on member `m`: no-op on a finished generator; on a generator
that was never started it terminates it without entering the body (so no
cleanup); on a suspended generator it terminates it and fires its pending
cleanup. -/
def forceRetMember (cf : Nat → Bool) (σ : MState) (m : Nat) : MState × List Ev :=
  if σ.finished m then (σ, [.forcedRet m])
  else if σ.count m = 0 then (⟨σ.count, Function.update σ.finished m true⟩, [.forcedRet m])
  else
    (⟨σ.count, Function.update σ.finished m true⟩,
      .forcedRet m :: (if cf m then [.cleanup m] else []))

/-- The combinators' cancellation pass `for (const c of coros) c.return()`:
force-return each listed member, in list order. -/
def retPass (cf : Nat → Bool) : List Nat → MState → MState × List Ev
  | [], σ => (σ, [])
  | m :: ms, σ =>
      let r := forceRetMember cf σ m
      let rest := retPass cf ms r.1
      (rest.1, r.2 ++ rest.2)

/-- Result of resuming a combinator coroutine once. -/
inductive StepRes where
  | running : StepRes
  | completed : Option Nat → StepRes
  | errored : StepRes
deriving DecidableEq, Repr

/-- The scan of `first`'s loop body: `for (const c of coros) { let {done, value}
= c.next(); if (done) return value }` — resume members in declared order,
stopping at the first that reports done (or at a raised error). -/
inductive ScanRes where
  | yld : ScanRes
  | won : Option Nat → ScanRes
  | err : ScanRes
deriving DecidableEq, Repr

/-- One pass of `first`'s `for`-loop over the members. -/
def firstScan (mb : MemberEnv) (cf : Nat → Bool) : List Nat → MState → ScanRes × MState × List Ev
  | [], σ => (.yld, σ, [])
  | m :: ms, σ =>
      match resumeMember mb cf σ m with
      | (.notDone, σ', e) =>
          let rest := firstScan mb cf ms σ'
          (rest.1, rest.2.1, e ++ rest.2.2)
      | (.isDone v, σ', e) => (.won v, σ', e)
      | (.errored, σ', e) => (.err, σ', e)

/-- One resume of the coroutine produced by `first(...mems)`: scan the full
member list in declared order; if a member completes (or throws), the
`finally` block force-returns every member of the original list in declared
order before the value (or error) leaves the generator; otherwise yield. -/
def firstStep (mb : MemberEnv) (cf : Nat → Bool) (mems : List Nat) (σ : MState) :
    StepRes × MState × List Ev :=
  match firstScan mb cf mems σ with
  | (.yld, σ', e) => (.running, σ', e)
  | (.won v, σ', e) =>
      let p := retPass cf mems σ'
      (.completed v, p.1, e ++ p.2)
  | (.err, σ', e) =>
      let p := retPass cf mems σ'
      (.errored, p.1, e ++ p.2)

/-- Final status of a bounded run of a combinator coroutine. -/
inductive RunRes where
  | running : RunRes
  | completed : Option Nat → RunRes
  | errored : RunRes
deriving DecidableEq, Repr

/-- Resume the coroutine produced by `first` up to `n` times, collecting the
observable events. -/
def firstRunN (mb : MemberEnv) (cf : Nat → Bool) (mems : List Nat) :
    Nat → MState → RunRes × MState × List Ev
  | 0, σ => (.running, σ, [])
  | n + 1, σ =>
      match firstStep mb cf mems σ with
      | (.running, σ', e) =>
          let rest := firstRunN mb cf mems n σ'
          (rest.1, rest.2.1, e ++ rest.2.2)
      | (.completed v, σ', e) => (.completed v, σ', e)
      | (.errored, σ', e) => (.errored, σ', e)

/-- `first`'s initial member list: `coros.map(initialize)` — normalization of
factories is the identity on member handles, so the declared list itself. -/
def firstInit (mems : List Nat) : List Nat := mems

/-- `all`'s inner loop `let i = coros.length; while (i--) if (coros[i].next().done)
coros.splice(i, 1)`, by recursion on the loop counter: iteration with counter
`i + 1` resumes the element at index `i` of the current array and splices it
out if done; a raised error aborts the loop at once (no splice for the
raising element, lower indices unprocessed). -/
def allScanIdx (mb : MemberEnv) (cf : Nat → Bool) :
    Nat → List Nat → MState → List Nat × MState × List Ev × Bool
  | 0, rs, σ => (rs, σ, [], false)
  | i + 1, rs, σ =>
      match rs[i]? with
      | none => (rs, σ, [], false)
      | some m =>
          match resumeMember mb cf σ m with
          | (.notDone, σ', e) =>
              let rest := allScanIdx mb cf i rs σ'
              (rest.1, rest.2.1, e ++ rest.2.2.1, rest.2.2.2)
          | (.isDone _, σ', e) =>
              let rest := allScanIdx mb cf i (rs.eraseIdx i) σ'
              (rest.1, rest.2.1, e ++ rest.2.2.1, rest.2.2.2)
          | (.errored, σ', e) => (rs, σ', e, true)

/-- `all`'s initial internal array: `coros.map(initialize).reverse()` — the
declared member list reversed (factory normalization is the identity). -/
def allInit (mems : List Nat) : List Nat := mems.reverse

/-- One resume of the coroutine produced by `all`: run the descending-index
scan over the internal array; on an error the `finally` block force-returns
the members left in the internal array, in array order, before the error
leaves the generator; on an emptied array the combinator returns (the
`finally` pass then walks the empty array); otherwise yield once. -/
def allStep (mb : MemberEnv) (cf : Nat → Bool) (rs : List Nat) (σ : MState) :
    StepRes × List Nat × MState × List Ev :=
  let scan := allScanIdx mb cf rs.length rs σ
  let rs' := scan.1
  if scan.2.2.2 then
    let p := retPass cf rs' scan.2.1
    (.errored, rs', p.1, scan.2.2.1 ++ p.2)
  else if rs' = [] then
    let p := retPass cf [] scan.2.1
    (.completed none, [], p.1, scan.2.2.1 ++ p.2)
  else (.running, rs', scan.2.1, scan.2.2.1)

/-- `return()` on the coroutine produced by `all` while it is suspended at its
`yield`: the `finally` block force-returns every member still in the internal
array, in array order. -/
def allCancel (cf : Nat → Bool) (rs : List Nat) (σ : MState) : MState × List Ev :=
  retPass cf rs σ

/-- Resume the coroutine produced by `all` up to `n` times, collecting the
internal array, state and events. -/
def allRunN (mb : MemberEnv) (cf : Nat → Bool) :
    Nat → List Nat → MState → RunRes × List Nat × MState × List Ev
  | 0, rs, σ => (.running, rs, σ, [])
  | n + 1, rs, σ =>
      match allStep mb cf rs σ with
      | (.running, rs', σ', e) =>
          let rest := allRunN mb cf n rs' σ'
          (rest.1, rest.2.1, rest.2.2.1, e ++ rest.2.2.2)
      | (.completed v, rs', σ', e) => (.completed v, rs', σ', e)
      | (.errored, rs', σ', e) => (.errored, rs', σ', e)

/-!  The clock and the `seconds` wait.  A clock function maps the ambient
world instant (an external parameter supplied at each call) to elapsed
seconds. -/

/-- A clock function: elapsed seconds as a function of the ambient instant. -/
def ClockFn : Type := Nat → Int

/-- The module-level replaceable clock state (`let _clock = ...`). -/
structure ClockWorld where
  live : ClockFn

/-- `setClock(f)`: replace the module-level clock function. -/
def setClock (f : ClockFn) (_w : ClockWorld) : ClockWorld := ⟨f⟩

/-- The generator object created by calling `seconds(s, clock = _clock)`:
the default parameter captures the clock function *live at creation*; the
start sample is not taken until the first resume. -/
structure SecondsGen where
  clock : ClockFn
  startTime : Option Int

/-- Calling `seconds(s, clock = _clock)` with the clock argument omitted:
binds the parameter `clock` to the module clock current at call time and
returns the (not yet started) generator. -/
def seconds (w : ClockWorld) : SecondsGen := ⟨w.live, none⟩

/-- `next()` on a `seconds(s)` generator: the first resume samples
`startTime = clock()`; every resume then reports done iff
`clock() - startTime < s` fails, where `clock` is the function captured at
creation.  `t` is the ambient instant during this resume. -/
def secondsNext (s : Int) (g : SecondsGen) (t : Nat) : Bool × SecondsGen :=
  match g.startTime with
  | none =>
      let st := g.clock t
      (decide (s ≤ g.clock t - st), ⟨g.clock, some st⟩)
  | some st => (decide (s ≤ g.clock t - st), g)

/-- Claim-side variant of `secondsNext`, following the specification's words
for C6: the "now" side of the comparison rereads the *currently-live* module
clock on each check (the start sample side stays as captured). -/
def secondsNextSpec (s : Int) (w : ClockWorld) (g : SecondsGen) (t : Nat) :
    Bool × SecondsGen :=
  match g.startTime with
  | none =>
      let st := g.clock t
      (decide (s ≤ w.live t - st), ⟨g.clock, some st⟩)
  | some st => (decide (s ≤ w.live t - st), g)

/-- Operations on the clock world paired with one in-flight `seconds` wait:
replace the module clock, or resume the wait at an ambient instant. -/
inductive COp where
  | set : ClockFn → COp
  | res : Nat → COp

/-- Run a sequence of clock-world operations against one `seconds(s)` wait,
collecting each resume's done flag. -/
def runClockOps (s : Int) : List COp → ClockWorld → SecondsGen → List Bool
  | [], _, _ => []
  | .set f :: ops, w, g => runClockOps s ops (setClock f w) g
  | .res t :: ops, w, g =>
      let r := secondsNext s g t
      r.1 :: runClockOps s ops w r.2

/-!  The `Schedule`: a singly-linked list of nodes `{ link, coro }` with
`front` and `back` pointers and a live `size`, per `src/unnamed/part_001`.
The mutable node heap is modelled as an append-only arena (`heap : List
SNode`), a node's identity being its arena index; JS pointer equality on
nodes is equality of indices.  Dereferencing a null pointer is a JS
`TypeError`; a loop whose body provably repeats an identical state forever
is marked as divergence. -/

/-- A schedule node: `{ link: nextNode|null, coro }`.  Coroutines are
identified by numeric handles. -/
structure SNode where
  link : Option Nat
  coro : Nat
deriving DecidableEq, Repr

/-- The schedule: node arena plus `front`/`back` pointers and `size`. -/
structure Schedule where
  heap : List SNode
  front : Option Nat
  back : Option Nat
  size : Nat
deriving DecidableEq, Repr

/-- `new Schedule()`. -/
def Schedule.new : Schedule := ⟨[], none, none, 0⟩

/-- Read a node from the arena (junk default for out-of-range indices,
which well-formed states never produce). -/
def Schedule.node (s : Schedule) (i : Nat) : SNode := s.heap.getD i ⟨none, 0⟩

/-- `Schedule.add(coro)`: append a fresh node at the tail.  (Normalizing a
generator function to a generator is the identity on handles.)  Writing
`this.back.link` when `back` is null would be a JS `TypeError`, encoded as
`none`; the returned handle is `c` itself. -/
def Schedule.add (s : Schedule) (c : Nat) : Option Schedule :=
  let id := s.heap.length
  let nd : SNode := ⟨none, c⟩
  if s.size = 0 then
    some ⟨s.heap ++ [nd], some id, some id, s.size + 1⟩
  else
    match s.back with
    | none => none
    | some b =>
        some ⟨(s.heap.set b ⟨some id, (s.node b).coro⟩) ++ [nd], s.front, some id, s.size + 1⟩

/-- Result of `Schedule.remove`: a new state, a thrown JS `TypeError` (the
state is unchanged, every throw point preceding any mutation), or
divergence. -/
inductive RmRes where
  | ok : Schedule → RmRes
  | thrown : RmRes
  | hang : RmRes
deriving DecidableEq, Repr

/-- `Schedule.remove(coro)`, exactly as in the source.  `this.front.coro`
throws when the schedule is empty.  The search loop `while(node) {
if(node.link.coro === coro) {...return} }` never advances `node`, so its
first iteration determines everything: with `node = front`, a null
`front.link` makes `node.link.coro` throw; a match at `front.link` unlinks
it (updating `back` if it was last); otherwise the loop repeats the same
test forever. -/
def Schedule.remove (s : Schedule) (c : Nat) : RmRes :=
  match s.front with
  | none => .thrown
  | some f =>
      if (s.node f).coro = c then
        match s.back with
        | none => .thrown
        | some b =>
            let s1 := if (s.node b).coro = c then { s with back := (s.node b).link } else s
            .ok { s1 with front := (s1.node f).link, size := s1.size - 1 }
      else
        match (s.node f).link with
        | none => .thrown
        | some l =>
            if (s.node l).coro = c then
              let s1 := if s.back = some l then { s with back := some f } else s
              .ok { s1 with
                      heap := s1.heap.set f ⟨(s1.node l).link, (s1.node f).coro⟩,
                      size := s1.size - 1 }
            else .hang

/-- `Schedule.removeAll()`: clear the pointers and the count in O(1). -/
def Schedule.removeAll (s : Schedule) : Schedule := ⟨s.heap, none, none, 0⟩

/-- Outcome of one scheduled coroutine body execution during `tick`. -/
inductive ROut where
  | yld : ROut
  | done : ROut
  | thr : ROut
deriving DecidableEq, Repr

/-- Behaviour environment for scheduled coroutines: `out c k` is the outcome
of coroutine `c`'s `k`-th body run, and `adds c k` the handles it
`Schedule.add`s to the schedule during that run. -/
structure CoroEnv where
  out : Nat → Nat → ROut
  adds : Nat → Nat → List Nat

/-- Runtime state of the scheduled generators (resume counts, terminated
flags), shared across ticks. -/
structure RtState where
  count : Nat → Nat
  finished : Nat → Bool

/-- The fresh runtime state. -/
def RtState.init : RtState := ⟨fun _ => 0, fun _ => false⟩

/-- `next()` on scheduled coroutine `c`: a finished generator reports done
and runs nothing (so adds nothing); otherwise the body runs, possibly adding
coroutines to the schedule, and yields, completes or throws. -/
def resumeCo (env : CoroEnv) (rt : RtState) (c : Nat) : ROut × List Nat × RtState :=
  if rt.finished c then (.done, [], rt)
  else
    let k := rt.count c
    let o := env.out c k
    (o, env.adds c k,
      ⟨Function.update rt.count c (k + 1),
        match o with
        | .yld => rt.finished
        | _ => Function.update rt.finished c true⟩)

/-- Apply a run of mid-tick `Schedule.add` calls in order. -/
def applyAdds : Schedule → List Nat → Option Schedule
  | s, [] => some s
  | s, c :: cs =>
      match s.add c with
      | none => none
      | some s' => applyAdds s' cs

/-- Result of `Schedule.tick()`: normal return, or a propagated error; both
carry the schedule, the runtime state and the trace of coroutine handles on
which `next()` was called, in call order. -/
inductive TickRes where
  | ok : Schedule → RtState → List Nat → TickRes
  | thrown : Schedule → RtState → List Nat → TickRes

/-- The body of `Schedule.tick()`: `let size = this.size` iterations (the
fuel), carrying `lastRetained` and `node`.  A null `node` mid-count is a
`TypeError` (`node.coro`).  Per iteration: resume the node's coroutine
(mid-run adds land at the back and do not extend the fuel); a throw
propagates at once leaving the bookkeeping as is; a done result decrements
`size` and unlinks the node (splicing `lastRetained.link`, or advancing
`front`, and pulling `back` in); otherwise the node becomes `lastRetained`.
Then `node = node.link`, read after any mutations. -/
def tickLoop (env : CoroEnv) :
    Nat → Option Nat → Option Nat → Schedule → RtState → List Nat → TickRes
  | 0, _, _, s, rt, tr => .ok s rt tr
  | fuel + 1, lr, node, s, rt, tr =>
      match node with
      | none => .thrown s rt tr
      | some nid =>
          let c := (s.node nid).coro
          let r := resumeCo env rt c
          match applyAdds s r.2.1 with
          | none => .thrown s r.2.2 (tr ++ [c])
          | some s1 =>
              match r.1 with
              | .thr => .thrown s1 r.2.2 (tr ++ [c])
              | .yld => tickLoop env fuel (some nid) ((s1.node nid).link) s1 r.2.2 (tr ++ [c])
              | .done =>
                  let s2 :=
                    match lr with
                    | some l =>
                        let sA := { s1 with
                                      size := s1.size - 1,
                                      heap := s1.heap.set l ⟨(s1.node nid).link, (s1.node l).coro⟩ }
                        if sA.back = some nid then { sA with back := some l } else sA
                    | none =>
                        let sA := { s1 with size := s1.size - 1, front := (s1.node nid).link }
                        if sA.back = some nid then { sA with back := (s1.node nid).link } else sA
                  tickLoop env fuel lr ((s2.node nid).link) s2 r.2.2 (tr ++ [c])

/-- `Schedule.tick()`. -/
def Schedule.tick (env : CoroEnv) (s : Schedule) (rt : RtState) : TickRes :=
  tickLoop env s.size none s.front s rt []

/-- The node ids reachable by following `link`s, with explicit fuel (links
strictly increase in well-formed arenas, so `heap.length` fuel is always
enough). -/
def reachAux (heap : List SNode) : Nat → Option Nat → List Nat
  | _, none => []
  | 0, some _ => []
  | fuel + 1, some i => i :: reachAux heap fuel (heap.getD i ⟨none, 0⟩).link

/-- The node ids reachable from `front`, in list order. -/
def reach (s : Schedule) : List Nat := reachAux s.heap s.heap.length s.front

/-- The coroutine handles reachable from `front`, in list order. -/
def liveCoros (s : Schedule) : List Nat := (reach s).map fun i => (s.node i).coro

/-- Structural arena soundness: every stored link and the `front`/`back`
pointers index into the arena, and links strictly increase (nodes only ever
point at later-allocated nodes). -/
def structOkB (s : Schedule) : Bool :=
  ((List.range s.heap.length).all fun i =>
      match (s.node i).link with
      | none => true
      | some j => decide (i < j) && decide (j < s.heap.length)) &&
    (match s.front with | none => true | some i => decide (i < s.heap.length)) &&
    (match s.back with | none => true | some i => decide (i < s.heap.length))

/-- Full well-formedness: structural soundness, `size` equals the number of
reachable entries, and `back` is the last reachable entry (or null when
empty). -/
def wfB (s : Schedule) : Bool :=
  structOkB s && decide (s.size = (reach s).length) &&
    decide (s.back = (reach s).getLast?)

/-- Driver-level operations on a schedule. -/
inductive Op where
  | add : Nat → Op
  | remove : Nat → Op
  | removeAll : Op
  | tick : Op

/-- Run a sequence of driver operations from a state.  A thrown JS error
propagates to the driver, who may keep going with the state left behind
(`remove` throws before mutating; `tick` keeps its partial bookkeeping);
divergence (`remove`'s stuck search loop) and the `TypeError` of `add` on a
corrupt state yield `none`: there is no after-state. -/
def runOps (env : CoroEnv) : List Op → Schedule → RtState → Option (Schedule × RtState)
  | [], s, rt => some (s, rt)
  | .add c :: ops, s, rt =>
      match s.add c with
      | none => none
      | some s' => runOps env ops s' rt
  | .remove c :: ops, s, rt =>
      match s.remove c with
      | .ok s' => runOps env ops s' rt
      | .thrown => runOps env ops s rt
      | .hang => none
  | .removeAll :: ops, s, rt => runOps env ops s.removeAll rt
  | .tick :: ops, s, rt =>
      match s.tick env rt with
      | .ok s' rt' _ => runOps env ops s' rt'
      | .thrown s' rt' _ => runOps env ops s' rt'

/-!  Proof-side auxiliary definitions. -/

/-- Forward reformulation of `allScanIdx` (proof helper): process the
*reversed* internal array front to back; the kept elements come out in
processing order, an error keeps the raising element and everything not yet
processed. -/
def allScanFwd (mb : MemberEnv) (cf : Nat → Bool) :
    List Nat → MState → List Nat × MState × List Ev × Bool
  | [], σ => ([], σ, [], false)
  | m :: ms, σ =>
      match resumeMember mb cf σ m with
      | (.errored, σ', e) => (m :: ms, σ', e, true)
      | (.isDone _, σ', e) =>
          let rest := allScanFwd mb cf ms σ'
          (rest.1, rest.2.1, e ++ rest.2.2.1, rest.2.2.2)
      | (.notDone, σ', e) =>
          let rest := allScanFwd mb cf ms σ'
          (m :: rest.1, rest.2.1, e ++ rest.2.2.1, rest.2.2.2)

/-- The outcome `next()` on scheduled coroutine `c` would have right now:
done without running the body if the generator is finished, otherwise the
body outcome at the current resume count. -/
def tickDecide (env : CoroEnv) (rt : RtState) (c : Nat) : ROut :=
  if rt.finished c then .done else env.out c (rt.count c)

/-- The coroutine handles a full `tick()` from this state would add to the
schedule (each live unfinished coroutine's adds at its current resume
count, in registration order). -/
def addsPreview (env : CoroEnv) (s : Schedule) (rt : RtState) : List Nat :=
  (liveCoros s).flatMap fun c => if rt.finished c then [] else env.adds c (rt.count c)

/-- Links strictly increase and stay in the arena: nodes only point at
later-allocated nodes. -/
def LinksInc (h : List SNode) : Prop :=
  ∀ i, i < h.length → ∀ j, (h.getD i ⟨none, 0⟩).link = some j → i < j ∧ j < h.length

/-- A pointer is null or indexes the arena. -/
def PtrOk (h : List SNode) (o : Option Nat) : Prop :=
  ∀ i, o = some i → i < h.length

/-- The nodes reachable from an arbitrary pointer, with the canonical fuel. -/
def chain (h : List SNode) (o : Option Nat) : List Nat := reachAux h h.length o

/-- `pathTo h f A t`: following links from pointer `f` visits exactly the
nodes `A` and then arrives at pointer `t`. -/
def pathTo (h : List SNode) : Option Nat → List Nat → Option Nat → Prop
  | f, [], t => f = t
  | f, a :: as, t => f = some a ∧ pathTo h (h.getD a ⟨none, 0⟩).link as t

/-- Admissibility of a driver-operation sequence, per the data model's
"a coroutine appears at most once" invariant: an added handle is not
currently scheduled, and the handles a tick adds from within are fresh and
mutually distinct. -/
def OpsOk (env : CoroEnv) : List Op → Schedule → RtState → Bool
  | [], _, _ => true
  | .add c :: ops, s, rt =>
      !decide (c ∈ liveCoros s) &&
        (match s.add c with
         | none => true
         | some s' => OpsOk env ops s' rt)
  | .remove c :: ops, s, rt =>
      match s.remove c with
      | .ok s' => OpsOk env ops s' rt
      | .thrown => OpsOk env ops s rt
      | .hang => true
  | .removeAll :: ops, s, rt => OpsOk env ops s.removeAll rt
  | .tick :: ops, s, rt =>
      decide (liveCoros s ++ addsPreview env s rt).Nodup &&
        (match s.tick env rt with
         | .ok s' rt' _ => OpsOk env ops s' rt'
         | .thrown s' rt' _ => OpsOk env ops s' rt')

/-- The schedule left behind by a `tick()`, whether it returned or threw. -/
def TickRes.sched : TickRes → Schedule
  | .ok s _ _ => s
  | .thrown s _ _ => s

/-- The runtime state left behind by a `tick()`. -/
def TickRes.rts : TickRes → RtState
  | .ok _ rt _ => rt
  | .thrown _ rt _ => rt

/-- The handles `tick()` called `next()` on, in call order. -/
def TickRes.trace : TickRes → List Nat
  | .ok _ _ tr => tr
  | .thrown _ _ tr => tr

/-- Did `tick()` return normally? -/
def TickRes.isOk : TickRes → Bool
  | .ok _ _ _ => true
  | .thrown _ _ _ => false

/-- The runtime state after calling `next()` on each listed handle in
order. -/
def rtAfter (env : CoroEnv) : RtState → List Nat → RtState
  | rt, [] => rt
  | rt, c :: cs => rtAfter env (resumeCo env rt c).2.2 cs

/-- The coroutine handles stored at a list of node ids. -/
def corosOf (s : Schedule) (V : List Nat) : List Nat :=
  V.map fun i => (s.node i).coro

/-!  Concrete example states for counterexamples and witnesses. -/

/-- A schedule holding coroutines 10 and 20, built through the API. -/
def schedAB : Schedule := ((Schedule.new.add 10).bind (·.add 20)).getD Schedule.new

/-- A schedule holding coroutines 10, 20 and 30, built through the API. -/
def schedABC : Schedule :=
  (((Schedule.new.add 10).bind (·.add 20)).bind (·.add 30)).getD Schedule.new

/-- The constant-zero clock. -/
def clockZero : ClockFn := fun _ => 0

/-- The constant-hundred clock. -/
def clockHundred : ClockFn := fun _ => 100

/-- Scheduled-coroutine behaviour for tick witnesses: coroutine 20 completes
on its first resume, every other resume yields; coroutine 10's first body
run adds coroutine 30 to the schedule mid-tick. -/
def envTick : CoroEnv :=
  ⟨fun c k => if c = 20 ∧ k = 0 then .done else .yld,
   fun c k => if c = 10 ∧ k = 0 then [30] else []⟩

/-- Scheduled-coroutine behaviour for throw witnesses: coroutine 20's first
resume throws, every other resume yields; nothing is added mid-tick. -/
def envThrow : CoroEnv :=
  ⟨fun c k => if c = 20 ∧ k = 0 then .thr else .yld, fun _ _ => []⟩

/-- A driver-operation sequence exercising every operation, including a
`tick` in which a resume throws partway through. -/
def opsC4 : List Op :=
  [.tick, .tick, .add 40, .remove 10, .tick, .removeAll, .add 50]


/-!  ## Theorems -/

/-- C10: `first` applied to an empty member list produces a coroutine that
never completes: every resume executes no member (no events) and yields
(`done = false`, i.e. still running), for any number of resumes. -/
theorem first_empty_never_completes (mb : MemberEnv) (cf : Nat → Bool) (n : Nat) (σ : MState) :
    firstRunN mb cf [] n σ = (.running, σ, []) := by
  induction n with
  | zero => rfl
  | succ n ih => simp [firstRunN, firstStep, firstScan, ih]

/-- C6 counterexample: a `seconds(10)` wait created while the module clock is
the constant-0 clock, resumed once (capturing start sample 0), then checked
after `setClock` installs the constant-100 clock.  The code's check still
uses the captured clock and stays waiting (`false`), while the claim's
"now side rereads the currently-live clock" check would complete (`true`). -/
theorem seconds_setClock_counterexample :
    (secondsNext 10 (secondsNext 10 (seconds ⟨clockZero⟩) 0).2 1).1 = false ∧
    (secondsNextSpec 10 (setClock clockHundred ⟨clockZero⟩)
        (secondsNext 10 (seconds ⟨clockZero⟩) 0).2 1).1 = true := by
  constructor <;> rfl

/-- Replacing the module clock leaves every later resume of an existing
`seconds` wait untouched (the wait holds its own reference). -/
theorem runClockOps_world_irrel (s : Int) (ops : List COp) (w w' : ClockWorld)
    (g : SecondsGen) : runClockOps s ops w g = runClockOps s ops w' g := by
  induction ops generalizing w w' g with
  | nil => rfl
  | cons op ops ih =>
      cases op with
      | set f => simpa [runClockOps] using ih _ _ _
      | res t => simp [runClockOps]; exact ih _ _ _

/-- C6 amended: a `seconds(s)` wait binds the clock *function* itself when the
generator is created (the default parameter evaluates the module clock at
call time), so a later `setClock` replacement has no effect whatsoever on an
existing wait — neither on its start sample nor on any later check; only
waits created after the replacement observe the new clock. -/
theorem seconds_unaffected_by_setClock (s : Int) (f : ClockFn) (ops₁ ops₂ : List COp)
    (w : ClockWorld) (g : SecondsGen) :
    runClockOps s (ops₁ ++ COp.set f :: ops₂) w g = runClockOps s (ops₁ ++ ops₂) w g ∧
    seconds (setClock f w) = ⟨f, none⟩ := by
  refine ⟨?_, rfl⟩
  induction ops₁ generalizing w g with
  | nil => simpa [runClockOps] using runClockOps_world_irrel s ops₂ (setClock f w) w g
  | cons op ops ih =>
      cases op with
      | set f' => simpa [runClockOps] using ih (setClock f' w) g
      | res t => simp [runClockOps, ih]

/-- C5 (code bug): `remove` of a handle that is not present crashes instead of
being a no-op.  On an empty schedule `this.front.coro` throws a `TypeError`;
on a one-entry schedule the search loop reads `node.link.coro` off a null
link and throws; with two or more entries the search loop (whose body never
advances `node`) spins forever. -/
theorem remove_absent_crashes :
    Schedule.new.remove 5 = RmRes.thrown ∧
    ((Schedule.new.add 10).getD Schedule.new).remove 5 = RmRes.thrown ∧
    schedAB.remove 99 = RmRes.hang := by
  refine ⟨rfl, by decide, by decide⟩

/-- C8 (code bug): removing the last entry updates the back pointer correctly
only when that entry is the front node or its immediate successor (shown for
the two-entry schedule, whose result is well-formed with `back` pulled to the
surviving node); on any schedule of three or more entries the search loop
never advances past the front node, so `remove` of the last entry loops
forever and the back pointer is never updated. -/
theorem remove_tail_update_bug :
    schedABC.remove 30 = RmRes.hang ∧
    schedAB.remove 20 = RmRes.ok ⟨[⟨none, 10⟩, ⟨none, 20⟩], some 0, some 0, 1⟩ ∧
    wfB ⟨[⟨none, 10⟩, ⟨none, 20⟩], some 0, some 0, 1⟩ = true := by
  refine ⟨by decide, by decide, by decide⟩

/-!  ### Member-level unfolding lemmas -/

theorem resumeMember_finished (mb : MemberEnv) (cf : Nat → Bool) (σ : MState) (m : Nat)
    (h : σ.finished m = true) : resumeMember mb cf σ m = (.isDone none, σ, []) := by
  simp [resumeMember, h]

theorem resumeMember_yld (mb : MemberEnv) (cf : Nat → Bool) (σ : MState) (m : Nat)
    (h : σ.finished m = false) (h2 : mb m (σ.count m) = .yld) :
    resumeMember mb cf σ m =
      (.notDone, ⟨Function.update σ.count m (σ.count m + 1), σ.finished⟩,
        [.res m (σ.count m)]) := by
  simp [resumeMember, h, h2]

theorem resumeMember_done (mb : MemberEnv) (cf : Nat → Bool) (σ : MState) (m v : Nat)
    (h : σ.finished m = false) (h2 : mb m (σ.count m) = .done v) :
    resumeMember mb cf σ m =
      (.isDone (some v),
        ⟨Function.update σ.count m (σ.count m + 1), Function.update σ.finished m true⟩,
        .res m (σ.count m) :: (if cf m then [.cleanup m] else [])) := by
  simp [resumeMember, h, h2]

theorem resumeMember_thr (mb : MemberEnv) (cf : Nat → Bool) (σ : MState) (m : Nat)
    (h : σ.finished m = false) (h2 : mb m (σ.count m) = .thr) :
    resumeMember mb cf σ m =
      (.errored,
        ⟨Function.update σ.count m (σ.count m + 1), Function.update σ.finished m true⟩,
        .res m (σ.count m) :: (if cf m then [.cleanup m] else [])) := by
  simp [resumeMember, h, h2]

/-- Events of the cancellation pass, for a duplicate-free member list: every
member receives `return()` in list order; cleanup fires exactly for started,
unfinished members that have one. -/
theorem retPass_events (cf : Nat → Bool) (ms : List Nat) (σ : MState) (hnd : ms.Nodup) :
    (retPass cf ms σ).2 =
      ms.flatMap fun m =>
        .forcedRet m ::
          (if σ.finished m = false ∧ σ.count m ≠ 0 ∧ cf m then [.cleanup m] else []) := by
  induction ms generalizing σ with
  | nil => rfl
  | cons m ms ih =>
      have hm : m ∉ ms := (List.nodup_cons.mp hnd).1
      have hnd' : ms.Nodup := (List.nodup_cons.mp hnd).2
      have hstate : ∀ σ', (forceRetMember cf σ m).1 = σ' →
          (∀ j, j ≠ m → σ'.count j = σ.count j ∧ σ'.finished j = σ.finished j) := by
        intro σ' hσ' j hj
        subst hσ'
        unfold forceRetMember
        split
        · exact ⟨rfl, rfl⟩
        · split <;> simp [Function.update_apply, hj]
      rw [List.flatMap_cons]
      show (forceRetMember cf σ m).2 ++ (retPass cf ms (forceRetMember cf σ m).1).2 = _
      rw [ih _ hnd']
      congr 1
      · unfold forceRetMember
        split
        · rename_i hfin
          simp [hfin]
        · split <;> rename_i hfin h0
          · simp [h0]
          · simp at hfin
            simp [hfin, h0]
      · refine List.flatMap_congr fun x hx => ?_
        have hxm : x ≠ m := fun he => hm (he ▸ hx)
        rcases hstate _ rfl x hxm with ⟨hc, hf⟩
        rw [hc, hf]

/-- Characterization of the forward scan on a duplicate-free list with no
throwing member: no error, survivors are exactly the members that yielded
(in order), one `res` event per member in order (with cleanup right after a
completing member), all counts bumped, completers marked finished. -/
theorem allScanFwd_clean (mb : MemberEnv) (cf : Nat → Bool) (ps : List Nat) (σ : MState)
    (hnd : ps.Nodup)
    (hf : ∀ m ∈ ps, σ.finished m = false)
    (ht : ∀ m ∈ ps, mb m (σ.count m) ≠ .thr) :
    (allScanFwd mb cf ps σ).2.2.2 = false ∧
    (allScanFwd mb cf ps σ).1 = ps.filter (fun m => decide (mb m (σ.count m) = MOut.yld)) ∧
    (allScanFwd mb cf ps σ).2.2.1 =
      ps.flatMap (fun m => Ev.res m (σ.count m) ::
        (if mb m (σ.count m) ≠ MOut.yld ∧ cf m then [Ev.cleanup m] else [])) ∧
    (∀ j, (allScanFwd mb cf ps σ).2.1.count j =
      if j ∈ ps then σ.count j + 1 else σ.count j) ∧
    (∀ j, (allScanFwd mb cf ps σ).2.1.finished j =
      if j ∈ ps ∧ mb j (σ.count j) ≠ MOut.yld then true else σ.finished j) := by
  induction ps generalizing σ with
  | nil => refine ⟨rfl, rfl, rfl, fun j => by simp [allScanFwd], fun j => by simp [allScanFwd]⟩
  | cons m ms ih =>
      have hm : m ∉ ms := (List.nodup_cons.mp hnd).1
      have hnd' : ms.Nodup := (List.nodup_cons.mp hnd).2
      have hfm : σ.finished m = false := hf m (by simp)
      cases hmb : mb m (σ.count m) with
      | thr => exact absurd hmb (ht m (by simp))
      | yld =>
          have hrw := resumeMember_yld mb cf σ m hfm hmb
          set σ₁ : MState := ⟨Function.update σ.count m (σ.count m + 1), σ.finished⟩ with hσ₁
          have hc1 : ∀ j, j ≠ m → σ₁.count j = σ.count j := fun j hj =>
            Function.update_noteq hj _ _
          have hne : ∀ x ∈ ms, x ≠ m := fun x hx he => hm (he ▸ hx)
          obtain ⟨e1, e2, e3, e4, e5⟩ := ih σ₁ hnd'
            (fun x hx => hf x (by simp [hx]))
            (fun x hx => by
              show mb x (σ₁.count x) ≠ MOut.thr
              rw [show σ₁.count x = σ.count x from hc1 x (hne x hx)]
              exact ht x (by simp [hx]))
          have hfc : ms.filter (fun x => decide (mb x (σ₁.count x) = MOut.yld)) =
              ms.filter (fun x => decide (mb x (σ.count x) = MOut.yld)) :=
            List.filter_congr fun x hx => by rw [hc1 x (hne x hx)]
          have hec : (ms.flatMap fun x => Ev.res x (σ₁.count x) ::
                (if mb x (σ₁.count x) ≠ MOut.yld ∧ cf x then [Ev.cleanup x] else [])) =
              ms.flatMap fun x => Ev.res x (σ.count x) ::
                (if mb x (σ.count x) ≠ MOut.yld ∧ cf x then [Ev.cleanup x] else []) :=
            List.flatMap_congr fun x hx => by rw [hc1 x (hne x hx)]
          refine ⟨?_, ?_, ?_, ?_, ?_⟩
          · show (allScanFwd mb cf (m :: ms) σ).2.2.2 = false
            simp only [allScanFwd, hrw]
            exact e1
          · show (allScanFwd mb cf (m :: ms) σ).1 = _
            simp only [allScanFwd, hrw]
            rw [e2, hfc]
            simp [List.filter_cons, hmb]
          · show (allScanFwd mb cf (m :: ms) σ).2.2.1 = _
            simp only [allScanFwd, hrw]
            rw [e3, hec, List.flatMap_cons]
            simp [hmb]
          · intro j
            show (allScanFwd mb cf (m :: ms) σ).2.1.count j = _
            simp only [allScanFwd, hrw]
            rw [e4 j]
            by_cases hj : j = m
            · subst hj
              simp [hm, Function.update_same]
            · simp [hj, hc1 j hj]
          · intro j
            show (allScanFwd mb cf (m :: ms) σ).2.1.finished j = _
            simp only [allScanFwd, hrw]
            rw [e5 j]
            by_cases hj : j = m
            · subst hj
              simp [hm, hσ₁, hmb]
            · by_cases hjm : j ∈ ms
              · simp [hj, hjm, hc1 j hj]
              · simp [hj, hjm]
      | done v =>
          have hrw := resumeMember_done mb cf σ m v hfm hmb
          set σ₁ : MState := ⟨Function.update σ.count m (σ.count m + 1),
            Function.update σ.finished m true⟩ with hσ₁
          have hc1 : ∀ j, j ≠ m → σ₁.count j = σ.count j := fun j hj =>
            Function.update_noteq hj _ _
          have hf1 : ∀ j, j ≠ m → σ₁.finished j = σ.finished j := fun j hj =>
            Function.update_noteq hj _ _
          have hne : ∀ x ∈ ms, x ≠ m := fun x hx he => hm (he ▸ hx)
          obtain ⟨e1, e2, e3, e4, e5⟩ := ih σ₁ hnd'
            (fun x hx => by
              show σ₁.finished x = false
              rw [show σ₁.finished x = σ.finished x from hf1 x (hne x hx)]
              exact hf x (by simp [hx]))
            (fun x hx => by
              show mb x (σ₁.count x) ≠ MOut.thr
              rw [show σ₁.count x = σ.count x from hc1 x (hne x hx)]
              exact ht x (by simp [hx]))
          have hfc : ms.filter (fun x => decide (mb x (σ₁.count x) = MOut.yld)) =
              ms.filter (fun x => decide (mb x (σ.count x) = MOut.yld)) :=
            List.filter_congr fun x hx => by rw [hc1 x (hne x hx)]
          have hec : (ms.flatMap fun x => Ev.res x (σ₁.count x) ::
                (if mb x (σ₁.count x) ≠ MOut.yld ∧ cf x then [Ev.cleanup x] else [])) =
              ms.flatMap fun x => Ev.res x (σ.count x) ::
                (if mb x (σ.count x) ≠ MOut.yld ∧ cf x then [Ev.cleanup x] else []) :=
            List.flatMap_congr fun x hx => by rw [hc1 x (hne x hx)]
          refine ⟨?_, ?_, ?_, ?_, ?_⟩
          · show (allScanFwd mb cf (m :: ms) σ).2.2.2 = false
            simp only [allScanFwd, hrw]
            exact e1
          · show (allScanFwd mb cf (m :: ms) σ).1 = _
            simp only [allScanFwd, hrw]
            simp only [List.filter_cons, hmb]
            simp only [show (decide (MOut.done v = MOut.yld)) = false from rfl,
              Bool.false_eq_true, if_false]
            rw [e2, hfc]
          · show (allScanFwd mb cf (m :: ms) σ).2.2.1 = _
            simp only [allScanFwd, hrw]
            rw [e3, hec, List.flatMap_cons]
            simp [hmb]
          · intro j
            show (allScanFwd mb cf (m :: ms) σ).2.1.count j = _
            simp only [allScanFwd, hrw]
            rw [e4 j]
            by_cases hj : j = m
            · subst hj
              simp [hm, Function.update_same]
            · simp [hj, hc1 j hj]
          · intro j
            show (allScanFwd mb cf (m :: ms) σ).2.1.finished j = _
            simp only [allScanFwd, hrw]
            rw [e5 j]
            by_cases hj : j = m
            · subst hj
              simp [hm, hσ₁, hmb, Function.update_same]
            · by_cases hjm : j ∈ ms
              · simp [hj, hjm, hc1 j hj]
              · simp [hj, hjm, hf1 j hj]

/-- The descending-index scan only touches the first `i` elements: a fixed
suffix rides along. -/
theorem allScanIdx_append (mb : MemberEnv) (cf : Nat → Bool) (i : Nat) (ys zs : List Nat)
    (σ : MState) (h : i ≤ ys.length) :
    allScanIdx mb cf i (ys ++ zs) σ =
      ((allScanIdx mb cf i ys σ).1 ++ zs, (allScanIdx mb cf i ys σ).2.1,
        (allScanIdx mb cf i ys σ).2.2.1, (allScanIdx mb cf i ys σ).2.2.2) := by
  induction i generalizing ys σ with
  | zero => simp [allScanIdx]
  | succ i ih =>
      have hil : i < ys.length := h
      have hget : (ys ++ zs)[i]? = ys[i]? := List.getElem?_append_left hil
      simp only [allScanIdx, hget]
      cases hy : ys[i]? with
      | none => exact absurd hy (by simp [hil])
      | some m =>
          rcases hr : resumeMember mb cf σ m with ⟨r, σ', e⟩
          cases r with
          | notDone => simp only [hr, ih _ _ (Nat.le_of_lt hil)]
          | isDone v =>
              have her : (ys ++ zs).eraseIdx i = ys.eraseIdx i ++ zs :=
                List.eraseIdx_append_of_lt_length hil zs
              have hlen : i ≤ (ys.eraseIdx i).length := by
                rw [List.length_eraseIdx_of_lt hil]
                omega
              simp only [hr, her, ih _ _ hlen]
          | errored => simp only [hr]

/-- The source's descending-index scan over the internal array equals the
forward scan over the reversed array (with the kept elements reversed back
into array order). -/
theorem allScanIdx_eq_fwd (mb : MemberEnv) (cf : Nat → Bool) (rs : List Nat) (σ : MState) :
    allScanIdx mb cf rs.length rs σ =
      ((allScanFwd mb cf rs.reverse σ).1.reverse, (allScanFwd mb cf rs.reverse σ).2.1,
        (allScanFwd mb cf rs.reverse σ).2.2.1, (allScanFwd mb cf rs.reverse σ).2.2.2) := by
  induction rs using List.reverseRecOn generalizing σ with
  | nil => simp [allScanIdx, allScanFwd]
  | append_singleton ys m ih =>
      have hlen : (ys ++ [m]).length = ys.length + 1 := by simp
      have hget : (ys ++ [m])[ys.length]? = some m := by
        simp
      rw [hlen]
      simp only [allScanIdx, hget]
      have hrev : (ys ++ [m]).reverse = m :: ys.reverse := by simp
      rcases hr : resumeMember mb cf σ m with ⟨r, σ', e⟩
      cases r with
      | notDone =>
          simp only [hr]
          rw [allScanIdx_append mb cf ys.length ys [m] σ' (Nat.le_refl _)]
          simp only [ih, hrev, allScanFwd, hr]
          simp
      | isDone v =>
          have her : (ys ++ [m]).eraseIdx ys.length = ys := by
            rw [List.eraseIdx_append_of_length_le (Nat.le_refl _)]
            simp
          simp only [hr, her]
          simp only [ih, hrev, allScanFwd, hr]
      | errored =>
          simp only [hrev, allScanFwd, hr]
          simp

/-- One clean step of `all` over internal array `rs` (members distinct, none
finished, none throwing): survivors in array order, events in reverse array
order (= declared order), counts bumped, completion iff the array empties. -/
theorem allStep_clean (mb : MemberEnv) (cf : Nat → Bool) (rs : List Nat) (σ : MState)
    (hnd : rs.Nodup)
    (hf : ∀ m ∈ rs, σ.finished m = false)
    (ht : ∀ m ∈ rs, mb m (σ.count m) ≠ .thr) :
    (allStep mb cf rs σ).1 =
      (if (rs.reverse.filter fun m => decide (mb m (σ.count m) = MOut.yld)) = []
        then StepRes.completed none else .running) ∧
    (allStep mb cf rs σ).2.1 =
      (rs.reverse.filter fun m => decide (mb m (σ.count m) = MOut.yld)).reverse ∧
    (allStep mb cf rs σ).2.2.2 =
      rs.reverse.flatMap (fun m => Ev.res m (σ.count m) ::
        (if mb m (σ.count m) ≠ MOut.yld ∧ cf m then [Ev.cleanup m] else [])) ∧
    (∀ j, (allStep mb cf rs σ).2.2.1.count j =
      if j ∈ rs then σ.count j + 1 else σ.count j) ∧
    (∀ j, (allStep mb cf rs σ).2.2.1.finished j =
      if j ∈ rs ∧ mb j (σ.count j) ≠ MOut.yld then true else σ.finished j) := by
  obtain ⟨e1, e2, e3, e4, e5⟩ := allScanFwd_clean mb cf rs.reverse σ
    (List.nodup_reverse.mpr hnd)
    (fun m hm => hf m (List.mem_reverse.mp hm))
    (fun m hm => ht m (List.mem_reverse.mp hm))
  have hstep : allStep mb cf rs σ =
      (if (allScanFwd mb cf rs.reverse σ).1.reverse = []
        then StepRes.completed none else .running,
       (allScanFwd mb cf rs.reverse σ).1.reverse,
       (allScanFwd mb cf rs.reverse σ).2.1,
       (allScanFwd mb cf rs.reverse σ).2.2.1) := by
    unfold allStep
    rw [allScanIdx_eq_fwd]
    simp only [e1, Bool.false_eq_true, if_false]
    by_cases hemp : (allScanFwd mb cf rs.reverse σ).1.reverse = []
    · simp [hemp, retPass]
    · simp [hemp]
  rw [hstep]
  refine ⟨by rw [e2]; simp only [List.reverse_eq_nil_iff], by rw [e2], by rw [e3],
    fun j => ?_, fun j => ?_⟩
  · rw [e4 j]
    by_cases hj : j ∈ rs <;> simp [hj]
  · rw [e5 j]
    by_cases hj : j ∈ rs <;> simp [hj]

/-- C7: on each step of a coroutine produced by `all` with internal array
`rs` (reversed declared order of the outstanding members; members distinct,
unfinished, not throwing this step): every outstanding member is resumed
exactly once in the original declared order (`rs.reverse`, one `res` event
each, in order); a member completing is removed at once (the new array keeps
exactly the members that yielded, in order); the combinator completes
exactly when no member remains outstanding, and otherwise yields
(`running`). -/
theorem all_step_resumes_outstanding_in_order (mb : MemberEnv) (cf : Nat → Bool)
    (rs : List Nat) (σ : MState)
    (hnd : rs.Nodup)
    (hf : ∀ m ∈ rs, σ.finished m = false)
    (ht : ∀ m ∈ rs, mb m (σ.count m) ≠ .thr) :
    (allStep mb cf rs σ).2.2.2 =
      rs.reverse.flatMap (fun m => Ev.res m (σ.count m) ::
        (if mb m (σ.count m) ≠ MOut.yld ∧ cf m then [Ev.cleanup m] else [])) ∧
    (allStep mb cf rs σ).2.1 =
      (rs.reverse.filter fun m => decide (mb m (σ.count m) = MOut.yld)).reverse ∧
    (allStep mb cf rs σ).1 =
      (if (rs.reverse.filter fun m => decide (mb m (σ.count m) = MOut.yld)) = []
        then StepRes.completed none else .running) ∧
    (∀ j ∈ rs, (allStep mb cf rs σ).2.2.1.count j = σ.count j + 1) := by
  obtain ⟨e1, e2, e3, e4, e5⟩ := allStep_clean mb cf rs σ hnd hf ht
  exact ⟨e3, e2, e1, fun j hj => by rw [e4 j]; simp [hj]⟩

/-- C7 witness: declared members `[0, 1, 2]` (array `[2, 1, 0]`), member 1
completes on this step, members 0 and 2 yield. -/
theorem all_step_resumes_outstanding_in_order_witness :
    (allStep (fun m _ => if m = 1 then MOut.done 5 else MOut.yld) (fun _ => true)
        [2, 1, 0] MState.init).2.2.2 =
      [Ev.res 0 0, Ev.res 1 0, Ev.cleanup 1, Ev.res 2 0] ∧
    (allStep (fun m _ => if m = 1 then MOut.done 5 else MOut.yld) (fun _ => true)
        [2, 1, 0] MState.init).2.1 = [2, 0] := by
  have h := all_step_resumes_outstanding_in_order
    (fun m _ => if m = 1 then MOut.done 5 else MOut.yld) (fun _ => true)
    [2, 1, 0] MState.init (by decide) (fun m _ => rfl) (by decide)
  refine ⟨by rw [h.1]; decide, by rw [h.2.1]; decide⟩

/-- Composing bounded runs of `all`: if the first `a` resumes leave it
running, the next `b` resumes continue from there. -/
theorem allRunN_add_running (mb : MemberEnv) (cf : Nat → Bool) (a b : Nat)
    (rs : List Nat) (σ : MState) (rs' : List Nat) (σ' : MState) (e : List Ev)
    (h : allRunN mb cf a rs σ = (.running, rs', σ', e)) :
    allRunN mb cf (a + b) rs σ =
      ((allRunN mb cf b rs' σ').1, (allRunN mb cf b rs' σ').2.1,
        (allRunN mb cf b rs' σ').2.2.1, e ++ (allRunN mb cf b rs' σ').2.2.2) := by
  induction a generalizing rs σ e with
  | zero =>
      simp only [allRunN, Prod.mk.injEq] at h
      obtain ⟨-, h2, h3, h4⟩ := h
      subst h2; subst h3; subst h4
      simp [Nat.zero_add]
  | succ a ih =>
      rw [show a + 1 + b = (a + b) + 1 from by omega]
      simp only [allRunN] at h ⊢
      rcases hs : allStep mb cf rs σ with ⟨r, rs₁, σ₁, e₁⟩
      rw [hs] at h
      cases r with
      | completed v => exact absurd (Prod.mk.injEq .. ▸ h).1 (by simp)
      | errored => exact absurd (Prod.mk.injEq .. ▸ h).1 (by simp)
      | running =>
          simp only [Prod.mk.injEq] at h
          obtain ⟨h1, h2, h3, h4⟩ := h
          have hrest : allRunN mb cf a rs₁ σ₁ = (.running, rs', σ', (allRunN mb cf a rs₁ σ₁).2.2.2) := by
            rcases hr : allRunN mb cf a rs₁ σ₁ with ⟨q, qs, qσ, qe⟩
            rw [hr] at h1 h2 h3
            simp only at h1 h2 h3
            rw [h1, h2, h3]
          show ((allRunN mb cf (a + b) rs₁ σ₁).1, (allRunN mb cf (a + b) rs₁ σ₁).2.1,
              (allRunN mb cf (a + b) rs₁ σ₁).2.2.1,
              e₁ ++ (allRunN mb cf (a + b) rs₁ σ₁).2.2.2) = _
          rw [ih _ _ _ hrest]
          have he : e = e₁ ++ (allRunN mb cf a rs₁ σ₁).2.2.2 := by
            rw [← h4]
          subst he
          simp

/-- A single resume of `all` in terms of one `allStep`. -/
theorem allRunN_one (mb : MemberEnv) (cf : Nat → Bool) (rs : List Nat) (σ : MState) :
    allRunN mb cf 1 rs σ =
      (match (allStep mb cf rs σ).1 with
        | .running => RunRes.running
        | .completed v => RunRes.completed v
        | .errored => RunRes.errored,
       (allStep mb cf rs σ).2.1, (allStep mb cf rs σ).2.2.1, (allStep mb cf rs σ).2.2.2) := by
  rcases hs : allStep mb cf rs σ with ⟨r, rs', σ', e⟩
  cases r <;> simp [allRunN, hs]

/-- Clean bounded run of `all` from the initial array for members with known
completion times: member `m` yields strictly before resume `d m` and
completes (without throwing) at resume `d m`.  As long as some member is
still alive, after `k` resumes the combinator is still running, its internal
array holds exactly the members with `k ≤ d m` in reversed declared order,
each member has been resumed `min k (d m + 1)` times, and exactly the
members with `d m < k` are finished. -/
theorem allRun_profile (mb : MemberEnv) (cf : Nat → Bool) (mems : List Nat) (d : Nat → Nat)
    (k : Nat)
    (hnd : mems.Nodup)
    (hd1 : ∀ m ∈ mems, ∀ i, i < d m → mb m i = .yld)
    (hd2 : ∀ m ∈ mems, mb m (d m) ≠ .yld ∧ mb m (d m) ≠ .thr)
    (halive : ∃ m ∈ mems, k ≤ d m) :
    (allRunN mb cf k (allInit mems) MState.init).1 = .running ∧
    (allRunN mb cf k (allInit mems) MState.init).2.1 =
      (mems.filter fun m => decide (k ≤ d m)).reverse ∧
    (∀ j, (allRunN mb cf k (allInit mems) MState.init).2.2.1.count j =
      if j ∈ mems then min k (d j + 1) else 0) ∧
    (∀ j, (allRunN mb cf k (allInit mems) MState.init).2.2.1.finished j =
      if j ∈ mems then decide (d j < k) else false) := by
  induction k with
  | zero =>
      refine ⟨rfl, ?_, fun j => ?_, fun j => ?_⟩
      · show allInit mems = _
        rw [List.filter_congr (fun m _ => by simp : ∀ m ∈ mems, decide (0 ≤ d m) = true)]
        simp [allInit]
      · simp [allRunN, MState.init]
      · simp [allRunN, MState.init]
  | succ k ih =>
      obtain ⟨r1, r2, r3, r4⟩ := ih ⟨halive.choose, halive.choose_spec.1,
        Nat.le_of_succ_le halive.choose_spec.2⟩
      have hrun : allRunN mb cf k (allInit mems) MState.init =
          (.running, (mems.filter fun m => decide (k ≤ d m)).reverse,
            (allRunN mb cf k (allInit mems) MState.init).2.2.1,
            (allRunN mb cf k (allInit mems) MState.init).2.2.2) := by
        rcases hr : allRunN mb cf k (allInit mems) MState.init with ⟨q, qs, qσ, qe⟩
        rw [hr] at r1 r2
        simp only at r1 r2
        rw [r1, r2]
      set σk := (allRunN mb cf k (allInit mems) MState.init).2.2.1 with hσk
      set rsk := (mems.filter fun m => decide (k ≤ d m)).reverse with hrsk
      have hcomp := allRunN_add_running mb cf k 1 (allInit mems) MState.init rsk σk
        (allRunN mb cf k (allInit mems) MState.init).2.2.2 hrun
      have hndk : rsk.Nodup := List.nodup_reverse.mpr (hnd.filter _)
      have hmemk : ∀ m, m ∈ rsk ↔ m ∈ mems ∧ k ≤ d m := by
        intro m
        rw [hrsk, List.mem_reverse, List.mem_filter]
        simp
      have hcnt : ∀ m ∈ rsk, σk.count m = k := by
        intro m hm
        obtain ⟨hm1, hm2⟩ := (hmemk m).mp hm
        rw [r3 m]
        simp [hm1]
        omega
      obtain ⟨s1, s2, s3, s4, s5⟩ := allStep_clean mb cf rsk σk hndk
        (fun m hm => by
          obtain ⟨hm1, hm2⟩ := (hmemk m).mp hm
          rw [r4 m]
          simp [hm1]
          omega)
        (fun m hm => by
          obtain ⟨hm1, hm2⟩ := (hmemk m).mp hm
          rw [hcnt m hm]
          rcases Nat.lt_or_ge k (d m) with hlt | hge
          · rw [hd1 m hm1 k hlt]
            simp
          · have : k = d m := Nat.le_antisymm hm2 hge
            rw [this]
            exact (hd2 m hm1).2)
      have hsurv : rsk.reverse.filter (fun m => decide (mb m (σk.count m) = MOut.yld)) =
          mems.filter fun m => decide (k + 1 ≤ d m) := by
        rw [hrsk, List.reverse_reverse, List.filter_filter]
        refine List.filter_congr fun m hm => ?_
        by_cases hle : k ≤ d m
        · have hc : σk.count m = k := hcnt m ((hmemk m).mpr ⟨hm, hle⟩)
          rw [hc]
          rcases Nat.lt_or_ge k (d m) with hlt | hge
          · rw [hd1 m hm k hlt]
            simp
            omega
          · have hk : k = d m := Nat.le_antisymm hle hge
            have := (hd2 m hm).1
            rw [hk]
            simp [this]
        · simp [hle]
          omega
      have hne : (mems.filter fun m => decide (k + 1 ≤ d m)) ≠ [] := by
        obtain ⟨m, hm, hmd⟩ := halive
        exact List.ne_nil_of_mem (List.mem_filter.mpr ⟨hm, by simpa using hmd⟩)
      refine ⟨?_, ?_, fun j => ?_, fun j => ?_⟩
      · rw [hcomp]
        simp only [allRunN_one, s1, hsurv]
        simp [hne]
      · rw [hcomp]
        simp only [allRunN_one, s2, hsurv]
      · rw [hcomp]
        simp only [allRunN_one]
        rw [s4 j]
        by_cases hj : j ∈ rsk
        · obtain ⟨hj1, hj2⟩ := (hmemk j).mp hj
          rw [hcnt j hj]
          simp [hj, hj1]
          omega
        · rw [r3 j]
          by_cases hjm : j ∈ mems
          · have hd : ¬ k ≤ d j := fun hle => hj ((hmemk j).mpr ⟨hjm, hle⟩)
            simp [hj, hjm]
            omega
          · simp [hj, hjm]
      · rw [hcomp]
        simp only [allRunN_one]
        rw [s5 j]
        by_cases hj : j ∈ rsk
        · obtain ⟨hj1, hj2⟩ := (hmemk j).mp hj
          rw [hcnt j hj]
          rcases Nat.lt_or_ge k (d j) with hlt | hge
          · rw [hd1 j hj1 k hlt]
            rw [r4 j]
            simp [hj, hj1]
            omega
          · have hk : k = d j := Nat.le_antisymm hj2 hge
            have := (hd2 j hj1).1
            simp [hj, hj1, hk, this]
        · rw [r4 j]
          by_cases hjm : j ∈ mems
          · have hd : ¬ k ≤ d j := fun hle => hj ((hmemk j).mpr ⟨hjm, hle⟩)
            simp [hj, hjm]
            omega
          · simp [hj, hjm]

/-- Forward scan in which a member throws: members before the thrower (all
yielding here) are resumed in order, the thrower's resume runs its cleanup
and raises, nothing is spliced at or below, and members after it are not
resumed at all. -/
theorem allScanFwd_thr (mb : MemberEnv) (cf : Nat → Bool) (pre : List Nat) (w : Nat)
    (post : List Nat) (σ : MState)
    (hnd : (pre ++ w :: post).Nodup)
    (hf : ∀ m ∈ pre, σ.finished m = false) (hfw : σ.finished w = false)
    (hy : ∀ m ∈ pre, mb m (σ.count m) = .yld)
    (hw : mb w (σ.count w) = .thr) :
    (allScanFwd mb cf (pre ++ w :: post) σ).1 = pre ++ w :: post ∧
    (allScanFwd mb cf (pre ++ w :: post) σ).2.2.2 = true ∧
    (allScanFwd mb cf (pre ++ w :: post) σ).2.2.1 =
      pre.map (fun m => Ev.res m (σ.count m)) ++
        (Ev.res w (σ.count w) :: if cf w then [Ev.cleanup w] else []) ∧
    (∀ j, (allScanFwd mb cf (pre ++ w :: post) σ).2.1.count j =
      if j ∈ pre ∨ j = w then σ.count j + 1 else σ.count j) ∧
    (∀ j, (allScanFwd mb cf (pre ++ w :: post) σ).2.1.finished j =
      if j = w then true else σ.finished j) := by
  induction pre generalizing σ with
  | nil =>
      have hrw := resumeMember_thr mb cf σ w hfw hw
      refine ⟨?_, ?_, ?_, fun j => ?_, fun j => ?_⟩
      · show (allScanFwd mb cf (w :: post) σ).1 = _
        simp [allScanFwd, hrw]
      · show (allScanFwd mb cf (w :: post) σ).2.2.2 = _
        simp [allScanFwd, hrw]
      · show (allScanFwd mb cf (w :: post) σ).2.2.1 = _
        simp [allScanFwd, hrw]
      · show (allScanFwd mb cf (w :: post) σ).2.1.count j = _
        simp only [allScanFwd, hrw]
        by_cases hj : j = w
        · subst hj
          simp [Function.update_same]
        · simp [hj, Function.update_noteq hj]
      · show (allScanFwd mb cf (w :: post) σ).2.1.finished j = _
        simp only [allScanFwd, hrw]
        by_cases hj : j = w
        · subst hj
          simp [Function.update_same]
        · simp [hj, Function.update_noteq hj]
  | cons m pre ih =>
      have hmnot : m ∉ pre ++ w :: post := (List.nodup_cons.mp hnd).1
      have hmw : m ≠ w := fun he => hmnot (by simp [he])
      have hmpre : m ∉ pre := fun hmem => hmnot (by simp [hmem])
      have hfm : σ.finished m = false := hf m (by simp)
      have hym : mb m (σ.count m) = .yld := hy m (by simp)
      have hrw := resumeMember_yld mb cf σ m hfm hym
      set σ₁ : MState := ⟨Function.update σ.count m (σ.count m + 1), σ.finished⟩ with hσ₁
      have hc1 : ∀ j, j ≠ m → σ₁.count j = σ.count j := fun j hj =>
        Function.update_noteq hj _ _
      obtain ⟨e1, e2, e3, e4, e5⟩ := ih σ₁ (List.nodup_cons.mp hnd).2
        (fun x hx => hf x (by simp [hx]))
        (by show σ₁.finished w = false; exact hfw)
        (fun x hx => by
          show mb x (σ₁.count x) = MOut.yld
          rw [hc1 x (fun he => hmpre (he ▸ hx))]
          exact hy x (by simp [hx]))
        (by
          show mb w (σ₁.count w) = MOut.thr
          rw [hc1 w (fun he => hmw he.symm)]
          exact hw)
      refine ⟨?_, ?_, ?_, fun j => ?_, fun j => ?_⟩
      · show (allScanFwd mb cf (m :: (pre ++ w :: post)) σ).1 = _
        simp only [allScanFwd, hrw]
        rw [e1]
        simp
      · show (allScanFwd mb cf (m :: (pre ++ w :: post)) σ).2.2.2 = _
        simp only [allScanFwd, hrw]
        exact e2
      · show (allScanFwd mb cf (m :: (pre ++ w :: post)) σ).2.2.1 = _
        simp only [allScanFwd, hrw]
        rw [e3]
        rw [hc1 w (fun he => hmw he.symm)]
        have hpm : pre.map (fun x => Ev.res x (σ₁.count x)) =
            pre.map (fun x => Ev.res x (σ.count x)) :=
          List.map_congr_left fun x hx => by rw [hc1 x (fun he => hmpre (he ▸ hx))]
        rw [hpm]
        simp
      · show (allScanFwd mb cf (m :: (pre ++ w :: post)) σ).2.1.count j = _
        simp only [allScanFwd, hrw]
        rw [e4 j]
        by_cases hj : j = m
        · subst hj
          simp [hmpre, hmw, Function.update_same]
        · rw [hc1 j hj]
          by_cases hjp : j ∈ pre ∨ j = w <;> simp [hj, hjp]
      · show (allScanFwd mb cf (m :: (pre ++ w :: post)) σ).2.1.finished j = _
        simp only [allScanFwd, hrw]
        exact e5 j

/-- One step of `all` in which a member throws mid-scan: members before the
thrower in declared order are resumed (yielding here), the scan stops
(members after the thrower are not resumed, nothing is spliced), and before
the error propagates the `finally` pass force-returns every member still in
the internal array, in array order (reverse declared order), firing the
pending cleanup of each started, unfinished one. -/
theorem allStep_thr (mb : MemberEnv) (cf : Nat → Bool) (rs pre : List Nat) (w : Nat)
    (post : List Nat) (σ : MState)
    (hsplit : rs.reverse = pre ++ w :: post)
    (hnd : rs.Nodup)
    (hf : ∀ m ∈ pre, σ.finished m = false) (hfw : σ.finished w = false)
    (hy : ∀ m ∈ pre, mb m (σ.count m) = .yld)
    (hw : mb w (σ.count w) = .thr) :
    (allStep mb cf rs σ).1 = .errored ∧
    (allStep mb cf rs σ).2.1 = rs ∧
    (allStep mb cf rs σ).2.2.2 =
      (pre.map fun m => Ev.res m (σ.count m)) ++
        (Ev.res w (σ.count w) :: (if cf w then [Ev.cleanup w] else [])) ++
        rs.flatMap (fun m => Ev.forcedRet m ::
          (if m ≠ w ∧ σ.finished m = false ∧ (m ∈ pre ∨ σ.count m ≠ 0) ∧ cf m
            then [Ev.cleanup m] else [])) := by
  have hndr : (pre ++ w :: post).Nodup := hsplit ▸ List.nodup_reverse.mpr hnd
  obtain ⟨e1, e2, e3, e4, e5⟩ := allScanFwd_thr mb cf pre w post σ hndr hf hfw hy hw
  have hstep : allStep mb cf rs σ =
      (.errored, rs,
        (retPass cf rs (allScanFwd mb cf rs.reverse σ).2.1).1,
        (allScanFwd mb cf rs.reverse σ).2.2.1 ++
          (retPass cf rs (allScanFwd mb cf rs.reverse σ).2.1).2) := by
    unfold allStep
    rw [allScanIdx_eq_fwd]
    have hkept : (allScanFwd mb cf rs.reverse σ).1 = rs.reverse := by
      rw [hsplit, e1]
    have herr : (allScanFwd mb cf rs.reverse σ).2.2.2 = true := by
      rw [hsplit]; exact e2
    simp only [hkept, herr, List.reverse_reverse, if_true]
  rw [hstep]
  refine ⟨rfl, rfl, ?_⟩
  show (allScanFwd mb cf rs.reverse σ).2.2.1 ++
      (retPass cf rs (allScanFwd mb cf rs.reverse σ).2.1).2 = _
  have hev : (allScanFwd mb cf rs.reverse σ).2.2.1 =
      (pre.map fun m => Ev.res m (σ.count m)) ++
        (Ev.res w (σ.count w) :: (if cf w then [Ev.cleanup w] else [])) := by
    rw [hsplit]; exact e3
  have hpass : (retPass cf rs (allScanFwd mb cf rs.reverse σ).2.1).2 =
      rs.flatMap (fun m => Ev.forcedRet m ::
        (if m ≠ w ∧ σ.finished m = false ∧ (m ∈ pre ∨ σ.count m ≠ 0) ∧ cf m
          then [Ev.cleanup m] else [])) := by
    rw [retPass_events cf rs _ hnd]
    refine List.flatMap_congr fun m _ => ?_
    have hc := hsplit ▸ e4
    have hfin := hsplit ▸ e5
    rw [hc m, hfin m]
    by_cases hmw : m = w
    · subst hmw
      simp
    · by_cases hfm : σ.finished m = false
      · by_cases hst : m ∈ pre ∨ m = w
        · rcases hst with hst | hst
          · simp [hmw, hfm, hst]
          · exact absurd hst hmw
        · have hmp : m ∉ pre := fun hc' => hst (Or.inl hc')
          simp only [if_neg hst]
          simp [hmw, hfm, hmp]
      · have hft : σ.finished m = true := by
          revert hfm; cases σ.finished m <;> simp
        simp [hmw, hft, hfm]
  rw [hev, hpass, List.append_assoc]

/-- C3 counterexample: `all(A, B)` with declared members `[0, 1]`, both
suspended with pending cleanup after one step.  Force-cancelling the
combinator runs the pass over the internal array `[1, 0]` — member 1 before
member 0, i.e. *reverse* declared order — not the declared order the claim
states. -/
theorem all_cancel_declared_order_counterexample :
    (allCancel (fun _ => true)
        (allRunN (fun _ _ => MOut.yld) (fun _ => true) 1 (allInit [0, 1]) MState.init).2.1
        (allRunN (fun _ _ => MOut.yld) (fun _ => true) 1 (allInit [0, 1])
          MState.init).2.2.1).2 =
      [Ev.forcedRet 1, Ev.cleanup 1, Ev.forcedRet 0, Ev.cleanup 0] ∧
    (allCancel (fun _ => true)
        (allRunN (fun _ _ => MOut.yld) (fun _ => true) 1 (allInit [0, 1]) MState.init).2.1
        (allRunN (fun _ _ => MOut.yld) (fun _ => true) 1 (allInit [0, 1])
          MState.init).2.2.1).2 ≠
      [Ev.forcedRet 0, Ev.cleanup 0, Ev.forcedRet 1, Ev.cleanup 1] := by
  constructor <;> decide

/-- C3 amended: when a coroutine produced by `all` is force-cancelled, or a
member's resume raises, every still-outstanding member receives a
forced-return before the cancellation or error propagates, and the pass
visits the outstanding members in *reverse* declared order with
already-completed entries dropped.  Part one: after `k` clean steps the
internal array is exactly the not-yet-completed members in reversed declared
order, and cancelling then force-returns them in that array order (cleanup
firing for each started one that has cleanup).  Part two: if a member's
resume raises mid-scan, the step reports the error only after force-returning
every member of the current array, in array order. -/
theorem all_cancel_reverse_declared_order :
    (∀ (mb : MemberEnv) (cf : Nat → Bool) (mems : List Nat) (d : Nat → Nat) (k : Nat),
      mems.Nodup →
      (∀ m ∈ mems, ∀ i, i < d m → mb m i = .yld) →
      (∀ m ∈ mems, mb m (d m) ≠ .yld ∧ mb m (d m) ≠ .thr) →
      (∃ m ∈ mems, k ≤ d m) →
      (allRunN mb cf k (allInit mems) MState.init).2.1 =
        (mems.filter fun m => decide (k ≤ d m)).reverse ∧
      (allCancel cf (allRunN mb cf k (allInit mems) MState.init).2.1
          (allRunN mb cf k (allInit mems) MState.init).2.2.1).2 =
        (mems.filter fun m => decide (k ≤ d m)).reverse.flatMap
          (fun m => Ev.forcedRet m :: (if 0 < k ∧ cf m then [Ev.cleanup m] else []))) ∧
    (∀ (mb : MemberEnv) (cf : Nat → Bool) (rs pre : List Nat) (w : Nat) (post : List Nat)
        (σ : MState),
      rs.reverse = pre ++ w :: post →
      rs.Nodup →
      (∀ m ∈ pre, σ.finished m = false) → σ.finished w = false →
      (∀ m ∈ pre, mb m (σ.count m) = .yld) → mb w (σ.count w) = .thr →
      (allStep mb cf rs σ).1 = .errored ∧
      (allStep mb cf rs σ).2.2.2 =
        (pre.map fun m => Ev.res m (σ.count m)) ++
          (Ev.res w (σ.count w) :: (if cf w then [Ev.cleanup w] else [])) ++
          rs.flatMap (fun m => Ev.forcedRet m ::
            (if m ≠ w ∧ σ.finished m = false ∧ (m ∈ pre ∨ σ.count m ≠ 0) ∧ cf m
              then [Ev.cleanup m] else []))) := by
  constructor
  · intro mb cf mems d k hnd hd1 hd2 halive
    obtain ⟨r1, r2, r3, r4⟩ := allRun_profile mb cf mems d k hnd hd1 hd2 halive
    refine ⟨r2, ?_⟩
    rw [r2]
    show (retPass cf _ _).2 = _
    rw [retPass_events cf _ _ (List.nodup_reverse.mpr (hnd.filter _))]
    refine List.flatMap_congr fun m hm => ?_
    rw [List.mem_reverse, List.mem_filter] at hm
    obtain ⟨hm1, hm2⟩ := hm
    simp only [decide_eq_true_eq] at hm2
    rw [r3 m, r4 m]
    simp only [hm1, if_true]
    have h1 : decide (d m < k) = false := by simp; omega
    have h2 : min k (d m + 1) = k := by omega
    rw [h1, h2]
    by_cases hk : 0 < k
    · simp only [eq_self_iff_true, true_and]
      have : k ≠ 0 := by omega
      simp [this, hk]
    · have : k = 0 := by omega
      simp [this]
  · intro mb cf rs pre w post σ hsplit hnd hf hfw hy hw
    obtain ⟨t1, t2, t3⟩ := allStep_thr mb cf rs pre w post σ hsplit hnd hf hfw hy hw
    exact ⟨t1, t3⟩

/-- C3 amended, witness: part one at members `[0, 1, 2]` completing at steps
1, 2, 3, cancelled after 2 steps (pass order `[2, 1]`); part two at array
`[1, 0]` (declared `[0, 1]`) where member 1 throws on its first resume. -/
theorem all_cancel_reverse_declared_order_witness :
    (allCancel (fun _ => true)
        (allRunN (fun m i => if i < m + 1 then MOut.yld else MOut.done 0) (fun _ => true) 2
          (allInit [0, 1, 2]) MState.init).2.1
        (allRunN (fun m i => if i < m + 1 then MOut.yld else MOut.done 0) (fun _ => true) 2
          (allInit [0, 1, 2]) MState.init).2.2.1).2 =
      [Ev.forcedRet 2, Ev.cleanup 2, Ev.forcedRet 1, Ev.cleanup 1] ∧
    (allStep (fun m _ => if m = 1 then MOut.thr else MOut.yld) (fun _ => true)
        [1, 0] MState.init).2.2.2 =
      [Ev.res 0 0, Ev.res 1 0, Ev.cleanup 1, Ev.forcedRet 1, Ev.forcedRet 0,
        Ev.cleanup 0] := by
  constructor
  · have h := all_cancel_reverse_declared_order.1
      (fun m i => if i < m + 1 then MOut.yld else MOut.done 0) (fun _ => true) [0, 1, 2]
      (fun m => m + 1) 2 (by decide)
      (fun m hm i hi => by simp [hi])
      (fun m hm => by simp)
      ⟨2, by decide, by decide⟩
    rw [h.2]
    decide
  · have h := all_cancel_reverse_declared_order.2
      (fun m _ => if m = 1 then MOut.thr else MOut.yld) (fun _ => true)
      [1, 0] [0] 1 [] MState.init (by decide) (by decide)
      (fun m hm => rfl) rfl
      (fun m hm => by
        have : m = 0 := by simpa using hm
        subst this
        rfl)
      rfl
    rw [h.2]
    decide

/-- `first`'s scan when every member yields: all members resumed once in
declared order, no winner, nobody finished. -/
theorem firstScan_yld (mb : MemberEnv) (cf : Nat → Bool) (ms : List Nat) (σ : MState)
    (hnd : ms.Nodup)
    (hf : ∀ m ∈ ms, σ.finished m = false)
    (hy : ∀ m ∈ ms, mb m (σ.count m) = .yld) :
    (firstScan mb cf ms σ).1 = .yld ∧
    (firstScan mb cf ms σ).2.2 = ms.map (fun m => Ev.res m (σ.count m)) ∧
    (∀ j, (firstScan mb cf ms σ).2.1.count j =
      if j ∈ ms then σ.count j + 1 else σ.count j) ∧
    (∀ j, (firstScan mb cf ms σ).2.1.finished j = σ.finished j) := by
  induction ms generalizing σ with
  | nil => exact ⟨rfl, rfl, fun j => by simp [firstScan], fun j => by simp [firstScan]⟩
  | cons m ms ih =>
      have hm : m ∉ ms := (List.nodup_cons.mp hnd).1
      have hrw := resumeMember_yld mb cf σ m (hf m (by simp)) (hy m (by simp))
      set σ₁ : MState := ⟨Function.update σ.count m (σ.count m + 1), σ.finished⟩ with hσ₁
      have hc1 : ∀ j, j ≠ m → σ₁.count j = σ.count j := fun j hj =>
        Function.update_noteq hj _ _
      have hne : ∀ x ∈ ms, x ≠ m := fun x hx he => hm (he ▸ hx)
      obtain ⟨e1, e2, e3, e4⟩ := ih σ₁ (List.nodup_cons.mp hnd).2
        (fun x hx => hf x (by simp [hx]))
        (fun x hx => by
          show mb x (σ₁.count x) = MOut.yld
          rw [hc1 x (hne x hx)]
          exact hy x (by simp [hx]))
      refine ⟨?_, ?_, fun j => ?_, fun j => ?_⟩
      · show (firstScan mb cf (m :: ms) σ).1 = _
        simp only [firstScan, hrw]
        exact e1
      · show (firstScan mb cf (m :: ms) σ).2.2 = _
        simp only [firstScan, hrw]
        rw [e2]
        have : ms.map (fun x => Ev.res x (σ₁.count x)) =
            ms.map (fun x => Ev.res x (σ.count x)) :=
          List.map_congr_left fun x hx => by rw [hc1 x (hne x hx)]
        rw [this]
        simp
      · show (firstScan mb cf (m :: ms) σ).2.1.count j = _
        simp only [firstScan, hrw]
        rw [e3 j]
        by_cases hj : j = m
        · subst hj
          simp [hm, Function.update_same]
        · rw [hc1 j hj]
          by_cases hjm : j ∈ ms <;> simp [hj, hjm]
      · show (firstScan mb cf (m :: ms) σ).2.1.finished j = _
        simp only [firstScan, hrw]
        exact e4 j

/-- `first`'s scan when the members before `w` yield and `w` completes with
`v`: the scan stops at `w` (members after it are not resumed), reporting the
win, with `w` finished and its cleanup fired. -/
theorem firstScan_won (mb : MemberEnv) (cf : Nat → Bool) (pre : List Nat) (w : Nat)
    (post : List Nat) (σ : MState) (v : Nat)
    (hnd : (pre ++ w :: post).Nodup)
    (hf : ∀ m ∈ pre, σ.finished m = false) (hfw : σ.finished w = false)
    (hy : ∀ m ∈ pre, mb m (σ.count m) = .yld)
    (hw : mb w (σ.count w) = .done v) :
    (firstScan mb cf (pre ++ w :: post) σ).1 = .won (some v) ∧
    (firstScan mb cf (pre ++ w :: post) σ).2.2 =
      pre.map (fun m => Ev.res m (σ.count m)) ++
        (Ev.res w (σ.count w) :: if cf w then [Ev.cleanup w] else []) ∧
    (∀ j, (firstScan mb cf (pre ++ w :: post) σ).2.1.count j =
      if j ∈ pre ∨ j = w then σ.count j + 1 else σ.count j) ∧
    (∀ j, (firstScan mb cf (pre ++ w :: post) σ).2.1.finished j =
      if j = w then true else σ.finished j) := by
  induction pre generalizing σ with
  | nil =>
      have hrw := resumeMember_done mb cf σ w v hfw hw
      refine ⟨?_, ?_, fun j => ?_, fun j => ?_⟩
      · show (firstScan mb cf (w :: post) σ).1 = _
        simp [firstScan, hrw]
      · show (firstScan mb cf (w :: post) σ).2.2 = _
        simp [firstScan, hrw]
      · show (firstScan mb cf (w :: post) σ).2.1.count j = _
        simp only [firstScan, hrw]
        by_cases hj : j = w
        · subst hj
          simp [Function.update_same]
        · simp [hj, Function.update_noteq hj]
      · show (firstScan mb cf (w :: post) σ).2.1.finished j = _
        simp only [firstScan, hrw]
        by_cases hj : j = w
        · subst hj
          simp [Function.update_same]
        · simp [hj, Function.update_noteq hj]
  | cons m pre ih =>
      have hmnot : m ∉ pre ++ w :: post := (List.nodup_cons.mp hnd).1
      have hmw : m ≠ w := fun he => hmnot (by simp [he])
      have hmpre : m ∉ pre := fun hmem => hmnot (by simp [hmem])
      have hrw := resumeMember_yld mb cf σ m (hf m (by simp)) (hy m (by simp))
      set σ₁ : MState := ⟨Function.update σ.count m (σ.count m + 1), σ.finished⟩ with hσ₁
      have hc1 : ∀ j, j ≠ m → σ₁.count j = σ.count j := fun j hj =>
        Function.update_noteq hj _ _
      obtain ⟨e1, e2, e3, e4⟩ := ih σ₁ (List.nodup_cons.mp hnd).2
        (fun x hx => hf x (by simp [hx]))
        (by show σ₁.finished w = false; exact hfw)
        (fun x hx => by
          show mb x (σ₁.count x) = MOut.yld
          rw [hc1 x (fun he => hmpre (he ▸ hx))]
          exact hy x (by simp [hx]))
        (by
          show mb w (σ₁.count w) = MOut.done v
          rw [hc1 w (fun he => hmw he.symm)]
          exact hw)
      refine ⟨?_, ?_, fun j => ?_, fun j => ?_⟩
      · show (firstScan mb cf (m :: (pre ++ w :: post)) σ).1 = _
        simp only [firstScan, hrw]
        exact e1
      · show (firstScan mb cf (m :: (pre ++ w :: post)) σ).2.2 = _
        simp only [firstScan, hrw]
        rw [e2, hc1 w (fun he => hmw he.symm)]
        have : pre.map (fun x => Ev.res x (σ₁.count x)) =
            pre.map (fun x => Ev.res x (σ.count x)) :=
          List.map_congr_left fun x hx => by rw [hc1 x (fun he => hmpre (he ▸ hx))]
        rw [this]
        simp
      · show (firstScan mb cf (m :: (pre ++ w :: post)) σ).2.1.count j = _
        simp only [firstScan, hrw]
        rw [e3 j]
        by_cases hj : j = m
        · subst hj
          simp [hmpre, hmw, Function.update_same]
        · rw [hc1 j hj]
          by_cases hjp : j ∈ pre ∨ j = w <;> simp [hj, hjp]
      · show (firstScan mb cf (m :: (pre ++ w :: post)) σ).2.1.finished j = _
        simp only [firstScan, hrw]
        exact e4 j

/-- The winning resume of `first`: the scan stops at the winner; before the
value is delivered the `finally` pass force-returns every member of the full
original list in declared order, firing the pending cleanup of each started,
unfinished one (the winner's own cleanup fired at its completion; members
never started fire none). -/
theorem firstStep_won (mb : MemberEnv) (cf : Nat → Bool) (pre : List Nat) (w : Nat)
    (post : List Nat) (σ : MState) (v : Nat)
    (hnd : (pre ++ w :: post).Nodup)
    (hf : ∀ m ∈ pre, σ.finished m = false) (hfw : σ.finished w = false)
    (hy : ∀ m ∈ pre, mb m (σ.count m) = .yld)
    (hw : mb w (σ.count w) = .done v) :
    (firstStep mb cf (pre ++ w :: post) σ).1 = .completed (some v) ∧
    (firstStep mb cf (pre ++ w :: post) σ).2.2 =
      (pre.map fun m => Ev.res m (σ.count m)) ++
        (Ev.res w (σ.count w) :: (if cf w then [Ev.cleanup w] else [])) ++
        (pre ++ w :: post).flatMap (fun m => Ev.forcedRet m ::
          (if m ≠ w ∧ σ.finished m = false ∧ (m ∈ pre ∨ σ.count m ≠ 0) ∧ cf m
            then [Ev.cleanup m] else [])) := by
  obtain ⟨e1, e2, e3, e4⟩ := firstScan_won mb cf pre w post σ v hnd hf hfw hy hw
  have hstep : firstStep mb cf (pre ++ w :: post) σ =
      (.completed (some v),
        (retPass cf (pre ++ w :: post) (firstScan mb cf (pre ++ w :: post) σ).2.1).1,
        (firstScan mb cf (pre ++ w :: post) σ).2.2 ++
          (retPass cf (pre ++ w :: post) (firstScan mb cf (pre ++ w :: post) σ).2.1).2) := by
    unfold firstStep
    rcases hs : firstScan mb cf (pre ++ w :: post) σ with ⟨r, σ', e⟩
    rw [hs] at e1
    simp only at e1
    subst e1
    simp
  rw [hstep]
  refine ⟨rfl, ?_⟩
  show (firstScan mb cf (pre ++ w :: post) σ).2.2 ++ (retPass _ _ _).2 = _
  rw [e2]
  have hpass : (retPass cf (pre ++ w :: post)
      (firstScan mb cf (pre ++ w :: post) σ).2.1).2 =
      (pre ++ w :: post).flatMap (fun m => Ev.forcedRet m ::
        (if m ≠ w ∧ σ.finished m = false ∧ (m ∈ pre ∨ σ.count m ≠ 0) ∧ cf m
          then [Ev.cleanup m] else [])) := by
    rw [retPass_events cf _ _ hnd]
    refine List.flatMap_congr fun m _ => ?_
    rw [e3 m, e4 m]
    by_cases hmw : m = w
    · subst hmw
      simp
    · by_cases hfm : σ.finished m = false
      · by_cases hst : m ∈ pre ∨ m = w
        · rcases hst with hst | hst
          · simp [hmw, hfm, hst]
          · exact absurd hst hmw
        · have hmp : m ∉ pre := fun hc' => hst (Or.inl hc')
          simp only [if_neg hst]
          simp [hmw, hfm, hmp]
      · have hft : σ.finished m = true := by
          revert hfm; cases σ.finished m <;> simp
        simp [hmw, hft, hfm]
  rw [hpass, List.append_assoc]

/-- Composing bounded runs of `first`: if the first `a` resumes leave it
running, the next `b` resumes continue from there. -/
theorem firstRunN_add_running (mb : MemberEnv) (cf : Nat → Bool) (mems : List Nat)
    (a b : Nat) (σ σ' : MState) (e : List Ev)
    (h : firstRunN mb cf mems a σ = (.running, σ', e)) :
    firstRunN mb cf mems (a + b) σ =
      ((firstRunN mb cf mems b σ').1, (firstRunN mb cf mems b σ').2.1,
        e ++ (firstRunN mb cf mems b σ').2.2) := by
  induction a generalizing σ e with
  | zero =>
      simp only [firstRunN, Prod.mk.injEq] at h
      obtain ⟨-, h2, h3⟩ := h
      subst h2; subst h3
      simp [Nat.zero_add]
  | succ a ih =>
      rw [show a + 1 + b = (a + b) + 1 from by omega]
      simp only [firstRunN] at h ⊢
      rcases hs : firstStep mb cf mems σ with ⟨r, σ₁, e₁⟩
      rw [hs] at h
      cases r with
      | completed v => exact absurd (Prod.mk.injEq .. ▸ h).1 (by simp)
      | errored => exact absurd (Prod.mk.injEq .. ▸ h).1 (by simp)
      | running =>
          simp only [Prod.mk.injEq] at h
          obtain ⟨h1, h2, h3⟩ := h
          have hrest : firstRunN mb cf mems a σ₁ =
              (.running, σ', (firstRunN mb cf mems a σ₁).2.2) := by
            rcases hr : firstRunN mb cf mems a σ₁ with ⟨q, qσ, qe⟩
            rw [hr] at h1 h2
            simp only at h1 h2
            rw [h1, h2]
          show ((firstRunN mb cf mems (a + b) σ₁).1, (firstRunN mb cf mems (a + b) σ₁).2.1,
              e₁ ++ (firstRunN mb cf mems (a + b) σ₁).2.2) = _
          rw [ih _ _ hrest]
          have he : e = e₁ ++ (firstRunN mb cf mems a σ₁).2.2 := by rw [← h3]
          subst he
          simp

/-- A single resume of `first` in terms of one `firstStep`. -/
theorem firstRunN_one (mb : MemberEnv) (cf : Nat → Bool) (mems : List Nat) (σ : MState) :
    firstRunN mb cf mems 1 σ =
      (match (firstStep mb cf mems σ).1 with
        | .running => RunRes.running
        | .completed v => RunRes.completed v
        | .errored => RunRes.errored,
       (firstStep mb cf mems σ).2.1, (firstStep mb cf mems σ).2.2) := by
  rcases hs : firstStep mb cf mems σ with ⟨r, σ', e⟩
  cases r <;> simp [firstRunN, hs]

/-- Clean bounded run of `first` while every member yields: still running,
each member resumed once per step in declared order, counts equal to the
step number, nobody finished. -/
theorem firstRun_yld (mb : MemberEnv) (cf : Nat → Bool) (mems : List Nat) (k : Nat)
    (hnd : mems.Nodup)
    (hy : ∀ m ∈ mems, ∀ i, i < k → mb m i = .yld) :
    (firstRunN mb cf mems k MState.init).1 = .running ∧
    (firstRunN mb cf mems k MState.init).2.2 =
      (List.range k).flatMap (fun i => mems.map fun m => Ev.res m i) ∧
    (∀ j, (firstRunN mb cf mems k MState.init).2.1.count j =
      if j ∈ mems then k else 0) ∧
    (∀ j, (firstRunN mb cf mems k MState.init).2.1.finished j = false) := by
  induction k with
  | zero =>
      refine ⟨rfl, by simp [firstRunN], fun j => by simp [firstRunN, MState.init],
        fun j => by simp [firstRunN, MState.init]⟩
  | succ k ih =>
      obtain ⟨r1, r2, r3, r4⟩ := ih (fun m hm i hi => hy m hm i (by omega))
      have hrun : firstRunN mb cf mems k MState.init =
          (.running, (firstRunN mb cf mems k MState.init).2.1,
            (firstRunN mb cf mems k MState.init).2.2) := by
        rcases hr : firstRunN mb cf mems k MState.init with ⟨q, qσ, qe⟩
        rw [hr] at r1
        simp only at r1
        rw [r1]
      set σk := (firstRunN mb cf mems k MState.init).2.1 with hσk
      have hcomp := firstRunN_add_running mb cf mems k 1 MState.init σk
        (firstRunN mb cf mems k MState.init).2.2 hrun
      obtain ⟨s1, s2, s3, s4⟩ := firstScan_yld mb cf mems σk hnd
        (fun m hm => r4 m)
        (fun m hm => by
          rw [r3 m]
          simp only [hm, if_true]
          exact hy m hm k (by omega))
      have hstep : firstStep mb cf mems σk =
          (.running, (firstScan mb cf mems σk).2.1, (firstScan mb cf mems σk).2.2) := by
        unfold firstStep
        rcases hs : firstScan mb cf mems σk with ⟨r, σ', e⟩
        rw [hs] at s1
        simp only at s1
        subst s1
        simp
      refine ⟨?_, ?_, fun j => ?_, fun j => ?_⟩
      · rw [hcomp]
        simp only [firstRunN_one, hstep]
      · rw [hcomp]
        simp only [firstRunN_one, hstep]
        rw [r2, s2]
        have hcnt : mems.map (fun m => Ev.res m (σk.count m)) =
            mems.map (fun m => Ev.res m k) :=
          List.map_congr_left fun m hm => by rw [r3 m]; simp [hm]
        rw [hcnt, List.range_succ]
        simp
      · rw [hcomp]
        simp only [firstRunN_one, hstep]
        rw [s3 j]
        by_cases hj : j ∈ mems
        · rw [r3 j]
          simp [hj]
        · rw [r3 j]
          simp [hj]
      · rw [hcomp]
        simp only [firstRunN_one, hstep]
        rw [s4 j]
        exact r4 j

/-- Occurrence count distributes over `flatMap`. -/
theorem count_flatMap_ev (f : Nat → List Ev) (l : List Nat) (a : Ev) :
    (l.flatMap f).count a = (l.map fun x => (f x).count a).sum := by
  induction l with
  | nil => rfl
  | cons x xs ih => simp [List.flatMap_cons, List.count_append, ih]

/-- Sum of a map that vanishes away from one listed element. -/
theorem sum_map_single (g : Nat → Nat) (l : List Nat) (m : Nat) (hnd : l.Nodup)
    (hm : m ∈ l) (hz : ∀ x ∈ l, x ≠ m → g x = 0) : (l.map g).sum = g m := by
  induction l with
  | nil => cases hm
  | cons x xs ih =>
      rcases List.mem_cons.mp hm with he | hmem
      · subst he
        have : ∀ y ∈ xs, g y = 0 := fun y hy =>
          hz y (by simp [hy]) (fun he' => (List.nodup_cons.mp hnd).1 (he' ▸ hy))
        have hxs : (xs.map g).sum = 0 := by
          rw [List.map_congr_left (fun y hy => this y hy)]
          simp
        simp [hxs]
      · have hx0 : g x = 0 :=
          hz x (by simp) (fun he' => (List.nodup_cons.mp hnd).1 (he' ▸ hmem))
        simp [hx0, ih (List.nodup_cons.mp hnd).2 hmem
          (fun y hy hne => hz y (by simp [hy]) hne)]

/-- C2: for members `pre ++ w :: post` (all distinct) that all yield through
step `t`, where at step `t` the members before `w` still yield and `w`
completes with `v`: the combinator completes at step `t + 1` with `w`'s
value; the trace shows each earlier step resuming every member once in
declared order, the winning step resuming only members up to and including
`w`, then — before the value is delivered — a forced-return to every member
of the full original list in declared order, and each member's pending
cleanup fires exactly once (winner at its completion, suspended members in
the pass, members never resumed not at all). -/
theorem first_winner_value_and_cancellation
    (mb : MemberEnv) (cf : Nat → Bool) (pre : List Nat) (w : Nat) (post : List Nat)
    (t : Nat) (v : Nat)
    (hnd : (pre ++ w :: post).Nodup)
    (hpre0 : ∀ m ∈ pre ++ w :: post, ∀ i, i < t → mb m i = .yld)
    (hyt : ∀ m ∈ pre, mb m t = .yld)
    (hwt : mb w t = .done v) :
    (firstRunN mb cf (pre ++ w :: post) (t + 1) MState.init).1 =
      RunRes.completed (some v) ∧
    (firstRunN mb cf (pre ++ w :: post) (t + 1) MState.init).2.2 =
      ((List.range t).flatMap fun i => (pre ++ w :: post).map fun m => Ev.res m i) ++
        ((pre.map fun m => Ev.res m t) ++
          (Ev.res w t :: (if cf w then [Ev.cleanup w] else [])) ++
          (pre ++ w :: post).flatMap (fun m => Ev.forcedRet m ::
            (if m ≠ w ∧ (m ∈ pre ∨ 0 < t) ∧ cf m then [Ev.cleanup m] else []))) ∧
    (∀ m ∈ pre ++ w :: post, cf m = true →
      ((firstRunN mb cf (pre ++ w :: post) (t + 1) MState.init).2.2.count
          (Ev.cleanup m) =
        if m ∈ pre ∨ m = w ∨ 0 < t then 1 else 0)) := by
  have hwmem : w ∈ pre ++ w :: post := by simp
  obtain ⟨r1, r2, r3, r4⟩ := firstRun_yld mb cf (pre ++ w :: post) t hnd hpre0
  have hrun : firstRunN mb cf (pre ++ w :: post) t MState.init =
      (.running, (firstRunN mb cf (pre ++ w :: post) t MState.init).2.1,
        (firstRunN mb cf (pre ++ w :: post) t MState.init).2.2) := by
    rcases hr : firstRunN mb cf (pre ++ w :: post) t MState.init with ⟨q, qσ, qe⟩
    rw [hr] at r1
    simp only at r1
    rw [r1]
  set σt := (firstRunN mb cf (pre ++ w :: post) t MState.init).2.1 with hσt
  have hcomp := firstRunN_add_running mb cf (pre ++ w :: post) t 1 MState.init σt
    (firstRunN mb cf (pre ++ w :: post) t MState.init).2.2 hrun
  have hcntt : ∀ m ∈ pre ++ w :: post, σt.count m = t := fun m hm => by
    rw [r3 m]; simp [hm]
  obtain ⟨s1, s2⟩ := firstStep_won mb cf pre w post σt v hnd
    (fun m _ => r4 m) (r4 w)
    (fun m hm => by
      rw [hcntt m (by simp [hm])]
      exact hyt m hm)
    (by rw [hcntt w hwmem]; exact hwt)
  refine ⟨?_, ?_, ?_⟩
  · rw [hcomp]
    simp only [firstRunN_one, s1]
  · rw [hcomp]
    simp only [firstRunN_one]
    rw [r2, s2]
    congr 1
    have hm1 : pre.map (fun m => Ev.res m (σt.count m)) = pre.map fun m => Ev.res m t :=
      List.map_congr_left fun m hm => by rw [hcntt m (by simp [hm])]
    have hm2 : σt.count w = t := hcntt w hwmem
    have hm3 : (pre ++ w :: post).flatMap (fun m => Ev.forcedRet m ::
          (if m ≠ w ∧ σt.finished m = false ∧ (m ∈ pre ∨ σt.count m ≠ 0) ∧ cf m
            then [Ev.cleanup m] else [])) =
        (pre ++ w :: post).flatMap (fun m => Ev.forcedRet m ::
          (if m ≠ w ∧ (m ∈ pre ∨ 0 < t) ∧ cf m then [Ev.cleanup m] else [])) := by
      refine List.flatMap_congr fun m hm => ?_
      rw [hcntt m hm, r4 m]
      by_cases hmw : m = w
      · simp [hmw]
      · by_cases hcf' : cf m
        · by_cases hmp : m ∈ pre
          · simp [hmw, hcf', hmp]
          · by_cases ht : 0 < t
            · have ht' : t ≠ 0 := by omega
              simp [hmw, hcf', hmp, ht, ht']
            · have ht' : ¬ t ≠ 0 := by omega
              simp [hmw, hcf', hmp, ht, ht']
        · simp [hmw, hcf']
    rw [hm1, hm2, hm3]
  · intro m hm hcf
    rw [hcomp]
    simp only [firstRunN_one]
    rw [r2, s2]
    have hm1 : pre.map (fun x => Ev.res x (σt.count x)) = pre.map fun x => Ev.res x t :=
      List.map_congr_left fun x hx => by rw [hcntt x (by simp [hx])]
    rw [hm1, hcntt w hwmem]
    rw [List.count_append, List.count_append, List.count_append]
    have cA : (((List.range t).flatMap fun i =>
        (pre ++ w :: post).map fun x => Ev.res x i).count (Ev.cleanup m)) = 0 := by
      rw [count_flatMap_ev]
      have : ∀ i ∈ List.range t,
          (((pre ++ w :: post).map fun x => Ev.res x i).count (Ev.cleanup m)) = 0 := by
        intro i _
        refine List.count_eq_zero.mpr ?_
        intro hcontra
        rcases List.mem_map.mp hcontra with ⟨x, _, hx⟩
        cases hx
      rw [List.map_congr_left this]
      simp
    have cB : ((pre.map fun x => Ev.res x t).count (Ev.cleanup m)) = 0 := by
      refine List.count_eq_zero.mpr ?_
      intro hcontra
      rcases List.mem_map.mp hcontra with ⟨x, _, hx⟩
      cases hx
    have cC : ((Ev.res w t :: (if cf w then [Ev.cleanup w] else [])).count (Ev.cleanup m)) =
        if m = w then 1 else 0 := by
      by_cases hmw : m = w
      · subst hmw
        simp [List.count_cons, hcf]
      · have : cf w = true ∨ cf w = false := by cases cf w <;> simp
        rcases this with hw' | hw' <;>
          simp [List.count_cons, hw', List.count_singleton', hmw, Ne.symm hmw]
    have cD : (((pre ++ w :: post).flatMap fun x => Ev.forcedRet x ::
          (if x ≠ w ∧ σt.finished x = false ∧ (x ∈ pre ∨ σt.count x ≠ 0) ∧ cf x
            then [Ev.cleanup x] else [])).count (Ev.cleanup m)) =
        if m ≠ w ∧ (m ∈ pre ∨ 0 < t) then 1 else 0 := by
      rw [count_flatMap_ev]
      rw [sum_map_single _ _ m hnd hm]
      · rw [hcntt m hm, r4 m]
        by_cases hmw : m = w
        · simp [hmw, List.count_cons]
        · by_cases hst : m ∈ pre ∨ 0 < t
          · have hst' : m ∈ pre ∨ t ≠ 0 := by
              rcases hst with h' | h'
              · exact Or.inl h'
              · exact Or.inr (by omega)
            simp [hmw, hst, hst', hcf, List.count_cons]
          · have hst' : ¬ (m ∈ pre ∨ t ≠ 0) := by
              intro h'
              rcases h' with h' | h'
              · exact hst (Or.inl h')
              · exact hst (Or.inr (by omega))
            simp [hmw, hst, hst', List.count_cons]
      · intro x hx hxm
        have hcount : (Ev.forcedRet x ::
            (if x ≠ w ∧ σt.finished x = false ∧ (x ∈ pre ∨ σt.count x ≠ 0) ∧ cf x
              then [Ev.cleanup x] else [])).count (Ev.cleanup m) =
            (if x ≠ w ∧ σt.finished x = false ∧ (x ∈ pre ∨ σt.count x ≠ 0) ∧ cf x
              then [Ev.cleanup x] else []).count (Ev.cleanup m) := by
          simp [List.count_cons]
        rw [hcount]
        split
        · have hne : (Ev.cleanup x == Ev.cleanup m) = false :=
            beq_eq_false_iff_ne.mpr fun h => hxm (Ev.cleanup.inj h)
          have hne' : (Ev.cleanup m == Ev.cleanup x) = false :=
            beq_eq_false_iff_ne.mpr fun h => hxm (Ev.cleanup.inj h).symm
          simp [List.count_cons, hne, hne']
        · simp
    rw [cA, cB, cC, cD]
    by_cases hmw : m = w
    · simp [hmw]
    · by_cases hst : m ∈ pre ∨ 0 < t
      · simp [hmw, hst]
      · have : ¬ (m ∈ pre ∨ m = w ∨ 0 < t) := by
          intro h'
          rcases h' with h' | h' | h'
          · exact hst (Or.inl h')
          · exact hmw h'
          · exact hst (Or.inr h')
        simp [hmw, hst, this]

/-- C2 witness: `first(A, B, C)` with members completing after 3, 2, 1
yields; C (member 2) wins on the second resume with value 9, members are
scanned in declared order, and the pass force-returns `[0, 1, 2]` in
declared order with each cleanup observed exactly once. -/
theorem first_winner_value_and_cancellation_witness :
    (firstRunN
        (fun m k => if m = 0 then (if k < 3 then MOut.yld else .done 7)
          else if m = 1 then (if k < 2 then MOut.yld else .done 8)
          else (if k < 1 then MOut.yld else .done 9))
        (fun _ => true) ([0, 1] ++ 2 :: []) (1 + 1) MState.init).1 =
      RunRes.completed (some 9) ∧
    (firstRunN
        (fun m k => if m = 0 then (if k < 3 then MOut.yld else .done 7)
          else if m = 1 then (if k < 2 then MOut.yld else .done 8)
          else (if k < 1 then MOut.yld else .done 9))
        (fun _ => true) ([0, 1] ++ 2 :: []) (1 + 1) MState.init).2.2 =
      [Ev.res 0 0, Ev.res 1 0, Ev.res 2 0, Ev.res 0 1, Ev.res 1 1, Ev.res 2 1,
        Ev.cleanup 2, Ev.forcedRet 0, Ev.cleanup 0, Ev.forcedRet 1, Ev.cleanup 1,
        Ev.forcedRet 2] := by
  have h := first_winner_value_and_cancellation
    (fun m k => if m = 0 then (if k < 3 then MOut.yld else .done 7)
      else if m = 1 then (if k < 2 then MOut.yld else .done 8)
      else (if k < 1 then MOut.yld else .done 9))
    (fun _ => true) [0, 1] 2 [] 1 9 (by decide)
    (by decide) (by decide) (by decide)
  exact ⟨h.1, by rw [h.2.1]; decide⟩

/-!  ### Pointer-structure toolkit for the schedule -/

theorem node_append_lt (s : Schedule) (x : SNode) (i : Nat) (hi : i < s.heap.length) :
    Schedule.node ⟨s.heap ++ [x], s.front, s.back, s.size⟩ i = s.node i := by
  show (s.heap ++ [x]).getD i _ = s.heap.getD i _
  exact List.getD_append _ _ _ _ hi

theorem getD_set_ne (h : List SNode) (b : Nat) (v : SNode) (i : Nat) (d : SNode)
    (hne : i ≠ b) : (h.set b v).getD i d = h.getD i d := by
  simp [List.getD, List.getElem?_set_ne (Ne.symm hne)]

theorem getD_set_self (h : List SNode) (b : Nat) (v : SNode) (d : SNode)
    (hb : b < h.length) : (h.set b v).getD b d = v := by
  simp [List.getD, List.getElem?_set_self, hb]

theorem getD_append_self (h : List SNode) (x : SNode) (d : SNode) :
    (h ++ [x]).getD h.length d = x := by
  simp [List.getD]

/-- Unpack `structOkB`. -/
theorem structOkB_iff (s : Schedule) :
    structOkB s = true ↔
      LinksInc s.heap ∧ PtrOk s.heap s.front ∧ PtrOk s.heap s.back := by
  unfold structOkB LinksInc PtrOk Schedule.node
  rw [Bool.and_eq_true, Bool.and_eq_true, List.all_eq_true]
  constructor
  · rintro ⟨⟨hl, hf⟩, hb⟩
    refine ⟨?_, ?_, ?_⟩
    · intro i hi j hj
      have := hl i (List.mem_range.mpr hi)
      rw [hj] at this
      simp only [Bool.and_eq_true, decide_eq_true_eq] at this
      exact this
    · intro i hi
      rw [hi] at hf
      simpa using hf
    · intro i hi
      rw [hi] at hb
      simpa using hb
  · rintro ⟨h1, h2, h3⟩
    refine ⟨⟨?_, ?_⟩, ?_⟩
    · intro i hi
      rcases hl : (s.heap.getD i ⟨none, 0⟩).link with _ | j
      · simp [hl]
      · have := h1 i (List.mem_range.mp hi) j hl
        simp [hl, this]
    · rcases hf : s.front with _ | i
      · simp
      · simpa using h2 i hf
    · rcases hb : s.back with _ | i
      · simp
      · simpa using h3 i hb

/-- Unpack `wfB`. -/
theorem wfB_iff (s : Schedule) :
    wfB s = true ↔
      (LinksInc s.heap ∧ PtrOk s.heap s.front ∧ PtrOk s.heap s.back) ∧
        s.size = (reach s).length ∧ s.back = (reach s).getLast? := by
  unfold wfB
  rw [Bool.and_eq_true, Bool.and_eq_true, structOkB_iff]
  simp [and_assoc]

/-- Fuel does not matter once it covers the distance to the end of the
arena (links strictly increase). -/
theorem reachAux_stable (h : List SNode) (hInc : LinksInc h) :
    ∀ dist i fuel₁ fuel₂, h.length - i = dist → i < h.length →
      h.length - i ≤ fuel₁ → h.length - i ≤ fuel₂ →
      reachAux h fuel₁ (some i) = reachAux h fuel₂ (some i) := by
  intro dist
  induction dist using Nat.strong_induction_on with
  | _ dist ih =>
      intro i fuel₁ fuel₂ hdist hi h1 h2
      have hpos : 1 ≤ h.length - i := by omega
      obtain ⟨f₁, rfl⟩ : ∃ f, fuel₁ = f + 1 := ⟨fuel₁ - 1, by omega⟩
      obtain ⟨f₂, rfl⟩ : ∃ f, fuel₂ = f + 1 := ⟨fuel₂ - 1, by omega⟩
      show i :: reachAux h f₁ (h.getD i ⟨none, 0⟩).link =
        i :: reachAux h f₂ (h.getD i ⟨none, 0⟩).link
      rcases hl : (h.getD i ⟨none, 0⟩).link with _ | j
      · simp [reachAux]
      · obtain ⟨hij, hjl⟩ := hInc i hi j hl
        have : reachAux h f₁ (some j) = reachAux h f₂ (some j) :=
          ih (h.length - j) (by omega) j f₁ f₂ rfl hjl (by omega) (by omega)
        rw [this]

/-- Unfold one step of `chain` at a valid index. -/
theorem chain_cons (h : List SNode) (hInc : LinksInc h) (i : Nat) (hi : i < h.length) :
    chain h (some i) = i :: chain h ((h.getD i ⟨none, 0⟩).link) := by
  have hlen : 1 ≤ h.length := by omega
  obtain ⟨f, hf⟩ : ∃ f, h.length = f + 1 := ⟨h.length - 1, by omega⟩
  show reachAux h h.length (some i) = _
  rw [hf]
  show i :: reachAux h f (h.getD i ⟨none, 0⟩).link = _
  rcases hl : (h.getD i ⟨none, 0⟩).link with _ | j
  · simp [chain, reachAux]
  · obtain ⟨hij, hjl⟩ := hInc i hi j hl
    have : reachAux h f (some j) = reachAux h (f + 1) (some j) :=
      reachAux_stable h hInc (h.length - j) j f (f + 1) rfl hjl (by omega) (by omega)
    rw [this, ← hf]
    rfl

/-- Every element of a chain from a valid index is a valid index at least as
large as the start. -/
theorem chain_bounds (h : List SNode) (hInc : LinksInc h) :
    ∀ fuel o, PtrOk h o → ∀ x ∈ reachAux h fuel o,
      x < h.length ∧ (∀ i, o = some i → i ≤ x) := by
  intro fuel
  induction fuel with
  | zero =>
      intro o _ x hx
      rcases o with _ | i <;> simp [reachAux] at hx
  | succ fuel ih =>
      intro o ho x hx
      rcases o with _ | i
      · simp [reachAux] at hx
      · have hi : i < h.length := ho i rfl
        simp only [reachAux, List.mem_cons] at hx
        rcases hx with rfl | hx
        · exact ⟨hi, fun j hj => by cases hj; omega⟩
        · rcases hl : (h.getD i ⟨none, 0⟩).link with _ | j
          · rw [hl] at hx
            simp [reachAux] at hx
          · rw [hl] at hx
            obtain ⟨hij, hjl⟩ := hInc i hi j hl
            obtain ⟨hx1, hx2⟩ := ih (some j) (fun k hk => by cases hk; exact hjl) x hx
            exact ⟨hx1, fun k hk => by cases hk; have := hx2 j rfl; omega⟩

/-- A chain is strictly increasing (hence duplicate-free). -/
theorem chain_pairwise (h : List SNode) (hInc : LinksInc h) :
    ∀ fuel o, PtrOk h o → (reachAux h fuel o).Pairwise (· < ·) := by
  intro fuel
  induction fuel with
  | zero =>
      intro o _
      rcases o with _ | i <;> simp [reachAux]
  | succ fuel ih =>
      intro o ho
      rcases o with _ | i
      · simp [reachAux]
      · have hi : i < h.length := ho i rfl
        show ((i :: reachAux h fuel (h.getD i ⟨none, 0⟩).link)).Pairwise (· < ·)
        rcases hl : (h.getD i ⟨none, 0⟩).link with _ | j
        · simp [reachAux]
        · obtain ⟨hij, hjl⟩ := hInc i hi j hl
          have hptr : PtrOk h (some j) := fun k hk => by cases hk; exact hjl
          refine List.pairwise_cons.mpr ⟨?_, ih (some j) hptr⟩
          intro x hx
          obtain ⟨-, hx2⟩ := chain_bounds h hInc fuel (some j) hptr x hx
          have := hx2 j rfl
          omega

/-- A path decomposes the chain. -/
theorem path_chain (h : List SNode) (hInc : LinksInc h) :
    ∀ (A : List Nat) (f t : Option Nat), PtrOk h f → pathTo h f A t →
      chain h f = A ++ chain h t ∧ PtrOk h t := by
  intro A
  induction A with
  | nil =>
      intro f t hf hp
      cases hp
      exact ⟨by simp, hf⟩
  | cons a as ih =>
      intro f t hf hp
      obtain ⟨hfa, hrest⟩ := hp
      subst hfa
      have ha : a < h.length := hf a rfl
      have hptr : PtrOk h (h.getD a ⟨none, 0⟩).link := by
        intro j hj
        exact (hInc a ha j hj).2
      obtain ⟨ih1, ih2⟩ := ih _ t hptr hrest
      refine ⟨?_, ih2⟩
      rw [chain_cons h hInc a ha, ih1]
      rfl

/-- Append one visited node to a path. -/
theorem pathTo_snoc (h : List SNode) :
    ∀ (A : List Nat) (f : Option Nat) (n : Nat),
      pathTo h f A (some n) → pathTo h f (A ++ [n]) (h.getD n ⟨none, 0⟩).link := by
  intro A
  induction A with
  | nil =>
      intro f n hp
      cases hp
      exact ⟨rfl, rfl⟩
  | cons a as ih =>
      intro f n hp
      obtain ⟨hfa, hrest⟩ := hp
      exact ⟨hfa, ih _ n hrest⟩

/-- Split off the last visited node of a path. -/
theorem pathTo_unsnoc (h : List SNode) :
    ∀ (A : List Nat) (f t : Option Nat) (l : Nat),
      pathTo h f (A ++ [l]) t → pathTo h f A (some l) ∧ (h.getD l ⟨none, 0⟩).link = t := by
  intro A
  induction A with
  | nil =>
      intro f t l hp
      obtain ⟨hfa, hrest⟩ := hp
      cases hrest
      exact ⟨hfa, by rfl⟩
  | cons a as ih =>
      intro f t l hp
      obtain ⟨hfa, hrest⟩ := hp
      obtain ⟨ih1, ih2⟩ := ih _ t l hrest
      exact ⟨⟨hfa, ih1⟩, ih2⟩

/-- Paths ignore writes to nodes they do not visit. -/
theorem pathTo_set (h : List SNode) (p : Nat) (v : SNode) :
    ∀ (A : List Nat) (f t : Option Nat), p ∉ A → pathTo h f A t →
      pathTo (h.set p v) f A t := by
  intro A
  induction A with
  | nil => intro f t _ hp; exact hp
  | cons a as ih =>
      intro f t hpA hp
      obtain ⟨hfa, hrest⟩ := hp
      refine ⟨hfa, ?_⟩
      rw [getD_set_ne h p v a _ (fun he => hpA (by simp [he]))]
      exact ih _ t (fun hmem => hpA (by simp [hmem])) hrest

/-- Paths ignore nodes appended to the arena (all visited nodes are old). -/
theorem pathTo_append (h : List SNode) (x : SNode) :
    ∀ (A : List Nat) (f t : Option Nat), (∀ a ∈ A, a < h.length) → pathTo h f A t →
      pathTo (h ++ [x]) f A t := by
  intro A
  induction A with
  | nil => intro f t _ hp; exact hp
  | cons a as ih =>
      intro f t hA hp
      obtain ⟨hfa, hrest⟩ := hp
      refine ⟨hfa, ?_⟩
      rw [show (h ++ [x]).getD a ⟨none, 0⟩ = h.getD a ⟨none, 0⟩ from
        List.getD_append _ _ _ _ (hA a (by simp))]
      exact ih _ t (fun y hy => hA y (by simp [hy])) hrest

/-- Chains ignore nodes appended to the arena. -/
theorem reachAux_append (h : List SNode) (x : SNode) (hInc : LinksInc h) :
    ∀ (fuel : Nat) (o : Option Nat), PtrOk h o →
      reachAux (h ++ [x]) fuel o = reachAux h fuel o := by
  intro fuel
  induction fuel with
  | zero => intro o _; rcases o with _ | i <;> rfl
  | succ fuel ih =>
      intro o ho
      rcases o with _ | i
      · rfl
      · have hi : i < h.length := ho i rfl
        show i :: reachAux (h ++ [x]) fuel ((h ++ [x]).getD i ⟨none, 0⟩).link = _
        rw [List.getD_append _ _ _ _ hi]
        congr 1
        exact ih _ (fun j hj => (hInc i hi j hj).2)

/-- Chains ignore writes strictly below their least node. -/
theorem reachAux_set_low (h : List SNode) (p : Nat) (v : SNode) (hInc : LinksInc h) :
    ∀ (fuel : Nat) (o : Option Nat), PtrOk h o → (∀ i, o = some i → p < i) →
      reachAux (h.set p v) fuel o = reachAux h fuel o := by
  intro fuel
  induction fuel with
  | zero => intro o _ _; rcases o with _ | i <;> rfl
  | succ fuel ih =>
      intro o ho hlow
      rcases o with _ | i
      · rfl
      · have hi : i < h.length := ho i rfl
        have hpi : p < i := hlow i rfl
        show i :: reachAux (h.set p v) fuel ((h.set p v).getD i ⟨none, 0⟩).link = _
        rw [getD_set_ne h p v i _ (by omega)]
        congr 1
        exact ih _ (fun j hj => (hInc i hi j hj).2)
          (fun j hj => by have := (hInc i hi j hj).1; omega)

/-- Appending a link-free node preserves link soundness. -/
theorem linksInc_append (h : List SNode) (c : Nat) (hInc : LinksInc h) :
    LinksInc (h ++ [⟨none, c⟩]) := by
  intro i hi j hj
  simp only [List.length_append, List.length_singleton] at hi
  rcases Nat.lt_or_ge i h.length with hil | hil
  · rw [List.getD_append _ _ _ _ hil] at hj
    obtain ⟨h1, h2⟩ := hInc i hil j hj
    simp only [List.length_append, List.length_singleton]
    omega
  · have : i = h.length := by omega
    subst this
    rw [getD_append_self] at hj
    cases hj

/-- Pointing the old back node at the fresh node and appending it preserves
link soundness. -/
theorem linksInc_add (h : List SNode) (b cb c : Nat) (hInc : LinksInc h)
    (hb : b < h.length) :
    LinksInc ((h.set b ⟨some h.length, cb⟩) ++ [⟨none, c⟩]) := by
  intro i hi j hj
  simp only [List.length_append, List.length_set, List.length_singleton] at hi ⊢
  rcases Nat.lt_or_ge i h.length with hil | hil
  · rw [List.getD_append _ _ _ _ (by simpa using hil)] at hj
    by_cases hib : i = b
    · subst hib
      rw [getD_set_self h i _ _ hil] at hj
      cases hj
      omega
    · rw [getD_set_ne h b _ i _ hib] at hj
      obtain ⟨h1, h2⟩ := hInc i hil j hj
      omega
  · have : i = h.length := by omega
    subst this
    rw [show ((h.set b ⟨some h.length, cb⟩) ++ [(⟨none, c⟩ : SNode)]).getD h.length _ =
      (⟨none, c⟩ : SNode) from by
        have := getD_append_self (h.set b ⟨some h.length, cb⟩) ⟨none, c⟩ ⟨none, 0⟩
        simpa using this] at hj
    cases hj

/-- The last node of a chain has a null link. -/
theorem chain_last_link (h : List SNode) (hInc : LinksInc h) :
    ∀ dist i, h.length - i = dist → i < h.length → ∀ l,
      (chain h (some i)).getLast? = some l → (h.getD l ⟨none, 0⟩).link = none := by
  intro dist
  induction dist using Nat.strong_induction_on with
  | _ dist ih =>
      intro i hdist hi l hlast
      rw [chain_cons h hInc i hi] at hlast
      rcases hl : (h.getD i ⟨none, 0⟩).link with _ | j
      · rw [hl] at hlast
        simp [chain, reachAux] at hlast
        rw [← hlast]
        exact hl
      · rw [hl] at hlast
        obtain ⟨hij, hjl⟩ := hInc i hi j hl
        rw [chain_cons h hInc j hjl] at hlast
        simp only [List.getLast?_cons_cons] at hlast
        rw [← chain_cons h hInc j hjl] at hlast
        exact ih (h.length - j) (by omega) j rfl hjl l hlast

/-- Writing the fresh node's index into the old back node's link and
appending the fresh node extends by one every chain that ended at the old
back node. -/
theorem chain_add_ext (h : List SNode) (b cb c : Nat) (hInc : LinksInc h)
    (hb : b < h.length) (hbl : (h.getD b ⟨none, 0⟩).link = none) :
    ∀ dist i, h.length - i = dist → i < h.length →
      (chain h (some i)).getLast? = some b →
      chain ((h.set b ⟨some h.length, cb⟩) ++ [⟨none, c⟩]) (some i) =
        chain h (some i) ++ [h.length] := by
  have hInc' := linksInc_add h b cb c hInc hb
  have hlen' : ((h.set b ⟨some h.length, cb⟩) ++ [(⟨none, c⟩ : SNode)]).length =
      h.length + 1 := by simp
  have hnewnode : ((h.set b ⟨some h.length, cb⟩) ++ [(⟨none, c⟩ : SNode)]).getD h.length
      ⟨none, 0⟩ = ⟨none, c⟩ := by
    have := getD_append_self (h.set b ⟨some h.length, cb⟩) ⟨none, c⟩ ⟨none, 0⟩
    simpa using this
  have hnewchain : chain ((h.set b ⟨some h.length, cb⟩) ++ [⟨none, c⟩])
      (some h.length) = [h.length] := by
    rw [chain_cons _ hInc' h.length (by omega), hnewnode]
    simp [chain, reachAux]
  intro dist
  induction dist using Nat.strong_induction_on with
  | _ dist ih =>
      intro i hdist hi hlast
      by_cases hib : i = b
      · subst hib
        have hchi : chain h (some i) = [i] := by
          rw [chain_cons h hInc i hi, hbl]
          simp [chain, reachAux]
        have hup : ((h.set i ⟨some h.length, cb⟩) ++ [(⟨none, c⟩ : SNode)]).getD i
            ⟨none, 0⟩ = ⟨some h.length, cb⟩ := by
          rw [List.getD_append _ _ _ _ (by simpa using hi)]
          exact getD_set_self h i _ _ hi
        rw [chain_cons _ hInc' i (by omega), hup, hchi, hnewchain]
        rfl
      · have hup : ((h.set b ⟨some h.length, cb⟩) ++ [(⟨none, c⟩ : SNode)]).getD i
            ⟨none, 0⟩ = h.getD i ⟨none, 0⟩ := by
          rw [List.getD_append _ _ _ _ (by simpa using hi)]
          exact getD_set_ne h b _ i _ hib
        rw [chain_cons _ hInc' i (by omega), hup]
        rcases hl : (h.getD i ⟨none, 0⟩).link with _ | j
        · rw [chain_cons h hInc i hi, hl] at hlast
          simp [chain, reachAux] at hlast
          omega
        · obtain ⟨hij, hjl⟩ := hInc i hi j hl
          have hlast' : (chain h (some j)).getLast? = some b := by
            rw [chain_cons h hInc i hi, hl] at hlast
            rw [chain_cons h hInc j hjl] at hlast ⊢
            simpa using hlast
          rw [chain_cons h hInc i hi, hl]
          rw [ih (h.length - j) (by omega) j rfl hjl hlast']
          rfl


/-- A chain from a null pointer is empty, whatever the fuel. -/
theorem reachAux_none (h : List SNode) (fuel : Nat) : reachAux h fuel none = [] := by
  cases fuel <;> rfl

/-- Full specification of `Schedule.add` on a well-formed schedule: it
succeeds, keeps the invariants, appends the fresh node to the reachable
list (and its handle to the live handles), changes no existing node's
coroutine, and — when the schedule was non-empty — leaves `front` and every
path to a non-exhausted position intact while extending the chain beyond
that position by the fresh node. -/
theorem add_spec (s : Schedule) (c : Nat) (hwf : wfB s = true) :
    ∃ s', s.add c = some s' ∧ wfB s' = true ∧
      s'.heap.length = s.heap.length + 1 ∧
      reach s' = reach s ++ [s.heap.length] ∧
      (∀ i, i < s.heap.length → (s'.node i).coro = (s.node i).coro) ∧
      liveCoros s' = liveCoros s ++ [c] ∧
      (s.size ≠ 0 → s'.front = s.front ∧
        ∀ A node, pathTo s.heap s.front A node → chain s.heap node ≠ [] →
          pathTo s'.heap s.front A node ∧
          chain s'.heap node = chain s.heap node ++ [s.heap.length]) := by
  obtain ⟨⟨hInc, hPf, hPb⟩, hSz, hBk⟩ := (wfB_iff s).mp hwf
  by_cases hsz : s.size = 0
  · have hre : reach s = [] := List.length_eq_zero.mp (by omega)
    have hfn : s.front = none := by
      rcases hf : s.front with _ | f
      · rfl
      · have hfl : f < s.heap.length := hPf f hf
        have hx : reach s = f :: chain s.heap (s.heap.getD f ⟨none, 0⟩).link := by
          show chain s.heap s.front = _
          rw [hf]
          exact chain_cons s.heap hInc f hfl
        rw [hre] at hx
        cases hx
    have hInc' := linksInc_append s.heap c hInc
    have hchn : chain (s.heap ++ [⟨none, c⟩]) (some s.heap.length) = [s.heap.length] := by
      rw [chain_cons _ hInc' s.heap.length (by simp), getD_append_self]
      exact congrArg _ (reachAux_none _ _)
    refine ⟨(⟨s.heap ++ [⟨none, c⟩], some s.heap.length, some s.heap.length,
      s.size + 1⟩ : Schedule), ?_, ?_, by simp, ?_, ?_, ?_, fun h0 => absurd hsz h0⟩
    · simp [Schedule.add, hsz]
    · rw [wfB_iff]
      refine ⟨⟨hInc', ?_, ?_⟩, ?_, ?_⟩
      · intro i hi
        cases hi
        simp
      · intro i hi
        cases hi
        simp
      · show s.size + 1 = (chain (s.heap ++ [⟨none, c⟩]) (some s.heap.length)).length
        rw [hchn, hsz]
        rfl
      · show some s.heap.length =
          (chain (s.heap ++ [⟨none, c⟩]) (some s.heap.length)).getLast?
        rw [hchn]
        rfl
    · show chain (s.heap ++ [⟨none, c⟩]) (some s.heap.length) = reach s ++ [s.heap.length]
      rw [hchn, hre]
      rfl
    · intro i hi
      show ((s.heap ++ [(⟨none, c⟩ : SNode)]).getD i ⟨none, 0⟩).coro = _
      rw [List.getD_append _ _ _ _ hi]
      rfl
    · show (chain (s.heap ++ [⟨none, c⟩]) (some s.heap.length)).map _ = _
      rw [hchn]
      have hl0 : liveCoros s = [] := by rw [liveCoros, hre]; rfl
      rw [hl0]
      show [(Schedule.node _ s.heap.length).coro] = [c]
      show [((s.heap ++ [(⟨none, c⟩ : SNode)]).getD s.heap.length ⟨none, 0⟩).coro] = [c]
      rw [getD_append_self]
  · have hrne : reach s ≠ [] := fun he => hsz (by rw [hSz, he]; rfl)
    have hbne : s.back ≠ none := by
      intro hbn
      rw [hbn] at hBk
      exact hrne (List.getLast?_eq_none_iff.mp hBk.symm)
    rcases hbk : s.back with _ | b
    · exact absurd hbk hbne
    · have hb : b < s.heap.length := hPb b hbk
      have hfne : s.front ≠ none := by
        intro hfn
        refine hrne ?_
        show chain s.heap s.front = []
        rw [hfn]
        exact reachAux_none _ _
      rcases hf : s.front with _ | f
      · exact absurd hf hfne
      · have hfl : f < s.heap.length := hPf f hf
        have hreach : reach s = chain s.heap (some f) := by
          show chain s.heap s.front = _
          rw [hf]
        have hlastb : (chain s.heap (some f)).getLast? = some b := by
          rw [← hreach, ← hBk, hbk]
        have hbl : (s.heap.getD b ⟨none, 0⟩).link = none :=
          chain_last_link s.heap hInc (s.heap.length - f) f rfl hfl b hlastb
        set h' : List SNode :=
          (s.heap.set b ⟨some s.heap.length, (s.node b).coro⟩) ++ [⟨none, c⟩] with hh'
        have hInc' : LinksInc h' := linksInc_add s.heap b _ c hInc hb
        have hlen' : h'.length = s.heap.length + 1 := by simp [hh']
        have hext : chain h' (some f) = chain s.heap (some f) ++ [s.heap.length] :=
          chain_add_ext s.heap b _ c hInc hb hbl (s.heap.length - f) f rfl hfl hlastb
        have hcoro : ∀ i, i < s.heap.length →
            (h'.getD i ⟨none, 0⟩).coro = (s.node i).coro := by
          intro i hi
          rw [hh', List.getD_append _ _ _ _ (by simpa using hi)]
          by_cases hib : i = b
          · subst hib
            rw [getD_set_self _ _ _ _ hi]
          · rw [getD_set_ne _ _ _ _ _ hib]
            rfl
        have hs' : s.add c = some ⟨h', some f, some s.heap.length, s.size + 1⟩ := by
          unfold Schedule.add
          rw [if_neg hsz, hbk, hf]
        refine ⟨(⟨h', some f, some s.heap.length, s.size + 1⟩ : Schedule), hs', ?_,
          by simp [hh'], ?_, hcoro, ?_, ?_⟩
        · rw [wfB_iff]
          refine ⟨⟨hInc', ?_, ?_⟩, ?_, ?_⟩
          · intro i hi
            cases hi
            rw [hlen']
            omega
          · intro i hi
            cases hi
            rw [hlen']
            omega
          · show s.size + 1 = (chain h' (some f)).length
            rw [hext, List.length_append, ← hreach, ← hSz]
            rfl
          · show some s.heap.length = (chain h' (some f)).getLast?
            rw [hext, List.getLast?_concat]
        · show chain h' (some f) = reach s ++ [s.heap.length]
          rw [hext, hreach]
        · show (chain h' (some f)).map _ = _
          rw [hext, List.map_append]
          have hlive : liveCoros s = (chain s.heap (some f)).map
              (fun i => (s.node i).coro) := by
            rw [liveCoros, hreach]
          rw [hlive]
          congr 1
          · refine List.map_congr_left fun i hi => ?_
            have hib : i < s.heap.length :=
              (chain_bounds s.heap hInc s.heap.length (some f)
                (fun k hk => by cases hk; exact hfl) i hi).1
            exact hcoro i hib
          · show [(Schedule.node _ s.heap.length).coro] = [c]
            show [(h'.getD s.heap.length ⟨none, 0⟩).coro] = [c]
            rw [hh']
            have hga := getD_append_self (s.heap.set b ⟨some s.heap.length, (s.node b).coro⟩)
              ⟨none, c⟩ ⟨none, 0⟩
            simp only [List.length_set] at hga
            rw [hga]
        · intro _
          refine ⟨rfl, ?_⟩
          intro A node hpath hchne
          obtain ⟨hdecomp, hPn⟩ := path_chain s.heap hInc A (some f) node
            (fun k hk => by cases hk; exact hfl) hpath
          have hlastn : (chain s.heap node).getLast? = some b := by
            rw [hdecomp, List.getLast?_append_of_ne_nil A hchne] at hlastb
            exact hlastb
          have hbmem : b ∈ chain s.heap node := by
            have hmo : b ∈ (chain s.heap node).getLast? := hlastn ▸ rfl
            rcases List.mem_getLast?_eq_getLast hmo with ⟨hne, rfl⟩
            exact List.getLast_mem hne
          have hpw : (A ++ chain s.heap node).Pairwise (· < ·) := by
            rw [← hdecomp]
            exact chain_pairwise s.heap hInc s.heap.length (some f)
              (fun k hk => by cases hk; exact hfl)
          have hbA : b ∉ A := by
            intro hbA
            have := (List.pairwise_append.mp hpw).2.2 b hbA b hbmem
            omega
          have hAlt : ∀ a ∈ A, a < s.heap.length := by
            intro a ha
            exact (chain_bounds s.heap hInc s.heap.length (some f)
              (fun k hk => by cases hk; exact hfl) a
              (by show a ∈ chain s.heap (some f)
                  rw [hdecomp]
                  exact List.mem_append.mpr (Or.inl ha))).1
          constructor
          · show pathTo h' (some f) A node
            rw [hh']
            refine pathTo_append _ _ A (some f) node (by simpa using hAlt) ?_
            exact pathTo_set s.heap b _ A (some f) node hbA hpath
          · rcases hn : node with _ | n
            · rw [hn] at hchne
              exact absurd (reachAux_none _ _) hchne
            · rw [hn] at hlastn
              have hnl : n < s.heap.length := hPn n hn
              exact chain_add_ext s.heap b _ c hInc hb hbl (s.heap.length - n) n rfl
                hnl hlastn


/-- The outcome `next()` reports is the decided outcome. -/
theorem resumeCo_out (env : CoroEnv) (rt : RtState) (c : Nat) :
    (resumeCo env rt c).1 = tickDecide env rt c := by
  unfold resumeCo tickDecide
  split <;> rfl

/-- The handles `next()` adds mid-run: none on a finished generator, the
body's adds otherwise. -/
theorem resumeCo_adds (env : CoroEnv) (rt : RtState) (c : Nat) :
    (resumeCo env rt c).2.1 = if rt.finished c then [] else env.adds c (rt.count c) := by
  unfold resumeCo
  split <;> simp_all

/-- `next()` on one coroutine leaves every other coroutine's resume count
alone. -/
theorem resumeCo_count_ne (env : CoroEnv) (rt : RtState) (c c' : Nat) (h : c' ≠ c) :
    ((resumeCo env rt c).2.2).count c' = rt.count c' := by
  unfold resumeCo
  split
  · rfl
  · exact Function.update_noteq h _ _

/-- `next()` on one coroutine leaves every other coroutine's finished flag
alone. -/
theorem resumeCo_finished_ne (env : CoroEnv) (rt : RtState) (c c' : Nat) (h : c' ≠ c) :
    ((resumeCo env rt c).2.2).finished c' = rt.finished c' := by
  unfold resumeCo
  split
  · rfl
  · show (match env.out c (rt.count c) with
      | .yld => rt.finished
      | _ => Function.update rt.finished c true) c' = rt.finished c'
    rcases ho : env.out c (rt.count c) with _ | _ | _ <;> simp only [ho] <;>
      exact Function.update_noteq h _ _

/-- `next()` on one coroutine does not change what any other coroutine
would do. -/
theorem tickDecide_resume_ne (env : CoroEnv) (rt : RtState) (c c' : Nat) (h : c' ≠ c) :
    tickDecide env ((resumeCo env rt c).2.2) c' = tickDecide env rt c' := by
  unfold tickDecide
  rw [resumeCo_count_ne env rt c c' h, resumeCo_finished_ne env rt c c' h]

/-- After a resume whose decided outcome is not a yield, the generator is
finished. -/
theorem resumeCo_finished_self (env : CoroEnv) (rt : RtState) (c : Nat)
    (h : tickDecide env rt c ≠ .yld) :
    ((resumeCo env rt c).2.2).finished c = true := by
  unfold resumeCo
  rcases hf : rt.finished c with _ | _
  · unfold tickDecide at h
    rw [hf] at h
    simp only [if_false, Bool.false_eq_true] at h
    show (match env.out c (rt.count c) with
      | .yld => rt.finished
      | _ => Function.update rt.finished c true) c = true
    rcases ho : env.out c (rt.count c) with _ | _ | _
    · rw [ho] at h
      simp at h
    all_goals simp [Function.update_same]
  · simp [hf]

/-- `rtAfter` over handles not containing `c` leaves `c`'s runtime state
alone. -/
theorem rtAfter_ne (env : CoroEnv) :
    ∀ (cs : List Nat) (rt : RtState) (c : Nat), c ∉ cs →
      (rtAfter env rt cs).count c = rt.count c ∧
        (rtAfter env rt cs).finished c = rt.finished c := by
  intro cs
  induction cs with
  | nil => intro rt c _; exact ⟨rfl, rfl⟩
  | cons a as ih =>
      intro rt c hc
      have hca : c ≠ a := fun he => hc (by simp [he])
      have has : c ∉ as := fun he => hc (by simp [he])
      obtain ⟨ih1, ih2⟩ := ih _ c has
      exact ⟨ih1.trans (resumeCo_count_ne env rt a c hca),
        ih2.trans (resumeCo_finished_ne env rt a c hca)⟩

/-- A handle resumed once during a pass whose decided outcome was not a
yield ends the pass finished. -/
theorem rtAfter_finished_mem (env : CoroEnv) :
    ∀ (cs : List Nat) (rt : RtState) (c : Nat), cs.Nodup → c ∈ cs →
      tickDecide env rt c ≠ .yld → (rtAfter env rt cs).finished c = true := by
  intro cs
  induction cs with
  | nil => intro rt c _ hc; cases hc
  | cons a as ih =>
      intro rt c hnd hc hy
      rcases List.mem_cons.mp hc with rfl | hc
      · have hna : c ∉ as := (List.nodup_cons.mp hnd).1
        exact ((rtAfter_ne env as _ c hna).2).trans
          (resumeCo_finished_self env rt c hy)
      · have hca : c ≠ a := fun he => (List.nodup_cons.mp hnd).1 (he ▸ hc)
        exact ih _ c (List.nodup_cons.mp hnd).2 hc
          (by rw [tickDecide_resume_ne env rt a c hca]; exact hy)

/-- `flatMap` only looks at its function on members. -/
theorem flatMap_congr_mem (l : List Nat) (f g : Nat → List Nat)
    (h : ∀ a ∈ l, f a = g a) : l.flatMap f = l.flatMap g := by
  induction l with
  | nil => rfl
  | cons a as ih =>
      rw [List.flatMap_cons, List.flatMap_cons, h a (by simp),
        ih fun x hx => h x (by simp [hx])]

/-- `corosOf` distributes over append. -/
theorem corosOf_append (s : Schedule) (V W : List Nat) :
    corosOf s (V ++ W) = corosOf s V ++ corosOf s W := List.map_append _ _ _

/-- `corosOf` agrees across states that store the same handles at the
listed ids. -/
theorem corosOf_congr (s s' : Schedule) (V : List Nat)
    (h : ∀ i ∈ V, (s'.node i).coro = (s.node i).coro) :
    corosOf s' V = corosOf s V := List.map_congr_left h

/-- The chain from a valid index is never empty. -/
theorem chain_some_ne_nil (h : List SNode) (hInc : LinksInc h) (j : Nat)
    (hj : j < h.length) : chain h (some j) ≠ [] := by
  rw [chain_cons h hInc j hj]
  exact List.cons_ne_nil _ _

/-- If the last entry of a cons-chain is its own head, the tail chain is
empty. -/
theorem chain_cons_getLast_self (h : List SNode) (hInc : LinksInc h) (nid : Nat)
    (hn : nid < h.length)
    (hl : (nid :: chain h ((h.getD nid ⟨none, 0⟩).link)).getLast? = some nid) :
    chain h ((h.getD nid ⟨none, 0⟩).link) = [] := by
  by_contra hne
  have hl2 : (chain h ((h.getD nid ⟨none, 0⟩).link)).getLast? = some nid := by
    rw [← List.getLast?_append_of_ne_nil [nid] hne]
    exact hl
  have hmem : nid ∈ chain h ((h.getD nid ⟨none, 0⟩).link) := by
    have hmo : nid ∈ (chain h ((h.getD nid ⟨none, 0⟩).link)).getLast? := by
      rw [Option.mem_def]
      exact hl2
    rcases List.mem_getLast?_eq_getLast hmo with ⟨hne', heq⟩
    have hgm := List.getLast_mem hne'
    rwa [← heq] at hgm
  have hPl : PtrOk h (h.getD nid ⟨none, 0⟩).link := fun j hj => (hInc nid hn j hj).2
  obtain ⟨-, hge⟩ := chain_bounds h hInc h.length _ hPl nid hmem
  rcases hlk : (h.getD nid ⟨none, 0⟩).link with _ | j
  · rw [hlk] at hmem
    rw [show chain h none = [] from reachAux_none _ _] at hmem
    cases hmem
  · rw [hlk] at hge
    have := hge j rfl
    have := (hInc nid hn j hlk).1
    omega

/-- A chain that is empty comes from a null pointer. -/
theorem chain_eq_nil_link_none (h : List SNode) (hInc : LinksInc h) (o : Option Nat)
    (hP : PtrOk h o) (he : chain h o = []) : o = none := by
  rcases ho : o with _ | j
  · rfl
  · rw [ho] at he
    exact absurd he (chain_some_ne_nil h hInc j (hP j ho))

/-- First-failure split of a list: either no element satisfies the
predicate, or the list splits at the first element that does. -/
theorem list_first_split (p : Nat → Prop) [DecidablePred p] :
    ∀ C : List Nat, (∀ c ∈ C, ¬ p c) ∨
      ∃ C1 w C2, C = C1 ++ w :: C2 ∧ (∀ c ∈ C1, ¬ p c) ∧ p w := by
  intro C
  induction C with
  | nil => exact Or.inl (by simp)
  | cons a as ih =>
      by_cases ha : p a
      · exact Or.inr ⟨[], a, as, rfl, by simp, ha⟩
      · rcases ih with hno | ⟨C1, w, C2, hsp, hC1, hw⟩
        · refine Or.inl ?_
          intro c hc
          rcases List.mem_cons.mp hc with rfl | hc
          · exact ha
          · exact hno c hc
        · refine Or.inr ⟨a :: C1, w, C2, by rw [hsp]; rfl, ?_, hw⟩
          intro c hc
          rcases List.mem_cons.mp hc with rfl | hc
          · exact ha
          · exact hC1 c hc

/-- An environment that never adds has an empty adds preview from any
state. -/
theorem addsPreview_of_no_adds (env : CoroEnv) (s : Schedule) (rt : RtState)
    (h : ∀ c k, env.adds c k = []) : addsPreview env s rt = [] := by
  unfold addsPreview
  rw [flatMap_congr_mem _ _ (fun _ => []) fun a _ => by rw [h]; split <;> rfl]
  simp

/-- Full specification of a run of mid-tick `Schedule.add` calls on a
well-formed schedule: every add succeeds, the invariants survive, the added
handles append to the live list, no stored handle changes, and — when the
schedule was non-empty — `front` and every path to a non-exhausted position
survive while the chain beyond that position grows by nodes holding exactly
the added handles, in order. -/
theorem applyAdds_spec :
    ∀ (cs : List Nat) (s : Schedule), wfB s = true →
      ∃ s1, applyAdds s cs = some s1 ∧ wfB s1 = true ∧
        s.heap.length ≤ s1.heap.length ∧
        (∀ i, i < s.heap.length → (s1.node i).coro = (s.node i).coro) ∧
        liveCoros s1 = liveCoros s ++ cs ∧
        (s.size ≠ 0 → s1.front = s.front ∧
          ∀ A node, pathTo s.heap s.front A node → chain s.heap node ≠ [] →
            pathTo s1.heap s.front A node ∧
            ∃ newIds, chain s1.heap node = chain s.heap node ++ newIds ∧
              corosOf s1 newIds = cs) := by
  intro cs
  induction cs with
  | nil =>
      intro s hwf
      refine ⟨s, rfl, hwf, le_refl _, fun i _ => rfl, (List.append_nil _).symm, ?_⟩
      intro _
      refine ⟨rfl, ?_⟩
      intro A node hpath _
      exact ⟨hpath, [], (List.append_nil _).symm, rfl⟩
  | cons c cs ih =>
      intro s hwf
      obtain ⟨s', hadd, hwf', hlen', hreach', hcoro', hlive', hclause'⟩ := add_spec s c hwf
      obtain ⟨s1, happ, hwf1, hlen1, hcoro1, hlive1, hclause1⟩ := ih s' hwf'
      have happly : applyAdds s (c :: cs) = some s1 := by
        show (match s.add c with
          | none => none
          | some s'' => applyAdds s'' cs) = some s1
        rw [hadd]
        exact happ
      have hszpos' : s'.size ≠ 0 := by
        obtain ⟨-, hSz', -⟩ := (wfB_iff s').mp hwf'
        rw [hSz', hreach', List.length_append]
        simp
      have hcnew : (s'.node s.heap.length).coro = c := by
        have h1 : corosOf s' (reach s) ++ [(s'.node s.heap.length).coro] =
            liveCoros s ++ [c] := by
          have h0 : liveCoros s' = corosOf s' (reach s ++ [s.heap.length]) := by
            show corosOf s' (reach s') = _
            rw [hreach']
          rw [← hlive', h0, corosOf_append]
          rfl
        have h2 := congrArg List.getLast? h1
        rw [List.getLast?_concat, List.getLast?_concat] at h2
        exact Option.some.inj h2
      refine ⟨s1, happly, hwf1, by omega, ?_, ?_, ?_⟩
      · intro i hi
        rw [hcoro1 i (by omega), hcoro' i hi]
      · rw [hlive1, hlive', List.append_assoc]
        rfl
      · intro hsz
        obtain ⟨hfr', hpc'⟩ := hclause' hsz
        obtain ⟨hfr1, hpc1⟩ := hclause1 hszpos'
        refine ⟨by rw [hfr1, hfr'], ?_⟩
        intro A node hpath hchne
        obtain ⟨hpath', hchext'⟩ := hpc' A node hpath hchne
        have hpath'' : pathTo s'.heap s'.front A node := by
          rw [hfr']
          exact hpath'
        have hchne' : chain s'.heap node ≠ [] := by
          rw [hchext']
          simp
        obtain ⟨hpath1, newIds', hchext1, hnew1⟩ := hpc1 A node hpath'' hchne'
        refine ⟨by rw [hfr'] at hpath1; exact hpath1, s.heap.length :: newIds', ?_, ?_⟩
        · rw [hchext1, hchext', List.append_assoc]
          rfl
        · show (s1.node s.heap.length).coro :: corosOf s1 newIds' = c :: cs
          rw [hnew1, hcoro1 s.heap.length (by omega), hcnew]

/-- One unfolding of the `tick` loop body at positive fuel. -/
theorem tickLoop_succ (env : CoroEnv) (fuel : Nat) (lr node : Option Nat)
    (s : Schedule) (rt : RtState) (tr : List Nat) :
    tickLoop env (fuel + 1) lr node s rt tr =
      match node with
      | none => .thrown s rt tr
      | some nid =>
          let c := (s.node nid).coro
          let r := resumeCo env rt c
          match applyAdds s r.2.1 with
          | none => .thrown s r.2.2 (tr ++ [c])
          | some s1 =>
              match r.1 with
              | .thr => .thrown s1 r.2.2 (tr ++ [c])
              | .yld => tickLoop env fuel (some nid) ((s1.node nid).link) s1 r.2.2 (tr ++ [c])
              | .done =>
                  let s2 :=
                    match lr with
                    | some l =>
                        let sA := { s1 with
                                      size := s1.size - 1,
                                      heap := s1.heap.set l ⟨(s1.node nid).link, (s1.node l).coro⟩ }
                        if sA.back = some nid then { sA with back := some l } else sA
                    | none =>
                        let sA := { s1 with size := s1.size - 1, front := (s1.node nid).link }
                        if sA.back = some nid then { sA with back := (s1.node nid).link } else sA
                  tickLoop env fuel lr ((s2.node nid).link) s2 r.2.2 (tr ++ [c]) := rfl

/-- Unlinking the just-visited node `nid` when a retained node `l` precedes
it (`lastRetained.link = node.link`, pulling `back` in to `l` when `nid` was
last): well-formedness survives, `front` and the path over the retained
nodes survive with `nid` spliced out, the remaining chain is untouched, and
no stored handle changes. -/
theorem unlink_some (s1 : Schedule) (A2 : List Nat) (l nid : Nat) (s2 : Schedule)
    (hwf : wfB s1 = true)
    (hpath : pathTo s1.heap s1.front (A2 ++ [l]) (some nid))
    (hs2 : s2 =
      (if (⟨s1.heap.set l ⟨(s1.node nid).link, (s1.node l).coro⟩, s1.front, s1.back,
            s1.size - 1⟩ : Schedule).back = some nid
        then ⟨s1.heap.set l ⟨(s1.node nid).link, (s1.node l).coro⟩, s1.front, some l,
          s1.size - 1⟩
        else ⟨s1.heap.set l ⟨(s1.node nid).link, (s1.node l).coro⟩, s1.front, s1.back,
          s1.size - 1⟩)) :
    wfB s2 = true ∧
    s2.front = s1.front ∧
    pathTo s2.heap s1.front (A2 ++ [l]) ((s1.node nid).link) ∧
    chain s2.heap ((s1.node nid).link) = chain s1.heap ((s1.node nid).link) ∧
    (s2.node nid).link = (s1.node nid).link ∧
    s2.heap.length = s1.heap.length ∧
    (∀ i, i < s1.heap.length → (s2.node i).coro = (s1.node i).coro) := by
  obtain ⟨⟨hInc, hPf, hPb⟩, hSz, hBk⟩ := (wfB_iff s1).mp hwf
  obtain ⟨hdecomp, hPn⟩ :=
    path_chain s1.heap hInc (A2 ++ [l]) s1.front (some nid) hPf hpath
  have hnid : nid < s1.heap.length := hPn nid rfl
  obtain ⟨hpath2, hllink⟩ := pathTo_unsnoc s1.heap A2 s1.front (some nid) l hpath
  obtain ⟨hdecomp2, hPl⟩ := path_chain s1.heap hInc A2 s1.front (some l) hPf hpath2
  have hl : l < s1.heap.length := hPl l rfl
  have hlnid : l < nid := (hInc l hl nid hllink).1
  have hPlink : PtrOk s1.heap (s1.node nid).link := fun j hj => (hInc nid hnid j hj).2
  have hlow : ∀ j, (s1.node nid).link = some j → l < j := fun j hj => by
    have := (hInc nid hnid j hj).1
    omega
  have hInc2 : LinksInc (s1.heap.set l ⟨(s1.node nid).link, (s1.node l).coro⟩) := by
    intro i hi j hj
    rw [List.length_set] at hi ⊢
    by_cases hil : i = l
    · subst hil
      rw [getD_set_self _ _ _ _ hi] at hj
      exact ⟨by have := hlow j hj; omega, hPlink j hj⟩
    · rw [getD_set_ne _ _ _ _ _ hil] at hj
      exact hInc i hi j hj
  have hchain2 : chain (s1.heap.set l ⟨(s1.node nid).link, (s1.node l).coro⟩)
      ((s1.node nid).link) = chain s1.heap ((s1.node nid).link) := by
    show reachAux _ (s1.heap.set l ⟨(s1.node nid).link, (s1.node l).coro⟩).length _ = _
    rw [List.length_set]
    exact reachAux_set_low s1.heap l _ hInc s1.heap.length _ hPlink hlow
  have hpwA : (A2 ++ [l]).Pairwise (· < ·) := by
    have hpw : ((A2 ++ [l]) ++ chain s1.heap (some nid)).Pairwise (· < ·) := by
      rw [← hdecomp]
      exact chain_pairwise s1.heap hInc s1.heap.length s1.front hPf
    exact (List.pairwise_append.mp hpw).1
  have hlA2 : l ∉ A2 := by
    intro hmem
    have := (List.pairwise_append.mp hpwA).2.2 l hmem l (by simp)
    omega
  have hpath2' : pathTo (s1.heap.set l ⟨(s1.node nid).link, (s1.node l).coro⟩)
      s1.front A2 (some l) :=
    pathTo_set s1.heap l _ A2 s1.front (some l) hlA2 hpath2
  have hpathNew : pathTo (s1.heap.set l ⟨(s1.node nid).link, (s1.node l).coro⟩)
      s1.front (A2 ++ [l]) ((s1.node nid).link) := by
    have h0 := pathTo_snoc _ A2 s1.front l hpath2'
    rw [getD_set_self _ _ _ _ hl] at h0
    exact h0
  have hPf2 : PtrOk (s1.heap.set l ⟨(s1.node nid).link, (s1.node l).coro⟩) s1.front := by
    intro i hi
    rw [List.length_set]
    exact hPf i hi
  have hreach2 : chain (s1.heap.set l ⟨(s1.node nid).link, (s1.node l).coro⟩) s1.front =
      (A2 ++ [l]) ++ chain s1.heap ((s1.node nid).link) := by
    obtain ⟨hd, -⟩ := path_chain _ hInc2 (A2 ++ [l]) s1.front ((s1.node nid).link)
      hPf2 hpathNew
    rw [hd, hchain2]
  have hchainNid : chain s1.heap (some nid) =
      nid :: chain s1.heap ((s1.node nid).link) :=
    chain_cons s1.heap hInc nid hnid
  have hszlen : s1.size =
      (A2 ++ [l]).length + 1 + (chain s1.heap ((s1.node nid).link)).length := by
    rw [hSz]
    show (chain s1.heap s1.front).length = _
    rw [hdecomp, hchainNid, List.length_append, List.length_cons]
    omega
  have hbacklast : s1.back =
      ((A2 ++ [l]) ++ nid :: chain s1.heap ((s1.node nid).link)).getLast? := by
    rw [hBk]
    show (chain s1.heap s1.front).getLast? = _
    rw [hdecomp, hchainNid]
  have hcoro2 : ∀ i, i < s1.heap.length →
      ((s1.heap.set l ⟨(s1.node nid).link, (s1.node l).coro⟩).getD i ⟨none, 0⟩).coro =
        (s1.node i).coro := by
    intro i hi
    by_cases hil : i = l
    · subst hil
      rw [getD_set_self _ _ _ _ hi]
    · rw [getD_set_ne _ _ _ _ _ hil]
      rfl
  have hnidlink : ((s1.heap.set l ⟨(s1.node nid).link, (s1.node l).coro⟩).getD nid
      ⟨none, 0⟩).link = (s1.node nid).link := by
    rw [getD_set_ne _ _ _ _ _ (by omega)]
    rfl
  split at hs2
  case isTrue hb =>
    have hbnid : s1.back = some nid := hb
    have hcnil : chain s1.heap ((s1.node nid).link) = [] := by
      refine chain_cons_getLast_self s1.heap hInc nid hnid ?_
      have h0 : ((A2 ++ [l]) ++ nid :: chain s1.heap ((s1.node nid).link)).getLast? =
          some nid := by
        rw [← hbacklast]
        exact hbnid
      rw [List.getLast?_append_of_ne_nil (A2 ++ [l]) (List.cons_ne_nil _ _)] at h0
      exact h0
    subst hs2
    refine ⟨?_, rfl, hpathNew, hchain2, hnidlink, List.length_set _ _ _, hcoro2⟩
    rw [wfB_iff]
    refine ⟨⟨hInc2, hPf2, ?_⟩, ?_, ?_⟩
    · intro i hi
      cases hi
      rw [List.length_set]
      exact hl
    · show s1.size - 1 = (chain _ s1.front).length
      rw [hreach2, hszlen, hcnil]
      simp
    · show some l = (chain _ s1.front).getLast?
      rw [hreach2, hcnil, List.append_nil, List.getLast?_concat]
  case isFalse hb =>
    have hbnid : ¬ s1.back = some nid := hb
    have hcne : chain s1.heap ((s1.node nid).link) ≠ [] := by
      intro he
      refine hbnid ?_
      rw [hbacklast, he, List.getLast?_concat]
    subst hs2
    refine ⟨?_, rfl, hpathNew, hchain2, hnidlink, List.length_set _ _ _, hcoro2⟩
    rw [wfB_iff]
    refine ⟨⟨hInc2, hPf2, ?_⟩, ?_, ?_⟩
    · intro i hi
      rw [List.length_set]
      exact hPb i hi
    · show s1.size - 1 = (chain _ s1.front).length
      rw [hreach2, hszlen]
      simp only [List.length_append, List.length_cons, List.length_singleton]
      omega
    · show s1.back = (chain _ s1.front).getLast?
      have h3 : (nid :: chain s1.heap ((s1.node nid).link)).getLast? =
          (chain s1.heap ((s1.node nid).link)).getLast? :=
        List.getLast?_append_of_ne_nil [nid] hcne
      rw [hreach2, List.getLast?_append_of_ne_nil _ hcne, hbacklast,
        List.getLast?_append_of_ne_nil _ (List.cons_ne_nil _ _), h3]

/-- Unlinking the just-visited node `nid` when it is the first live node
(`front` advances past it, `back` pulled to null when it was also last):
well-formedness survives, the arena is untouched, and `front` is now
`nid`'s link. -/
theorem unlink_none (s1 : Schedule) (nid : Nat) (s2 : Schedule)
    (hwf : wfB s1 = true)
    (hfr : s1.front = some nid)
    (hs2 : s2 =
      (if (⟨s1.heap, (s1.node nid).link, s1.back, s1.size - 1⟩ : Schedule).back = some nid
        then ⟨s1.heap, (s1.node nid).link, (s1.node nid).link, s1.size - 1⟩
        else ⟨s1.heap, (s1.node nid).link, s1.back, s1.size - 1⟩)) :
    wfB s2 = true ∧ s2.heap = s1.heap ∧ s2.front = (s1.node nid).link := by
  obtain ⟨⟨hInc, hPf, hPb⟩, hSz, hBk⟩ := (wfB_iff s1).mp hwf
  have hnid : nid < s1.heap.length := hPf nid hfr
  have hPlink : PtrOk s1.heap (s1.node nid).link := fun j hj => (hInc nid hnid j hj).2
  have hreach1 : chain s1.heap s1.front =
      nid :: chain s1.heap ((s1.node nid).link) := by
    rw [hfr]
    exact chain_cons s1.heap hInc nid hnid
  have hszlen : s1.size = 1 + (chain s1.heap ((s1.node nid).link)).length := by
    rw [hSz]
    show (chain s1.heap s1.front).length = _
    rw [hreach1, List.length_cons]
    omega
  have hbacklast : s1.back =
      (nid :: chain s1.heap ((s1.node nid).link)).getLast? := by
    rw [hBk]
    show (chain s1.heap s1.front).getLast? = _
    rw [hreach1]
  split at hs2
  case isTrue hb =>
    have hbnid : s1.back = some nid := hb
    have hcnil : chain s1.heap ((s1.node nid).link) = [] := by
      refine chain_cons_getLast_self s1.heap hInc nid hnid ?_
      show (nid :: chain s1.heap ((s1.node nid).link)).getLast? = some nid
      rw [← hbacklast]
      exact hbnid
    have hlknone : (s1.node nid).link = none :=
      chain_eq_nil_link_none s1.heap hInc _ hPlink hcnil
    subst hs2
    refine ⟨?_, rfl, rfl⟩
    rw [wfB_iff]
    refine ⟨⟨hInc, ?_, ?_⟩, ?_, ?_⟩
    · intro i hi
      rw [hlknone] at hi
      cases hi
    · intro i hi
      rw [hlknone] at hi
      cases hi
    · show s1.size - 1 = (chain s1.heap ((s1.node nid).link)).length
      rw [hszlen, hcnil]
      simp
    · show (s1.node nid).link = (chain s1.heap ((s1.node nid).link)).getLast?
      rw [hcnil, hlknone]
      rfl
  case isFalse hb =>
    have hcne : chain s1.heap ((s1.node nid).link) ≠ [] := by
      intro he
      refine hb ?_
      show s1.back = some nid
      rw [hbacklast, he]
      rfl
    subst hs2
    refine ⟨?_, rfl, rfl⟩
    rw [wfB_iff]
    refine ⟨⟨hInc, hPlink, hPb⟩, ?_, ?_⟩
    · show s1.size - 1 = (chain s1.heap ((s1.node nid).link)).length
      rw [hszlen]
      omega
    · show s1.back = (chain s1.heap ((s1.node nid).link)).getLast?
      have h3 : (nid :: chain s1.heap ((s1.node nid).link)).getLast? =
          (chain s1.heap ((s1.node nid).link)).getLast? :=
        List.getLast?_append_of_ne_nil [nid] hcne
      rw [hbacklast, h3]

/-- One non-throwing iteration of the `tick` loop: the loop recurses on a
state in which the invariants survive, the retained prefix grows by the
visited node exactly when it yielded, the chain past the visited node is
unchanged except for the freshly added nodes at its end, and no stored
handle changes. -/
theorem tickLoop_step (env : CoroEnv) (fuel : Nat) (lr : Option Nat) (nid : Nat)
    (s : Schedule) (rt : RtState) (tr : List Nat) (A : List Nat)
    (hwf : wfB s = true)
    (hpath : pathTo s.heap s.front A (some nid))
    (hlr0 : lr = none → A = [])
    (hlr1 : ∀ l, lr = some l → A.getLast? = some l)
    (hnthr : tickDecide env rt ((s.node nid).coro) ≠ .thr) :
    ∃ (lr' : Option Nat) (A' : List Nat) (node' : Option Nat) (s' : Schedule),
      tickLoop env (fuel + 1) lr (some nid) s rt tr =
        tickLoop env fuel lr' node' s'
          (resumeCo env rt ((s.node nid).coro)).2.2 (tr ++ [(s.node nid).coro]) ∧
      wfB s' = true ∧
      pathTo s'.heap s'.front A' node' ∧
      (lr' = none → A' = []) ∧
      (∀ l, lr' = some l → A'.getLast? = some l) ∧
      A' = A ++ (if tickDecide env rt ((s.node nid).coro) = .done then [] else [nid]) ∧
      (∀ i, i < s.heap.length → (s'.node i).coro = (s.node i).coro) ∧
      ∃ newIds,
        chain s'.heap node' = chain s.heap ((s.node nid).link) ++ newIds ∧
        corosOf s' newIds =
          (if rt.finished ((s.node nid).coro) then []
           else env.adds ((s.node nid).coro) (rt.count ((s.node nid).coro))) := by
  obtain ⟨⟨hInc, hPf, hPb⟩, hSz, hBk⟩ := (wfB_iff s).mp hwf
  obtain ⟨hdecomp, hPn⟩ := path_chain s.heap hInc A s.front (some nid) hPf hpath
  have hnid : nid < s.heap.length := hPn nid rfl
  have hchainNid : chain s.heap (some nid) = nid :: chain s.heap ((s.node nid).link) :=
    chain_cons s.heap hInc nid hnid
  have hszne : s.size ≠ 0 := by
    rw [hSz]
    show (chain s.heap s.front).length ≠ 0
    rw [hdecomp, hchainNid]
    simp
  obtain ⟨s1, heqA, hwf1, hlen1, hcoro1, hlive1, hclause1⟩ :=
    applyAdds_spec (resumeCo env rt ((s.node nid).coro)).2.1 s hwf
  obtain ⟨hfront1, hpc1⟩ := hclause1 hszne
  obtain ⟨hpath1, newIds, hchainext, hnewcoro⟩ :=
    hpc1 A (some nid) hpath (by rw [hchainNid]; exact List.cons_ne_nil _ _)
  obtain ⟨⟨hInc1, hPf1, hPb1⟩, hSz1, hBk1⟩ := (wfB_iff s1).mp hwf1
  have hnid1 : nid < s1.heap.length := by omega
  have hchainNid1 : chain s1.heap (some nid) =
      nid :: chain s1.heap ((s1.node nid).link) := chain_cons s1.heap hInc1 nid hnid1
  have hlink1 : chain s1.heap ((s1.node nid).link) =
      chain s.heap ((s.node nid).link) ++ newIds := by
    have h0 := hchainext
    rw [hchainNid1, hchainNid, List.cons_append] at h0
    exact (List.cons.inj h0).2
  have hnewIdsBound : ∀ i ∈ newIds, i < s1.heap.length := by
    intro i hi
    have hmem : i ∈ chain s1.heap ((s1.node nid).link) := by
      rw [hlink1]
      exact List.mem_append.mpr (Or.inr hi)
    have hPl1 : PtrOk s1.heap (s1.node nid).link := fun j hj => (hInc1 nid hnid1 j hj).2
    exact (chain_bounds s1.heap hInc1 s1.heap.length _ hPl1 i hmem).1
  have hadds : (resumeCo env rt ((s.node nid).coro)).2.1 =
      (if rt.finished ((s.node nid).coro) then []
       else env.adds ((s.node nid).coro) (rt.count ((s.node nid).coro))) :=
    resumeCo_adds env rt _
  rcases hout : tickDecide env rt ((s.node nid).coro) with _ | _ | _
  · -- the node yielded: it is retained and becomes lastRetained
    have hr1 : (resumeCo env rt ((s.node nid).coro)).1 = .yld := by
      rw [resumeCo_out]
      exact hout
    refine ⟨some nid, A ++ [nid], (s1.node nid).link, s1, ?_, hwf1, ?_, ?_, ?_, ?_,
      hcoro1, newIds, hlink1, by rw [hnewcoro, hadds]⟩
    · simp only [tickLoop_succ, heqA, hr1]
    · have h0 := pathTo_snoc s1.heap A s.front nid hpath1
      rw [hfront1]
      exact h0
    · intro h
      cases h
    · intro l hl
      cases hl
      exact List.getLast?_concat _
    · rw [if_neg (by intro h; cases h)]
  · -- the node completed: it is unlinked
    have hr1 : (resumeCo env rt ((s.node nid).coro)).1 = .done := by
      rw [resumeCo_out]
      exact hout
    rcases hlr : lr with _ | l
    · -- no retained node yet: front advances
      have hA : A = [] := hlr0 hlr
      have hfr : s.front = some nid := by
        rw [hA] at hpath1
        exact hpath1
      obtain ⟨s2, hs2⟩ : ∃ s2 : Schedule, s2 =
          (if (⟨s1.heap, (s1.node nid).link, s1.back, s1.size - 1⟩ : Schedule).back
              = some nid
            then ⟨s1.heap, (s1.node nid).link, (s1.node nid).link, s1.size - 1⟩
            else ⟨s1.heap, (s1.node nid).link, s1.back, s1.size - 1⟩) := ⟨_, rfl⟩
      obtain ⟨hwf2, hheap2, hfront2⟩ :=
        unlink_none s1 nid s2 hwf1 (by rw [hfront1]; exact hfr) hs2
      have hnode2 : ∀ i, s2.node i = s1.node i := by
        intro i
        show s2.heap.getD i _ = s1.heap.getD i _
        rw [hheap2]
      have hchain2 : ∀ o, chain s2.heap o = chain s1.heap o := by
        intro o
        rw [hheap2]
      refine ⟨none, [], (s2.node nid).link, s2, ?_, hwf2, ?_, fun _ => rfl,
        ?_, ?_, ?_, newIds, ?_, ?_⟩
      · rw [hs2]
        simp only [tickLoop_succ, heqA, hr1, hlr]
      · show s2.front = (s2.node nid).link
        rw [hfront2, hnode2]
      · intro l hl
        cases hl
      · rw [hA, if_pos rfl, List.append_nil]
      · intro i hi
        rw [hnode2, hcoro1 i hi]
      · rw [hnode2, hchain2, hlink1]
      · rw [corosOf_congr s1 s2 newIds fun i _ => by rw [hnode2], hnewcoro, hadds]
    · -- a retained node precedes: lastRetained.link jumps the node
      have hAL : A.getLast? = some l := hlr1 l hlr
      obtain ⟨A2, hA2⟩ := List.getLast?_eq_some_iff.mp hAL
      have hpath1' : pathTo s1.heap s1.front (A2 ++ [l]) (some nid) := by
        rw [hfront1, ← hA2]
        exact hpath1
      obtain ⟨s2, hs2⟩ : ∃ s2 : Schedule, s2 =
          (if (⟨s1.heap.set l ⟨(s1.node nid).link, (s1.node l).coro⟩, s1.front, s1.back,
                s1.size - 1⟩ : Schedule).back = some nid
            then ⟨s1.heap.set l ⟨(s1.node nid).link, (s1.node l).coro⟩, s1.front, some l,
              s1.size - 1⟩
            else ⟨s1.heap.set l ⟨(s1.node nid).link, (s1.node l).coro⟩, s1.front, s1.back,
              s1.size - 1⟩) := ⟨_, rfl⟩
      obtain ⟨hwf2, hfront2, hpath2, hchain2, hnidlink2, hlen2, hcoro2⟩ :=
        unlink_some s1 A2 l nid s2 hwf1 hpath1' hs2
      refine ⟨some l, A, (s2.node nid).link, s2, ?_, hwf2, ?_, ?_, ?_, ?_, ?_,
        newIds, ?_, ?_⟩
      · rw [hs2]
        simp only [tickLoop_succ, heqA, hr1, hlr]
      · rw [hA2]
        have h0 : pathTo s2.heap s2.front (A2 ++ [l]) ((s1.node nid).link) := by
          rw [hfront2]
          exact hpath2
        rw [hnidlink2]
        exact h0
      · intro h
        cases h
      · intro l' hl'
        cases hl'
        exact hAL
      · rw [if_pos rfl, List.append_nil]
      · intro i hi
        rw [hcoro2 i (by omega), hcoro1 i hi]
      · rw [hnidlink2, hchain2, hlink1]
      · rw [corosOf_congr s1 s2 newIds fun i hi => hcoro2 i (hnewIdsBound i hi),
          hnewcoro, hadds]
  · exact absurd hout hnthr

/-- Master lemma for a normally-returning run of the `tick` loop: with fuel
covering at most the current chain, pairwise-distinct visited handles none
of which throws, the loop returns, resumes exactly the first `fuel` chain
entries in order, keeps the invariants, and leaves behind the retained
prefix, the non-completing visited entries, the unvisited remainder and the
mid-run adds, in that order. -/
theorem tickLoop_ok (env : CoroEnv) :
    ∀ (fuel : Nat) (A : List Nat) (lr node : Option Nat) (s : Schedule) (rt : RtState)
      (tr : List Nat),
      wfB s = true →
      pathTo s.heap s.front A node →
      (lr = none → A = []) →
      (∀ l, lr = some l → A.getLast? = some l) →
      fuel ≤ (chain s.heap node).length →
      (corosOf s ((chain s.heap node).take fuel)).Nodup →
      (∀ c ∈ corosOf s ((chain s.heap node).take fuel), tickDecide env rt c ≠ .thr) →
      ∃ s', tickLoop env fuel lr node s rt tr =
          .ok s' (rtAfter env rt (corosOf s ((chain s.heap node).take fuel)))
            (tr ++ corosOf s ((chain s.heap node).take fuel)) ∧
        wfB s' = true ∧
        liveCoros s' = corosOf s A ++
          (corosOf s ((chain s.heap node).take fuel)).filter
            (fun c => decide (tickDecide env rt c ≠ .done)) ++
          corosOf s ((chain s.heap node).drop fuel) ++
          (corosOf s ((chain s.heap node).take fuel)).flatMap
            (fun c => if rt.finished c then [] else env.adds c (rt.count c)) := by
  intro fuel
  induction fuel with
  | zero =>
      intro A lr node s rt tr hwf hpath hlr0 hlr1 hfuel hnodup hthr
      obtain ⟨⟨hInc, hPf, hPb⟩, -, -⟩ := (wfB_iff s).mp hwf
      obtain ⟨hdecomp, -⟩ := path_chain s.heap hInc A s.front node hPf hpath
      refine ⟨s, ?_, hwf, ?_⟩
      · show TickRes.ok s rt tr = _
        simp [corosOf, rtAfter]
      · show corosOf s (chain s.heap s.front) = _
        rw [hdecomp, corosOf_append]
        simp [corosOf]
  | succ fuel ih =>
      intro A lr node s rt tr hwf hpath hlr0 hlr1 hfuel hnodup hthr
      rcases node with _ | nid
      · rw [show chain s.heap none = [] from reachAux_none _ _] at hfuel
        simp at hfuel
      · obtain ⟨⟨hInc, hPf, hPb⟩, -, -⟩ := (wfB_iff s).mp hwf
        obtain ⟨hdecomp, hPn⟩ := path_chain s.heap hInc A s.front (some nid) hPf hpath
        have hnid : nid < s.heap.length := hPn nid rfl
        have hchainNid : chain s.heap (some nid) =
            nid :: chain s.heap ((s.node nid).link) := chain_cons s.heap hInc nid hnid
        have hPl : PtrOk s.heap (s.node nid).link := fun j hj => (hInc nid hnid j hj).2
        have hlinkBound : ∀ i ∈ chain s.heap ((s.node nid).link), i < s.heap.length :=
          fun i hi => (chain_bounds s.heap hInc s.heap.length _ hPl i hi).1
        have hABound : ∀ i ∈ A, i < s.heap.length := by
          intro i hi
          have : i ∈ chain s.heap s.front := by
            rw [hdecomp]
            exact List.mem_append.mpr (Or.inl hi)
          exact (chain_bounds s.heap hInc s.heap.length _ hPf i this).1
        have hC : corosOf s ((chain s.heap (some nid)).take (fuel + 1)) =
            (s.node nid).coro ::
              corosOf s ((chain s.heap ((s.node nid).link)).take fuel) := by
          rw [hchainNid, List.take_succ_cons]
          rfl
        rw [hC] at hnodup hthr
        have hfuelLink : fuel ≤ (chain s.heap ((s.node nid).link)).length := by
          rw [hchainNid, List.length_cons] at hfuel
          omega
        have hcnotin : (s.node nid).coro ∉
            corosOf s ((chain s.heap ((s.node nid).link)).take fuel) :=
          (List.nodup_cons.mp hnodup).1
        obtain ⟨lr', A', node', s', hstep, hwf', hpath', hlr0', hlr1', hA'eq, hstab,
          newIds, hchainext', hnewcoro'⟩ :=
          tickLoop_step env fuel lr nid s rt tr A hwf hpath hlr0 hlr1
            (hthr _ (List.mem_cons_self _ _))
        have hfuel' : fuel ≤ (chain s'.heap node').length := by
          rw [hchainext', List.length_append]
          omega
        have htake' : (chain s'.heap node').take fuel =
            (chain s.heap ((s.node nid).link)).take fuel := by
          rw [hchainext']
          exact List.take_append_of_le_length hfuelLink
        have hCtail' : corosOf s' ((chain s'.heap node').take fuel) =
            corosOf s ((chain s.heap ((s.node nid).link)).take fuel) := by
          rw [htake']
          exact corosOf_congr s s' _ fun i hi =>
            hstab i (hlinkBound i (List.take_subset _ _ hi))
        obtain ⟨s'', heq'', hwf'', hlive''⟩ :=
          ih A' lr' node' s' ((resumeCo env rt ((s.node nid).coro)).2.2) (tr ++ [(s.node nid).coro])
            hwf' hpath' hlr0' hlr1' hfuel'
            (by rw [hCtail']; exact (List.nodup_cons.mp hnodup).2)
            (by
              rw [hCtail']
              intro x hx
              rw [tickDecide_resume_ne env rt _ x fun he => hcnotin (by rw [← he]; exact hx)]
              exact hthr x (List.mem_cons_of_mem _ hx))
        refine ⟨s'', ?_, hwf'', ?_⟩
        · rw [hstep, heq'', hCtail', hC]
          show TickRes.ok s'' _ _ = TickRes.ok s'' _ _
          rw [show rtAfter env rt ((s.node nid).coro ::
              corosOf s ((chain s.heap ((s.node nid).link)).take fuel)) =
              rtAfter env ((resumeCo env rt ((s.node nid).coro)).2.2)
                (corosOf s ((chain s.heap ((s.node nid).link)).take fuel)) from rfl]
          rw [List.append_assoc]
          rfl
        · rw [hlive'', hC]
          -- translate every block back to the pre-iteration state
          have hAblock : corosOf s' A' = corosOf s A ++
              (if tickDecide env rt ((s.node nid).coro) = .done then []
               else [(s.node nid).coro]) := by
            rw [hA'eq, corosOf_append, corosOf_congr s s' A fun i hi => hstab i (hABound i hi)]
            congr 1
            by_cases hd : tickDecide env rt ((s.node nid).coro) = .done
            · rw [if_pos hd, if_pos hd]
              rfl
            · rw [if_neg hd, if_neg hd]
              show [(s'.node nid).coro] = _
              rw [hstab nid hnid]
          have hFblock : (corosOf s' ((chain s'.heap node').take fuel)).filter
                (fun x => decide (tickDecide env
                  ((resumeCo env rt ((s.node nid).coro)).2.2) x ≠ .done)) =
              (corosOf s ((chain s.heap ((s.node nid).link)).take fuel)).filter
                (fun x => decide (tickDecide env rt x ≠ .done)) := by
            rw [hCtail']
            refine List.filter_congr fun x hx => ?_
            rw [tickDecide_resume_ne env rt _ x fun he => hcnotin (by rw [← he]; exact hx)]
          have hDblock : corosOf s' ((chain s'.heap node').drop fuel) =
              corosOf s ((chain s.heap (some nid)).drop (fuel + 1)) ++
                (if rt.finished ((s.node nid).coro) then []
                 else env.adds ((s.node nid).coro) (rt.count ((s.node nid).coro))) := by
            rw [hchainext', List.drop_append_of_le_length hfuelLink, corosOf_append,
              hnewcoro', hchainNid, List.drop_succ_cons,
              corosOf_congr s s' _ fun i hi =>
                hstab i (hlinkBound i (List.drop_subset _ _ hi))]
          have hMblock : (corosOf s' ((chain s'.heap node').take fuel)).flatMap
                (fun x => if ((resumeCo env rt ((s.node nid).coro)).2.2).finished x then []
                 else env.adds x (((resumeCo env rt ((s.node nid).coro)).2.2).count x)) =
              (corosOf s ((chain s.heap ((s.node nid).link)).take fuel)).flatMap
                (fun x => if rt.finished x then [] else env.adds x (rt.count x)) := by
            rw [hCtail']
            refine flatMap_congr_mem _ _ _ fun x hx => ?_
            have hne : x ≠ (s.node nid).coro := fun he => hcnotin (he ▸ hx)
            rw [resumeCo_finished_ne env rt _ x hne, resumeCo_count_ne env rt _ x hne]
          rw [hAblock, hFblock, hDblock, hMblock]
          rw [List.filter_cons, List.flatMap_cons]
          by_cases hd : tickDecide env rt ((s.node nid).coro) = .done
          · simp [hd, List.append_assoc]
          · simp [hd, List.append_assoc]

/-- Master lemma for a throwing run of the `tick` loop: when the visited
handles split as a non-throwing prefix `C1`, a thrower `w` and a rest, the
loop throws right after resuming `w`, having resumed exactly `C1 ++ [w]` in
order; the invariants survive, and the schedule keeps the retained prefix,
the non-completing entries of `C1`, everything from `w`'s node on (so `w`
and every unvisited entry stay scheduled) and the mid-run adds so far. -/
theorem tickLoop_thrown (env : CoroEnv) :
    ∀ (fuel : Nat) (A C1 : List Nat) (w : Nat) (C2 : List Nat) (lr node : Option Nat)
      (s : Schedule) (rt : RtState) (tr : List Nat),
      wfB s = true →
      pathTo s.heap s.front A node →
      (lr = none → A = []) →
      (∀ l, lr = some l → A.getLast? = some l) →
      fuel ≤ (chain s.heap node).length →
      (corosOf s ((chain s.heap node).take fuel)).Nodup →
      corosOf s ((chain s.heap node).take fuel) = C1 ++ w :: C2 →
      (∀ c ∈ C1, tickDecide env rt c ≠ .thr) →
      tickDecide env rt w = .thr →
      ∃ s', tickLoop env fuel lr node s rt tr =
          .thrown s' (rtAfter env rt (C1 ++ [w])) (tr ++ C1 ++ [w]) ∧
        wfB s' = true ∧
        liveCoros s' = corosOf s A ++
          C1.filter (fun c => decide (tickDecide env rt c ≠ .done)) ++
          corosOf s ((chain s.heap node).drop C1.length) ++
          (C1 ++ [w]).flatMap
            (fun c => if rt.finished c then [] else env.adds c (rt.count c)) := by
  intro fuel
  induction fuel with
  | zero =>
      intro A C1 w C2 lr node s rt tr hwf hpath hlr0 hlr1 hfuel hnodup hsplit hC1 hw
      rw [List.take_zero] at hsplit
      simp [corosOf] at hsplit
  | succ fuel ih =>
      intro A C1 w C2 lr node s rt tr hwf hpath hlr0 hlr1 hfuel hnodup hsplit hC1 hw
      rcases node with _ | nid
      · rw [show chain s.heap none = [] from reachAux_none _ _] at hfuel
        simp at hfuel
      · obtain ⟨⟨hInc, hPf, hPb⟩, hSz, hBk⟩ := (wfB_iff s).mp hwf
        obtain ⟨hdecomp, hPn⟩ := path_chain s.heap hInc A s.front (some nid) hPf hpath
        have hnid : nid < s.heap.length := hPn nid rfl
        have hchainNid : chain s.heap (some nid) =
            nid :: chain s.heap ((s.node nid).link) := chain_cons s.heap hInc nid hnid
        have hPl : PtrOk s.heap (s.node nid).link := fun j hj => (hInc nid hnid j hj).2
        have hlinkBound : ∀ i ∈ chain s.heap ((s.node nid).link), i < s.heap.length :=
          fun i hi => (chain_bounds s.heap hInc s.heap.length _ hPl i hi).1
        have hABound : ∀ i ∈ A, i < s.heap.length := by
          intro i hi
          have : i ∈ chain s.heap s.front := by
            rw [hdecomp]
            exact List.mem_append.mpr (Or.inl hi)
          exact (chain_bounds s.heap hInc s.heap.length _ hPf i this).1
        have hC : corosOf s ((chain s.heap (some nid)).take (fuel + 1)) =
            (s.node nid).coro ::
              corosOf s ((chain s.heap ((s.node nid).link)).take fuel) := by
          rw [hchainNid, List.take_succ_cons]
          rfl
        rw [hC] at hnodup hsplit
        have hfuelLink : fuel ≤ (chain s.heap ((s.node nid).link)).length := by
          rw [hchainNid, List.length_cons] at hfuel
          omega
        have hcnotin : (s.node nid).coro ∉
            corosOf s ((chain s.heap ((s.node nid).link)).take fuel) :=
          (List.nodup_cons.mp hnodup).1
        have hadds : (resumeCo env rt ((s.node nid).coro)).2.1 =
            (if rt.finished ((s.node nid).coro) then []
             else env.adds ((s.node nid).coro) (rt.count ((s.node nid).coro))) :=
          resumeCo_adds env rt _
        rcases C1 with _ | ⟨c1, C1'⟩
        · -- the very first visited handle throws: one iteration and out
          rw [List.nil_append] at hsplit
          obtain ⟨hcw, hC2eq⟩ := List.cons.inj hsplit
          obtain ⟨s1, heqA, hwf1, hlen1, hcoro1, hlive1, hclause1⟩ :=
            applyAdds_spec (resumeCo env rt ((s.node nid).coro)).2.1 s hwf
          have hr1 : (resumeCo env rt ((s.node nid).coro)).1 = .thr := by
            rw [resumeCo_out, hcw]
            exact hw
          refine ⟨s1, ?_, hwf1, ?_⟩
          · rw [show tickLoop env (fuel + 1) lr (some nid) s rt tr =
                TickRes.thrown s1 (resumeCo env rt ((s.node nid).coro)).2.2
                  (tr ++ [(s.node nid).coro]) from by
                simp only [tickLoop_succ, heqA, hr1]]
            rw [← hcw]
            show _ = TickRes.thrown s1
              (rtAfter env rt ([] ++ [(s.node nid).coro])) (tr ++ [] ++ [(s.node nid).coro])
            rw [show rtAfter env rt ([] ++ [(s.node nid).coro]) =
              (resumeCo env rt ((s.node nid).coro)).2.2 from rfl]
            rw [List.append_nil]
          · rw [hlive1]
            have hlive0 : liveCoros s =
                corosOf s A ++ corosOf s (chain s.heap (some nid)) := by
              show corosOf s (chain s.heap s.front) = _
              rw [hdecomp, corosOf_append]
            rw [hlive0, hadds, ← hcw]
            simp [List.append_assoc]
        · -- the thrower comes later: run one iteration and recurse
          rw [List.cons_append] at hsplit
          obtain ⟨hc1, htail⟩ := List.cons.inj hsplit
          subst hc1
          have hnthr0 : tickDecide env rt ((s.node nid).coro) ≠ .thr :=
            hC1 _ (List.mem_cons_self _ _)
          obtain ⟨lr', A', node', s', hstep, hwf', hpath', hlr0', hlr1', hA'eq, hstab,
            newIds, hchainext', hnewcoro'⟩ :=
            tickLoop_step env fuel lr nid s rt tr A hwf hpath hlr0 hlr1 hnthr0
          have hfuel' : fuel ≤ (chain s'.heap node').length := by
            rw [hchainext', List.length_append]
            omega
          have htake' : (chain s'.heap node').take fuel =
              (chain s.heap ((s.node nid).link)).take fuel := by
            rw [hchainext']
            exact List.take_append_of_le_length hfuelLink
          have hCtail' : corosOf s' ((chain s'.heap node').take fuel) =
              corosOf s ((chain s.heap ((s.node nid).link)).take fuel) := by
            rw [htake']
            exact corosOf_congr s s' _ fun i hi =>
              hstab i (hlinkBound i (List.take_subset _ _ hi))
          have hwmem : w ∈ corosOf s ((chain s.heap ((s.node nid).link)).take fuel) := by
            rw [htail]
            exact List.mem_append.mpr (Or.inr (List.mem_cons_self _ _))
          have hwne : w ≠ (s.node nid).coro := fun he => hcnotin (by rw [← he]; exact hwmem)
          have hC1mem : ∀ x ∈ C1', x ∈
              corosOf s ((chain s.heap ((s.node nid).link)).take fuel) := by
            intro x hx
            rw [htail]
            exact List.mem_append.mpr (Or.inl hx)
          obtain ⟨s'', heq'', hwf'', hlive''⟩ :=
            ih A' C1' w C2 lr' node' s' ((resumeCo env rt ((s.node nid).coro)).2.2)
              (tr ++ [(s.node nid).coro]) hwf' hpath' hlr0' hlr1' hfuel'
              (by rw [hCtail']; exact (List.nodup_cons.mp hnodup).2)
              (by rw [hCtail']; exact htail)
              (by
                intro x hx
                have hxne : x ≠ (s.node nid).coro :=
                  fun he => hcnotin (by rw [← he]; exact hC1mem x hx)
                rw [tickDecide_resume_ne env rt _ x hxne]
                exact hC1 x (List.mem_cons_of_mem _ hx))
              (by
                rw [tickDecide_resume_ne env rt _ w hwne]
                exact hw)
          have hlenC1' : C1'.length ≤ (chain s.heap ((s.node nid).link)).length := by
            have h0 : (C1' ++ w :: C2).length =
                (corosOf s ((chain s.heap ((s.node nid).link)).take fuel)).length := by
              rw [htail]
            have h1 : (corosOf s ((chain s.heap ((s.node nid).link)).take fuel)).length ≤
                (chain s.heap ((s.node nid).link)).length := by
              show ((List.take fuel _).map _).length ≤ _
              rw [List.length_map, List.length_take]
              omega
            rw [List.length_append, List.length_cons] at h0
            omega
          refine ⟨s'', ?_, hwf'', ?_⟩
          · rw [hstep, heq'']
            show TickRes.thrown s'' _ _ = TickRes.thrown s'' _ _
            rw [show rtAfter env rt (((s.node nid).coro :: C1') ++ [w]) =
                rtAfter env ((resumeCo env rt ((s.node nid).coro)).2.2) (C1' ++ [w])
                from rfl]
            simp [List.append_assoc]
          · rw [hlive'']
            have hAblock : corosOf s' A' = corosOf s A ++
                (if tickDecide env rt ((s.node nid).coro) = .done then []
                 else [(s.node nid).coro]) := by
              rw [hA'eq, corosOf_append,
                corosOf_congr s s' A fun i hi => hstab i (hABound i hi)]
              congr 1
              by_cases hd : tickDecide env rt ((s.node nid).coro) = .done
              · rw [if_pos hd, if_pos hd]
                rfl
              · rw [if_neg hd, if_neg hd]
                show [(s'.node nid).coro] = _
                rw [hstab nid hnid]
            have hFblock : C1'.filter
                  (fun x => decide (tickDecide env
                    ((resumeCo env rt ((s.node nid).coro)).2.2) x ≠ .done)) =
                C1'.filter (fun x => decide (tickDecide env rt x ≠ .done)) := by
              refine List.filter_congr fun x hx => ?_
              rw [tickDecide_resume_ne env rt _ x
                fun he => hcnotin (by rw [← he]; exact hC1mem x hx)]
            have hDblock : corosOf s' ((chain s'.heap node').drop C1'.length) =
                corosOf s ((chain s.heap (some nid)).drop (C1'.length + 1)) ++
                  (if rt.finished ((s.node nid).coro) then []
                   else env.adds ((s.node nid).coro) (rt.count ((s.node nid).coro))) := by
              rw [hchainext', List.drop_append_of_le_length hlenC1', corosOf_append,
                hnewcoro', hchainNid, List.drop_succ_cons,
                corosOf_congr s s' _ fun i hi =>
                  hstab i (hlinkBound i (List.drop_subset _ _ hi))]
            have hMblock : (C1' ++ [w]).flatMap
                  (fun x => if ((resumeCo env rt ((s.node nid).coro)).2.2).finished x
                    then []
                   else env.adds x (((resumeCo env rt ((s.node nid).coro)).2.2).count x)) =
                (C1' ++ [w]).flatMap
                  (fun x => if rt.finished x then [] else env.adds x (rt.count x)) := by
              refine flatMap_congr_mem _ _ _ fun x hx => ?_
              have hxne : x ≠ (s.node nid).coro := by
                rcases List.mem_append.mp hx with hx' | hx'
                · exact fun he => hcnotin (by rw [← he]; exact hC1mem x hx')
                · rcases List.mem_singleton.mp hx' with rfl
                  exact hwne
              rw [resumeCo_finished_ne env rt _ x hxne, resumeCo_count_ne env rt _ x hxne]
            rw [hAblock, hFblock, hDblock, hMblock]
            rw [List.filter_cons, List.cons_append, List.flatMap_cons, List.length_cons]
            by_cases hd : tickDecide env rt ((s.node nid).coro) = .done
            · simp [hd, List.append_assoc]
            · simp [hd, List.append_assoc]

/-- `Schedule.tick()` on a well-formed schedule whose live handles are
distinct and none of which would throw: it returns normally, resumes
exactly the live handles in order, keeps the invariants, and afterwards the
live handles are the non-completing survivors followed by the mid-tick
adds. -/
theorem tick_ok_master (env : CoroEnv) (s : Schedule) (rt : RtState)
    (hwf : wfB s = true)
    (hnodup : (liveCoros s).Nodup)
    (hthr : ∀ c ∈ liveCoros s, tickDecide env rt c ≠ .thr) :
    ∃ s', s.tick env rt = .ok s' (rtAfter env rt (liveCoros s)) (liveCoros s) ∧
      wfB s' = true ∧
      liveCoros s' =
        (liveCoros s).filter (fun c => decide (tickDecide env rt c ≠ .done)) ++
          addsPreview env s rt := by
  obtain ⟨-, hSz, -⟩ := (wfB_iff s).mp hwf
  have htk : (chain s.heap s.front).take s.size = chain s.heap s.front := by
    rw [show s.size = (chain s.heap s.front).length from hSz]
    exact List.take_length _
  have hdp : (chain s.heap s.front).drop s.size = [] := by
    rw [show s.size = (chain s.heap s.front).length from hSz]
    exact List.drop_length _
  obtain ⟨s', heq, hwf', hlive'⟩ :=
    tickLoop_ok env s.size [] none s.front s rt [] hwf rfl (fun _ => rfl)
      (fun l hl => by cases hl) (le_of_eq hSz)
      (by rw [htk]; exact hnodup)
      (by rw [htk]; exact hthr)
  rw [htk] at heq
  rw [htk, hdp] at hlive'
  refine ⟨s', ?_, hwf', ?_⟩
  · show tickLoop env s.size none s.front s rt [] = _
    rw [heq]
    rfl
  · rw [hlive']
    show corosOf s [] ++ _ ++ corosOf s [] ++ _ = _
    rw [show corosOf s [] = [] from rfl]
    simp only [List.nil_append, List.append_nil]
    rfl

/-- `Schedule.tick()` on a well-formed schedule whose live handles are
distinct, split as a non-throwing prefix `L1`, a thrower `w` and a rest
`L2`: the tick throws right after resuming `w`, having resumed exactly
`L1 ++ [w]` in registration order; the invariants survive, and the
schedule keeps `L1`'s non-completing entries, then `w` and every
not-yet-visited entry, then the mid-tick adds so far. -/
theorem tick_thrown_master (env : CoroEnv) (s : Schedule) (rt : RtState)
    (L1 : List Nat) (w : Nat) (L2 : List Nat)
    (hwf : wfB s = true)
    (hnodup : (liveCoros s).Nodup)
    (hsplit : liveCoros s = L1 ++ w :: L2)
    (hL1 : ∀ c ∈ L1, tickDecide env rt c ≠ .thr)
    (hw : tickDecide env rt w = .thr) :
    ∃ s', s.tick env rt = .thrown s' (rtAfter env rt (L1 ++ [w])) (L1 ++ [w]) ∧
      wfB s' = true ∧
      liveCoros s' =
        L1.filter (fun c => decide (tickDecide env rt c ≠ .done)) ++
          (w :: L2) ++
          (L1 ++ [w]).flatMap
            (fun c => if rt.finished c then [] else env.adds c (rt.count c)) := by
  obtain ⟨-, hSz, -⟩ := (wfB_iff s).mp hwf
  have htk : (chain s.heap s.front).take s.size = chain s.heap s.front := by
    rw [show s.size = (chain s.heap s.front).length from hSz]
    exact List.take_length _
  obtain ⟨s', heq, hwf', hlive'⟩ :=
    tickLoop_thrown env s.size [] L1 w L2 none s.front s rt [] hwf rfl (fun _ => rfl)
      (fun l hl => by cases hl) (le_of_eq hSz)
      (by rw [htk]; exact hnodup)
      (by rw [htk]; exact hsplit)
      hL1 hw
  refine ⟨s', ?_, hwf', ?_⟩
  · show tickLoop env s.size none s.front s rt [] = _
    rw [heq]
    rfl
  · rw [hlive']
    have hdrop : corosOf s ((chain s.heap s.front).drop L1.length) = w :: L2 := by
      have h0 : corosOf s ((chain s.heap s.front).drop L1.length) =
          (corosOf s (chain s.heap s.front)).drop L1.length := by
        show (List.map _ _) = _
        rw [List.map_drop]
        rfl
      rw [h0, show corosOf s (chain s.heap s.front) = liveCoros s from rfl, hsplit,
        List.drop_left]
    rw [hdrop]
    show corosOf s [] ++ _ ++ _ ++ _ = _
    rw [show corosOf s [] = [] from rfl]
    simp only [List.nil_append]

/-- C1: on a well-formed schedule whose live handles and pending mid-tick
adds are all distinct and none of whose resumes throws, a single `tick()`
returns normally and calls `next()` exactly on the handles that were live at
the start of the call — once each, in registration order; every handle
added during the tick is not resumed during it (it never appears in the
trace) but is scheduled afterwards, after the surviving original entries. -/
theorem tick_resumes_live_entries_once_in_order (env : CoroEnv) (s : Schedule)
    (rt : RtState)
    (hwf : wfB s = true)
    (hnodup : (liveCoros s ++ addsPreview env s rt).Nodup)
    (hthr : ∀ c ∈ liveCoros s, tickDecide env rt c ≠ .thr) :
    (s.tick env rt).isOk = true ∧
    (s.tick env rt).trace = liveCoros s ∧
    (s.tick env rt).trace.Nodup ∧
    wfB (s.tick env rt).sched = true ∧
    liveCoros (s.tick env rt).sched =
      (liveCoros s).filter (fun c => decide (tickDecide env rt c ≠ .done)) ++
        addsPreview env s rt ∧
    ∀ a ∈ addsPreview env s rt, a ∉ (s.tick env rt).trace ∧
      a ∈ liveCoros (s.tick env rt).sched := by
  obtain ⟨hnd1, -, hdisj⟩ := List.nodup_append.mp hnodup
  obtain ⟨s', heq, hwf', hlive'⟩ := tick_ok_master env s rt hwf hnd1 hthr
  rw [heq]
  simp only [TickRes.isOk, TickRes.trace, TickRes.sched]
  refine ⟨by trivial, by trivial, hnd1, hwf', hlive', ?_⟩
  intro a ha
  constructor
  · intro hmem
    exact hdisj hmem ha
  · rw [hlive']
    exact List.mem_append.mpr (Or.inr ha)

/-- C1 witness: schedule holding 10 and 20, where 20 completes on its first
resume and 10's first body run adds 30 mid-tick: the tick resumes exactly
[10, 20] and afterwards 10 and the freshly added 30 are scheduled. -/
theorem tick_resumes_live_entries_once_in_order_witness :
    (schedAB.tick envTick RtState.init).isOk = true ∧
    (schedAB.tick envTick RtState.init).trace = [10, 20] ∧
    liveCoros (schedAB.tick envTick RtState.init).sched = [10, 30] ∧
    wfB (schedAB.tick envTick RtState.init).sched = true := by
  have h := tick_resumes_live_entries_once_in_order envTick schedAB RtState.init
    (by decide) (by decide) (by decide)
  refine ⟨h.1, ?_, ?_, h.2.2.2.1⟩
  · rw [h.2.1]
    decide
  · rw [h.2.2.2.2.1]
    decide

/-- C9: when resuming entry `w` throws during `tick()` (its predecessors not
throwing, no mid-tick adds, and no other coroutine ever throwing), `w` is
not unlinked: the tick propagates the error having resumed only up to `w`,
the schedule stays well-formed with `w` still reachable (so counted in
`size`), the generator is left finished so its next resume reports done
without running the body, and on the next `tick()` `w` is resumed again and
then removed. -/
theorem throwing_entry_retained_then_removed (env : CoroEnv) (s : Schedule)
    (rt : RtState) (L1 : List Nat) (w : Nat) (L2 : List Nat)
    (hwf : wfB s = true)
    (hnodup : (liveCoros s).Nodup)
    (hsplit : liveCoros s = L1 ++ w :: L2)
    (hL1 : ∀ c ∈ L1, tickDecide env rt c ≠ .thr)
    (hw : tickDecide env rt w = .thr)
    (hnoadds : ∀ c k, env.adds c k = [])
    (hothers : ∀ c k, c ≠ w → env.out c k ≠ .thr) :
    (s.tick env rt).isOk = false ∧
    (s.tick env rt).trace = L1 ++ [w] ∧
    wfB (s.tick env rt).sched = true ∧
    w ∈ liveCoros (s.tick env rt).sched ∧
    ((s.tick env rt).rts).finished w = true ∧
    tickDecide env ((s.tick env rt).rts) w = .done ∧
    (((s.tick env rt).sched).tick env ((s.tick env rt).rts)).isOk = true ∧
    w ∈ (((s.tick env rt).sched).tick env ((s.tick env rt).rts)).trace ∧
    w ∉ liveCoros ((((s.tick env rt).sched).tick env ((s.tick env rt).rts)).sched) ∧
    wfB ((((s.tick env rt).sched).tick env ((s.tick env rt).rts)).sched) = true := by
  obtain ⟨s', heq, hwf', hlive'⟩ :=
    tick_thrown_master env s rt L1 w L2 hwf hnodup hsplit hL1 hw
  have hfm : ∀ (l : List Nat) (rt0 : RtState),
      (l.flatMap fun c => if rt0.finished c then [] else env.adds c (rt0.count c)) = [] := by
    intro l rt0
    rw [flatMap_congr_mem l _ (fun _ => []) fun a _ => by rw [hnoadds]; split <;> rfl]
    simp
  rw [hfm] at hlive'
  rw [List.append_nil] at hlive'
  have hsubNodup : (liveCoros s').Nodup := by
    refine hnodup.sublist ?_
    rw [hsplit, hlive']
    exact List.Sublist.append (List.filter_sublist _) (List.Sublist.refl _)
  have hwmem : w ∈ liveCoros s' := by
    rw [hlive']
    exact List.mem_append.mpr (Or.inr (List.mem_cons_self _ _))
  have hL1wNodup : (L1 ++ [w]).Nodup := by
    refine hnodup.sublist ?_
    rw [hsplit]
    exact List.Sublist.append (List.Sublist.refl _)
      (List.Sublist.cons₂ _ (List.nil_sublist _))
  have hfin : (rtAfter env rt (L1 ++ [w])).finished w = true :=
    rtAfter_finished_mem env (L1 ++ [w]) rt w hL1wNodup
      (List.mem_append.mpr (Or.inr (List.mem_singleton.mpr rfl)))
      (by rw [hw]; intro h; cases h)
  have hdec : tickDecide env (rtAfter env rt (L1 ++ [w])) w = .done := by
    unfold tickDecide
    rw [hfin]
    rfl
  have hnothr2 : ∀ c ∈ liveCoros s',
      tickDecide env (rtAfter env rt (L1 ++ [w])) c ≠ .thr := by
    intro c hc
    by_cases hcw : c = w
    · rw [hcw, hdec]
      intro h
      cases h
    · show (if (rtAfter env rt (L1 ++ [w])).finished c then ROut.done
        else env.out c ((rtAfter env rt (L1 ++ [w])).count c)) ≠ .thr
      split
      · intro h
        cases h
      · exact hothers c _ hcw
  obtain ⟨s'', heq2, hwf'', hlive''⟩ :=
    tick_ok_master env s' (rtAfter env rt (L1 ++ [w])) hwf' hsubNodup hnothr2
  rw [addsPreview_of_no_adds env s' _ hnoadds, List.append_nil] at hlive''
  rw [heq]
  simp only [TickRes.isOk, TickRes.trace, TickRes.sched, TickRes.rts]
  rw [heq2]
  simp only [TickRes.isOk, TickRes.trace, TickRes.sched, TickRes.rts]
  refine ⟨by trivial, by trivial, hwf', hwmem, hfin, hdec, by trivial, hwmem, ?_, hwf''⟩
  rw [hlive'']
  intro hmem
  have := (List.mem_filter.mp hmem).2
  rw [hdec] at this
  simp at this

/-- C9 witness: schedule holding 10 and 20 where 20's first resume throws
and nothing else ever does: the first tick throws after resuming [10, 20]
with 20 still scheduled, and the next tick resumes 20 again (reporting
done) and removes it. -/
theorem throwing_entry_retained_then_removed_witness :
    (schedAB.tick envThrow RtState.init).isOk = false ∧
    (schedAB.tick envThrow RtState.init).trace = [10, 20] ∧
    20 ∈ liveCoros (schedAB.tick envThrow RtState.init).sched ∧
    (((schedAB.tick envThrow RtState.init).sched).tick envThrow
        ((schedAB.tick envThrow RtState.init).rts)).isOk = true ∧
    20 ∉ liveCoros ((((schedAB.tick envThrow RtState.init).sched).tick envThrow
        ((schedAB.tick envThrow RtState.init).rts)).sched) := by
  have h := throwing_entry_retained_then_removed envThrow schedAB RtState.init [10] 20 []
    (by decide) (by decide) (by decide) (by decide) (by decide)
    (fun _ _ => rfl)
    (by
      intro c k hc
      show (if c = 20 ∧ k = 0 then ROut.thr else ROut.yld) ≠ .thr
      rw [if_neg fun hh => hc hh.1]
      intro h0
      cases h0)
  exact ⟨h.1, h.2.1, h.2.2.2.1, h.2.2.2.2.2.2.1, h.2.2.2.2.2.2.2.2.1⟩

/-- `Schedule.remove` on a well-formed schedule with distinct live handles:
whenever it returns a state (the handle sat at one of the two positions the
stuck search loop can see), that state is well-formed and its live handles
are a sublist of the original ones. -/
theorem remove_ok_wf (s : Schedule) (c : Nat) (s' : Schedule)
    (hwf : wfB s = true) (hnodup : (liveCoros s).Nodup)
    (hrm : s.remove c = .ok s') :
    wfB s' = true ∧ (liveCoros s').Sublist (liveCoros s) := by
  obtain ⟨⟨hInc, hPf, hPb⟩, hSz, hBk⟩ := (wfB_iff s).mp hwf
  unfold Schedule.remove at hrm
  split at hrm
  · exact RmRes.noConfusion hrm
  rename_i f hf
  have hfl : f < s.heap.length := hPf f hf
  have hreachf : reach s = f :: chain s.heap ((s.node f).link) := by
    show chain s.heap s.front = _
    rw [hf]
    exact chain_cons s.heap hInc f hfl
  have hlivef : liveCoros s =
      (s.node f).coro :: corosOf s (chain s.heap ((s.node f).link)) := by
    show corosOf s (reach s) = _
    rw [hreachf]
    rfl
  split at hrm
  · -- the handle sits at the front node
    rename_i hcf
    split at hrm
    · exact RmRes.noConfusion hrm
    rename_i b hb
    have hs'eq := RmRes.ok.inj hrm
    have hbm : b ∈ reach s := by
      have hmo : b ∈ (reach s).getLast? := by
        rw [Option.mem_def, ← hBk]
        exact hb
      rcases List.mem_getLast?_eq_getLast hmo with ⟨hne', heqb⟩
      have hgm := List.getLast_mem hne'
      rwa [← heqb] at hgm
    have hfm : f ∈ reach s := by
      rw [hreachf]
      exact List.mem_cons_self _ _
    by_cases hcb : (s.node b).coro = c
    · -- the front node is also the back node: the schedule empties
      have hbf : b = f := by
        refine List.inj_on_of_nodup_map (f := fun i => (s.node i).coro) ?_ hbm hfm ?_
        · exact hnodup
        · show (s.node b).coro = (s.node f).coro
          rw [hcb, hcf]
      subst hbf
      have hEq : s' = (⟨s.heap, (s.node b).link, (s.node b).link, s.size - 1⟩ :
          Schedule) := by
        rw [← hs'eq, if_pos hcb]
        rfl
      have hlast : (reach s).getLast? = some b := by
        rw [← hBk]
        exact hb
      have hcnil : chain s.heap ((s.node b).link) = [] := by
        refine chain_cons_getLast_self s.heap hInc b hfl ?_
        show (b :: chain s.heap ((s.node b).link)).getLast? = some b
        rw [← hreachf]
        exact hlast
      have hlknone : (s.node b).link = none :=
        chain_eq_nil_link_none s.heap hInc _
          (fun j hj => (hInc b hfl j hj).2) hcnil
      rw [hEq]
      constructor
      · rw [wfB_iff]
        refine ⟨⟨hInc, ?_, ?_⟩, ?_, ?_⟩
        · intro i hi
          rw [hlknone] at hi
          cases hi
        · intro i hi
          rw [hlknone] at hi
          cases hi
        · show s.size - 1 = (chain s.heap ((s.node b).link)).length
          rw [hcnil, hSz, hreachf, hcnil]
          rfl
        · show (s.node b).link = (chain s.heap ((s.node b).link)).getLast?
          rw [hcnil, hlknone]
          rfl
      · show corosOf _ (chain s.heap ((s.node b).link)) |>.Sublist _
        rw [hcnil]
        exact List.nil_sublist _
    · -- the front node is removed, back stays
      have hEq : s' = (⟨s.heap, (s.node f).link, s.back, s.size - 1⟩ : Schedule) := by
        rw [← hs'eq, if_neg hcb]
      have hcne : chain s.heap ((s.node f).link) ≠ [] := by
        intro he
        refine hcb ?_
        have hbf : s.back = some f := by
          rw [hBk, hreachf, he]
          rfl
        rw [hb] at hbf
        rw [Option.some.inj hbf, hcf]
      rw [hEq]
      constructor
      · rw [wfB_iff]
        refine ⟨⟨hInc, fun j hj => (hInc f hfl j hj).2, hPb⟩, ?_, ?_⟩
        · show s.size - 1 = (chain s.heap ((s.node f).link)).length
          rw [hSz, hreachf, List.length_cons]
          omega
        · show s.back = (chain s.heap ((s.node f).link)).getLast?
          have h3 : (f :: chain s.heap ((s.node f).link)).getLast? =
              (chain s.heap ((s.node f).link)).getLast? :=
            List.getLast?_append_of_ne_nil [f] hcne
          rw [hBk, hreachf, h3]
      · show corosOf _ (chain s.heap ((s.node f).link)) |>.Sublist _
        rw [hlivef]
        exact List.sublist_cons_of_sublist _ (List.Sublist.refl _)
  · -- the handle sits at the front node's successor
    rename_i hcf
    split at hrm
    · exact RmRes.noConfusion hrm
    rename_i l hlf
    split at hrm
    swap
    · exact RmRes.noConfusion hrm
    rename_i hcl
    have hs'eq := RmRes.ok.inj hrm
    have hll : l < s.heap.length := (hInc f hfl l hlf).2
    have hflt : f < l := (hInc f hfl l hlf).1
    have hchf : chain s.heap ((s.node f).link) = l :: chain s.heap ((s.node l).link) := by
      rw [show (s.node f).link = some l from hlf]
      exact chain_cons s.heap hInc l hll
    have hPll : PtrOk s.heap (s.node l).link := fun j hj => (hInc l hll j hj).2
    have hlowl : ∀ j, (s.node l).link = some j → f < j := fun j hj => by
      have := (hInc l hll j hj).1
      omega
    have hInc2 : LinksInc (s.heap.set f ⟨(s.node l).link, (s.node f).coro⟩) := by
      intro i hi j hj
      rw [List.length_set] at hi ⊢
      by_cases hif : i = f
      · subst hif
        rw [getD_set_self _ _ _ _ hi] at hj
        exact ⟨by have := hlowl j hj; omega, hPll j hj⟩
      · rw [getD_set_ne _ _ _ _ _ hif] at hj
        exact hInc i hi j hj
    have hchl2 : chain (s.heap.set f ⟨(s.node l).link, (s.node f).coro⟩)
        ((s.node l).link) = chain s.heap ((s.node l).link) := by
      show reachAux _ (s.heap.set f ⟨(s.node l).link, (s.node f).coro⟩).length _ = _
      rw [List.length_set]
      exact reachAux_set_low s.heap f _ hInc s.heap.length _ hPll hlowl
    have hchf2 : chain (s.heap.set f ⟨(s.node l).link, (s.node f).coro⟩) (some f) =
        f :: chain s.heap ((s.node l).link) := by
      rw [chain_cons _ hInc2 f (by rw [List.length_set]; exact hfl),
        getD_set_self _ _ _ _ hfl]
      rw [hchl2]
    have hcorol2 : ∀ (fr bk : Option Nat) (sz : Nat),
        corosOf (⟨s.heap.set f ⟨(s.node l).link, (s.node f).coro⟩, fr, bk, sz⟩ :
          Schedule) (chain s.heap ((s.node l).link)) =
        corosOf s (chain s.heap ((s.node l).link)) := by
      intro fr bk sz
      refine corosOf_congr _ _ _ fun i hi => ?_
      have hgt : l ≤ i := by
        rcases hlk : (s.node l).link with _ | j
        · rw [hlk] at hi
          rw [show chain s.heap none = [] from reachAux_none _ _] at hi
          cases hi
        · rw [hlk] at hi
          have := (chain_bounds s.heap hInc s.heap.length (some j)
            (fun k hk => by cases hk; exact (hInc l hll j hlk).2) i hi).2 j rfl
          have := (hInc l hll j hlk).1
          omega
      show ((s.heap.set f _).getD i _).coro = _
      rw [getD_set_ne _ _ _ _ _ (by omega)]
      rfl
    have hszlen : s.size =
        2 + (chain s.heap ((s.node l).link)).length := by
      rw [hSz, hreachf, hchf, List.length_cons, List.length_cons]
      omega
    have hbacklast : s.back = (l :: chain s.heap ((s.node l).link)).getLast? := by
      have h3 : (f :: l :: chain s.heap ((s.node l).link)).getLast? =
          (l :: chain s.heap ((s.node l).link)).getLast? :=
        List.getLast?_append_of_ne_nil [f] (List.cons_ne_nil _ _)
      rw [hBk, hreachf, hchf, h3]
    by_cases hbl : s.back = some l
    · -- the removed node was last: back pulled to the front node
      have hEq : s' = (⟨s.heap.set f ⟨(s.node l).link, (s.node f).coro⟩, s.front,
          some f, s.size - 1⟩ : Schedule) := by
        rw [← hs'eq, if_pos hbl]
        rfl
      have hcnil : chain s.heap ((s.node l).link) = [] := by
        refine chain_cons_getLast_self s.heap hInc l hll ?_
        show (l :: chain s.heap ((s.node l).link)).getLast? = some l
        rw [← hbacklast]
        exact hbl
      rw [hEq]
      constructor
      · rw [wfB_iff]
        refine ⟨⟨hInc2, ?_, ?_⟩, ?_, ?_⟩
        · intro i hi
          rw [List.length_set]
          exact hPf i hi
        · intro i hi
          cases hi
          rw [List.length_set]
          exact hfl
        · show s.size - 1 = (chain (s.heap.set f ⟨(s.node l).link, (s.node f).coro⟩)
            s.front).length
          rw [hf, hchf2, hszlen, hcnil]
          rfl
        · show some f = (chain (s.heap.set f ⟨(s.node l).link, (s.node f).coro⟩)
            s.front).getLast?
          rw [hf, hchf2, hcnil]
          rfl
      · show corosOf _ (chain (s.heap.set f ⟨(s.node l).link, (s.node f).coro⟩)
          s.front) |>.Sublist _
        rw [hf, hchf2, hcnil, hlivef, hchf, hcnil]
        show [((s.heap.set f ⟨(s.node l).link, (s.node f).coro⟩).getD f ⟨none, 0⟩).coro]
          |>.Sublist _
        rw [getD_set_self _ _ _ _ hfl]
        show [(s.node f).coro].Sublist ((s.node f).coro :: [(s.node l).coro])
        exact List.Sublist.cons₂ _ (List.nil_sublist _)
    · -- the removed node was interior: back stays
      have hEq : s' = (⟨s.heap.set f ⟨(s.node l).link, (s.node f).coro⟩, s.front,
          s.back, s.size - 1⟩ : Schedule) := by
        rw [← hs'eq, if_neg hbl]
      have hcne : chain s.heap ((s.node l).link) ≠ [] := by
        intro he
        refine hbl ?_
        rw [hbacklast, he]
        rfl
      rw [hEq]
      constructor
      · rw [wfB_iff]
        refine ⟨⟨hInc2, ?_, ?_⟩, ?_, ?_⟩
        · intro i hi
          rw [List.length_set]
          exact hPf i hi
        · intro i hi
          rw [List.length_set]
          exact hPb i hi
        · show s.size - 1 = (chain (s.heap.set f ⟨(s.node l).link, (s.node f).coro⟩)
            s.front).length
          rw [hf, hchf2, hszlen, List.length_cons]
          omega
        · show s.back = (chain (s.heap.set f ⟨(s.node l).link, (s.node f).coro⟩)
            s.front).getLast?
          have h4 : (f :: chain s.heap ((s.node l).link)).getLast? =
              (chain s.heap ((s.node l).link)).getLast? :=
            List.getLast?_append_of_ne_nil [f] hcne
          have h5 : (l :: chain s.heap ((s.node l).link)).getLast? =
              (chain s.heap ((s.node l).link)).getLast? :=
            List.getLast?_append_of_ne_nil [l] hcne
          rw [hf, hchf2, h4, hbacklast, h5]
      · show corosOf _ (chain (s.heap.set f ⟨(s.node l).link, (s.node f).coro⟩)
          s.front) |>.Sublist _
        rw [hf, hchf2, hlivef, hchf]
        show (((s.heap.set f ⟨(s.node l).link, (s.node f).coro⟩).getD f ⟨none, 0⟩).coro ::
          corosOf _ (chain s.heap ((s.node l).link))).Sublist _
        rw [getD_set_self _ _ _ _ hfl]
        show ((s.node f).coro :: corosOf _ (chain s.heap ((s.node l).link))).Sublist
          ((s.node f).coro :: (s.node l).coro :: corosOf s (chain s.heap ((s.node l).link)))
        rw [hcorol2]
        exact List.Sublist.cons₂ _ (List.sublist_cons_of_sublist _ (List.Sublist.refl _))

/-- `Schedule.removeAll` on a well-formed schedule: O(1) pointer clearing
leaves a well-formed empty schedule. -/
theorem removeAll_wf (s : Schedule) (hwf : wfB s = true) :
    wfB s.removeAll = true ∧ liveCoros s.removeAll = [] := by
  obtain ⟨⟨hInc, -, -⟩, -, -⟩ := (wfB_iff s).mp hwf
  have hre : reach s.removeAll = [] := reachAux_none _ _
  constructor
  · rw [wfB_iff]
    refine ⟨⟨hInc, ?_, ?_⟩, ?_, ?_⟩
    · intro i hi
      cases hi
    · intro i hi
      cases hi
    · rw [hre]
      rfl
    · rw [hre]
      rfl
  · show corosOf _ (reach s.removeAll) = []
    rw [hre]
    rfl

/-- Invariant preservation along any admissible driver-operation sequence:
whenever `runOps` produces an after-state, it is well-formed and its live
handles are distinct. -/
theorem runOps_wf (env : CoroEnv) :
    ∀ (ops : List Op) (s : Schedule) (rt : RtState),
      wfB s = true → (liveCoros s).Nodup → OpsOk env ops s rt = true →
      ∀ p ∈ runOps env ops s rt, wfB p.1 = true ∧ (liveCoros p.1).Nodup := by
  intro ops
  induction ops with
  | nil =>
      intro s rt hwf hnd hok p hp
      have hpe : (some (s, rt) : Option (Schedule × RtState)) = some p :=
        Option.mem_def.mp hp
      cases Option.some.inj hpe
      exact ⟨hwf, hnd⟩
  | cons op ops ih =>
      intro s rt hwf hnd hok p hp
      cases op with
      | add c =>
          rw [show OpsOk env (Op.add c :: ops) s rt =
              (!decide (c ∈ liveCoros s) &&
                (match s.add c with
                 | none => true
                 | some s' => OpsOk env ops s' rt)) from rfl,
            Bool.and_eq_true] at hok
          obtain ⟨hfresh, hmatch⟩ := hok
          rw [Bool.not_eq_true'] at hfresh
          have hcnot : c ∉ liveCoros s := of_decide_eq_false hfresh
          obtain ⟨s', hadd, hwf', hlen', hreach', hcoro', hlive', -⟩ := add_spec s c hwf
          rw [hadd] at hmatch
          have hp' : p ∈ runOps env ops s' rt := by
            have hre : runOps env (Op.add c :: ops) s rt = runOps env ops s' rt := by
              show (match s.add c with
                | none => none
                | some s2 => runOps env ops s2 rt) = _
              rw [hadd]
            rwa [hre] at hp
          refine ih s' rt hwf' ?_ hmatch p hp'
          rw [hlive', List.nodup_append]
          refine ⟨hnd, List.nodup_singleton _, ?_⟩
          intro a ha hb
          rw [List.mem_singleton] at hb
          subst hb
          exact hcnot ha
      | remove c =>
          rw [show OpsOk env (Op.remove c :: ops) s rt =
              (match s.remove c with
               | .ok s' => OpsOk env ops s' rt
               | .thrown => OpsOk env ops s rt
               | .hang => true) from rfl] at hok
          rw [show runOps env (Op.remove c :: ops) s rt =
              (match s.remove c with
               | .ok s' => runOps env ops s' rt
               | .thrown => runOps env ops s rt
               | .hang => none) from rfl] at hp
          rcases hrm : s.remove c with s'' | _ | _
          · rw [hrm] at hok hp
            obtain ⟨hwf', hsub⟩ := remove_ok_wf s c s'' hwf hnd hrm
            exact ih s'' rt hwf' (hnd.sublist hsub) hok p hp
          · rw [hrm] at hok hp
            exact ih s rt hwf hnd hok p hp
          · rw [hrm] at hp
            simp at hp
      | removeAll =>
          obtain ⟨hwf', hlive'⟩ := removeAll_wf s hwf
          exact ih s.removeAll rt hwf' (by rw [hlive']; exact List.nodup_nil) hok p hp
      | tick =>
          rw [show OpsOk env (Op.tick :: ops) s rt =
              (decide (liveCoros s ++ addsPreview env s rt).Nodup &&
                (match s.tick env rt with
                 | .ok s' rt' _ => OpsOk env ops s' rt'
                 | .thrown s' rt' _ => OpsOk env ops s' rt')) from rfl,
            Bool.and_eq_true] at hok
          obtain ⟨hndall', hmatch⟩ := hok
          have hndall : (liveCoros s ++ addsPreview env s rt).Nodup :=
            of_decide_eq_true hndall'
          rw [show runOps env (Op.tick :: ops) s rt =
              (match s.tick env rt with
               | .ok s' rt' _ => runOps env ops s' rt'
               | .thrown s' rt' _ => runOps env ops s' rt') from rfl] at hp
          rcases list_first_split (fun c => tickDecide env rt c = .thr) (liveCoros s)
            with hno | ⟨L1, w, L2, hsp, hL1, hwthr⟩
          · obtain ⟨s', heq, hwf', hlive'⟩ := tick_ok_master env s rt hwf hnd hno
            rw [heq] at hmatch hp
            refine ih s' (rtAfter env rt (liveCoros s)) hwf' ?_ hmatch p hp
            rw [hlive']
            exact hndall.sublist
              (List.Sublist.append (List.filter_sublist _) (List.Sublist.refl _))
          · obtain ⟨s', heq, hwf', hlive'⟩ :=
              tick_thrown_master env s rt L1 w L2 hwf hnd hsp hL1 hwthr
            rw [heq] at hmatch hp
            refine ih s' (rtAfter env rt (L1 ++ [w])) hwf' ?_ hmatch p hp
            rw [hlive']
            refine hndall.sublist ?_
            have haux : List.Sublist ((L1 ++ [w]).flatMap
                  fun c => if rt.finished c then [] else env.adds c (rt.count c))
                (addsPreview env s rt) := by
              show List.Sublist _ ((liveCoros s).flatMap
                fun c => if rt.finished c then [] else env.adds c (rt.count c))
              rw [hsp, show L1 ++ w :: L2 = (L1 ++ [w]) ++ L2 from by simp]
              conv_rhs => rw [List.flatMap_append]
              exact List.sublist_append_left _ _
            have hfirst : List.Sublist
                (L1.filter (fun c => decide (tickDecide env rt c ≠ .done)) ++ (w :: L2))
                (liveCoros s) := by
              rw [hsp]
              exact List.Sublist.append (List.filter_sublist _) (List.Sublist.refl _)
            exact List.Sublist.append hfirst haux

/-- C4: (i) after any admissible sequence of add/remove/removeAll/tick
driver operations from a well-formed schedule with distinct live handles,
any state the run produces is well-formed — its `size` equals the number of
entries reachable from `front` and `back` is the last reachable entry (or
null at size 0), by definition of `wfB`; (ii) this holds in particular
immediately after a `tick()` in which a resume threw partway through: the
tick reports the throw, leaves a well-formed schedule, and every entry not
yet visited in that tick (the thrower included) is still scheduled. -/
theorem size_back_invariant_after_ops (env : CoroEnv) :
    (∀ (ops : List Op) (s : Schedule) (rt : RtState),
      wfB s = true → (liveCoros s).Nodup → OpsOk env ops s rt = true →
      ∀ p ∈ runOps env ops s rt, wfB p.1 = true) ∧
    (∀ (s : Schedule) (rt : RtState) (L1 : List Nat) (w : Nat) (L2 : List Nat),
      wfB s = true → (liveCoros s).Nodup →
      liveCoros s = L1 ++ w :: L2 →
      (∀ c ∈ L1, tickDecide env rt c ≠ .thr) →
      tickDecide env rt w = .thr →
      (s.tick env rt).isOk = false ∧
      wfB (s.tick env rt).sched = true ∧
      ∀ c ∈ w :: L2, c ∈ liveCoros ((s.tick env rt).sched)) := by
  constructor
  · intro ops s rt hwf hnd hok p hp
    exact (runOps_wf env ops s rt hwf hnd hok p hp).1
  · intro s rt L1 w L2 hwf hnd hsp hL1 hw
    obtain ⟨s', heq, hwf', hlive'⟩ :=
      tick_thrown_master env s rt L1 w L2 hwf hnd hsp hL1 hw
    rw [heq]
    simp only [TickRes.isOk, TickRes.sched]
    refine ⟨by trivial, hwf', ?_⟩
    intro c hc
    rw [hlive']
    exact List.mem_append.mpr (Or.inl (List.mem_append.mpr (Or.inr hc)))

/-- C4 witness: starting from the two-entry schedule, run a tick in which
coroutine 20 throws partway, a second tick, an add, a remove, a third tick,
a removeAll and a final add; the sequence is admissible and the final state
is well-formed. -/
theorem size_back_invariant_after_ops_witness :
    (wfB schedAB = true ∧ (liveCoros schedAB).Nodup ∧
      OpsOk envThrow opsC4 schedAB RtState.init = true) ∧
    (runOps envThrow opsC4 schedAB RtState.init).all (fun p => wfB p.1) = true := by
  have h := (size_back_invariant_after_ops envThrow).1 opsC4 schedAB RtState.init
    (by decide) (by decide) (by decide)
  refine ⟨⟨by decide, by decide, by decide⟩, ?_⟩
  rcases heval : runOps envThrow opsC4 schedAB RtState.init with _ | p
  · rfl
  · show (wfB p.1) = true
    exact h p (Option.mem_def.mpr heval)
